import Mathlib

/-!
Verification of blobdetect: single-pass 4-connected blob detection

Shallow embedding of `detect.go` and `arraycache.go`.

* `float64` is modelled by an arbitrary field `F` with decidable equality together with a
  square-root function passed as a parameter; the theorems instantiate `F := ℝ` and
  `Real.sqrt` (exact real arithmetic). The rounding of `float64` is not modelled: the running
  sums of `Detect` are exact in `float64` only while they stay below `2^53`, and the
  deviations `sqrt(Xdev/Weight - X*X)` computed from them are exact only then.
* Go slices are lists, slice indexing and slice expressions return `Option`
  (`none` is the run-time panic).
* The package-level channel `arrayCache` is passed explicitly as a FIFO list of slices.
-/

set_option autoImplicit false

namespace Blobdetect

/-! ## Data model -/

/-- Go `image.Point`. -/
structure Point where
  X : ℤ
  Y : ℤ
deriving DecidableEq, Repr

/-- Go `image.Rectangle`. -/
structure Rectangle where
  Min : Point
  Max : Point
deriving DecidableEq, Repr

/-- Go `Rectangle.Dx`. -/
def Rectangle.Dx (r : Rectangle) : ℤ := r.Max.X - r.Min.X

/-- Go `Rectangle.Dy`. -/
def Rectangle.Dy (r : Rectangle) : ℤ := r.Max.Y - r.Min.Y

/-- Go `image.Gray`: the samples are `uint8` values, kept as naturals (they are only read). -/
structure Gray where
  Pix : List ℕ
  Stride : ℤ
  Rect : Rectangle
deriving DecidableEq, Repr

/-- Go `(*Gray).Bounds`. -/
def Gray.Bounds (p : Gray) : Rectangle := p.Rect

/-- Go `(*Gray).PixOffset`. -/
def Gray.PixOffset (p : Gray) (x y : ℤ) : ℤ :=
  (y - p.Rect.Min.Y) * p.Stride + (x - p.Rect.Min.X) * 1

/-- The `Blob` struct of `detect.go`, over the number type `F` standing for `float64`. -/
structure Blob (F : Type) where
  X : F
  Y : F
  Xdev : F
  Ydev : F
  Weight : F
deriving DecidableEq, Repr

/-- A Go `[]int`: the visible cells, and the further cells of the backing array up to the
capacity. -/
structure IntSlice where
  cells : List ℤ
  spare : List ℤ
deriving DecidableEq, Repr

/-- Go `cap` of an `[]int`. -/
def IntSlice.cap (b : IntSlice) : ℕ := b.cells.length + b.spare.length

/-- Contents of the buffered channel `arrayCache`, oldest element first. -/
abbrev ArrayCache := List IntSlice

/-- Buffer size of the channel `arrayCache` (`make(chan []int, 10)`). -/
def arrayCacheCap : ℕ := 10

/-- The two variables mutated by the scan loop of `Detect`. -/
structure ScanState (F : Type) where
  indicies : List ℤ
  out : List (Blob F)

/-- A pixel position as the scan loop sees it: `x` is the index into the row slice,
`y` the image row. -/
abbrev Pixel := ℕ × ℤ

/-! ## Go slice primitives -/

/-- Go index expression `l[i]` for reading; `none` when out of range. -/
def index? {α : Type} (l : List α) (i : ℤ) : Option α :=
  if 0 ≤ i then l[i.toNat]? else none

/-- Go assignment `l[i] = a`; `none` when out of range. -/
def assign {α : Type} (l : List α) (i : ℤ) (a : α) : Option (List α) :=
  if 0 ≤ i ∧ i < l.length then some (l.set i.toNat a) else none

/-- Go slice expression `l[lo:hi]` (capacity taken equal to the length). -/
def sliceRange {α : Type} (l : List α) (lo hi : ℤ) : Option (List α) :=
  if 0 ≤ lo ∧ lo ≤ hi ∧ hi ≤ l.length then some ((l.drop lo.toNat).take (hi - lo).toNat)
  else none

/-! ## arraycache.go -/

/-- Go `make([]int, size)`; panics on a negative size. -/
def makeInts (size : ℤ) : Option IntSlice :=
  if 0 ≤ size then some ⟨List.replicate size.toNat 0, []⟩ else none

/-- `getIntArray`: a non-blocking receive from the channel; the received slice is used when
its capacity suffices, otherwise it is dropped and a fresh array is made. -/
def getIntArray (arrayCache : ArrayCache) (size : ℤ) : Option (IntSlice × ArrayCache) :=
  match arrayCache with
  | b :: rest =>
    if (b.cap : ℤ) ≥ size then
      if 0 ≤ size then
        some (⟨(b.cells ++ b.spare).take size.toNat, (b.cells ++ b.spare).drop size.toNat⟩, rest)
      else none
    else (makeInts size).map (fun a => (a, rest))
  | [] => (makeInts size).map (fun a => (a, []))

/-- `releaseIntArray`: a non-blocking send to the channel. -/
def releaseIntArray (arrayCache : ArrayCache) (arr : IntSlice) : ArrayCache :=
  if arrayCache.length < arrayCacheCap then arrayCache ++ [arr] else arrayCache

/-! ## detect.go -/

section Code

variable {F : Type} [Field F] [DecidableEq F]

/-- `convertToGray` on a value that already is an `*image.Gray`. -/
def convertToGray (i : Gray) : Gray := i

/-- The merge block of `Detect` (lines 116-130): fold `leftBlob` into `upBlob`, rewrite the
row state, tombstone `leftBlob`. -/
def mergeBlobs (upBlob leftBlob : ℤ) (st : ScanState F) : Option (ScanState F) := do
  let u ← index? st.out upBlob
  let l ← index? st.out leftBlob
  let out1 ← assign st.out upBlob
    ⟨u.X + l.X, u.Y + l.Y, u.Xdev + l.Xdev, u.Ydev + l.Ydev, u.Weight + l.Weight⟩
  let indicies := st.indicies.map (fun c => if c = leftBlob then upBlob else c)
  let l1 ← index? out1 leftBlob
  let out2 ← assign out1 leftBlob { l1 with Weight := -1 }
  some ⟨indicies, out2⟩

/-- The value of `leftBlob` at index `x` (lines 75-80). -/
def leftOf (indicies : List ℤ) (x : ℕ) : Option ℤ :=
  if x > 0 then index? indicies ((x : ℤ) - 1) else some (-1)

/-- Body of the inner loop of `Detect` for the sample `v` at index `x` of row `y`. -/
def pixelStep (y : ℤ) (x : ℕ) (v : ℕ) (st : ScanState F) : Option (ScanState F) :=
  if v = 0 then
    (assign st.indicies x (-1)).map (fun ind => ⟨ind, st.out⟩)
  else do
    let upBlob ← index? st.indicies x
    let leftBlob ← leftOf st.indicies x
    let vf : F := (v : F)
    let xf : F := (x : F)
    let yf : F := (y : F)
    let xf2 := xf * xf
    let yf2 := yf * yf
    if upBlob = -1 ∧ leftBlob = -1 then
      let out := st.out ++ [⟨xf * vf, yf * vf, xf2 * vf, yf2 * vf, vf⟩]
      (assign st.indicies x ((out.length : ℤ) - 1)).map (fun ind => ⟨ind, out⟩)
    else do
      let (addTo, st1) ←
        (if upBlob ≠ -1 ∧ leftBlob = -1 then some (upBlob, st)
         else if upBlob = -1 ∧ leftBlob ≠ -1 then some (leftBlob, st)
         else if upBlob = leftBlob then some (upBlob, st)
         else (mergeBlobs upBlob leftBlob st).map (fun s => (upBlob, s)))
      let b ← index? st1.out addTo
      let out ← assign st1.out addTo
        ⟨b.X + xf * vf, b.Y + yf * vf, b.Xdev + xf2 * vf, b.Ydev + yf2 * vf, b.Weight + vf⟩
      let ind ← assign st1.indicies x addTo
      some ⟨ind, out⟩

/-- The loop `for x, v := range rowData`, started at index `x`. -/
def scanRow (y : ℤ) : ℕ → List ℕ → ScanState F → Option (ScanState F)
  | _, [], st => some st
  | x, v :: vs, st => (pixelStep y x v st).bind (scanRow y (x + 1) vs)

/-- The slice `rowData` of row `y`. -/
def rowData (gray : Gray) (y : ℤ) : Option (List ℕ) :=
  sliceRange gray.Pix (gray.PixOffset gray.Bounds.Min.X y) (gray.PixOffset gray.Bounds.Max.X y)

/-- The loop `for y := ...; y < bounds.Max.Y; y++` with `n` rows left, the next one being `y`. -/
def scanRows (gray : Gray) : ℕ → ℤ → ScanState F → Option (ScanState F)
  | 0, _, st => some st
  | n + 1, y, st =>
    (rowData gray y).bind fun row =>
      (scanRow y 0 row st).bind (scanRows gray n (y + 1))

/-- Body of the finalize loop for index `i`; a zero divisor is reported as `none`. -/
def finalizeStep (sqrt : F → F) (st : List (Blob F) × ℕ) (i : ℕ) :
    Option (List (Blob F) × ℕ) := do
  let b ← index? st.1 i
  if b.Weight = -1 then
    some (st.1, st.2 + 1)
  else
    if b.Weight = 0 then none
    else
      let X := b.X / b.Weight
      let Y := b.Y / b.Weight
      let b1 : Blob F :=
        ⟨X, Y, sqrt (b.Xdev / b.Weight - X * X), sqrt (b.Ydev / b.Weight - Y * Y), b.Weight⟩
      let out1 ← assign st.1 i b1
      let b2 ← index? out1 i
      let out2 ← assign out1 ((i : ℤ) - st.2) b2
      some (out2, st.2)

/-- The loop `for i := range out` of the finalizer over the given indices. -/
def finalizeLoop (sqrt : F → F) : List ℕ → List (Blob F) × ℕ → Option (List (Blob F) × ℕ)
  | [], st => some st
  | i :: is, st => (finalizeStep sqrt st i).bind (finalizeLoop sqrt is)

/-- The finalizer of `Detect` (lines 148-166). -/
def finalize (sqrt : F → F) (out : List (Blob F)) : Option (List (Blob F)) :=
  (finalizeLoop sqrt (List.range out.length) (out, 0)).bind fun r =>
    sliceRange r.1 0 ((r.1.length : ℤ) - r.2)

/-- Go `Detect`, with the channel contents before and after the call made explicit. -/
def Detect (sqrt : F → F) (arrayCache : ArrayCache) (source : Gray) (out : List (Blob F)) :
    Option (List (Blob F) × ArrayCache) :=
  let gray := convertToGray source
  let bounds := gray.Bounds
  let out := if out.length > 0 then out.take 0 else out
  (getIntArray arrayCache bounds.Dx).bind fun got =>
    let indicies := got.1.cells.map (fun _ => (-1 : ℤ))
    (scanRows gray bounds.Dy.toNat bounds.Min.Y ⟨indicies, out⟩).bind fun st =>
      let cache := releaseIntArray got.2 ⟨st.indicies, got.1.spare⟩
      (finalize sqrt st.out).map fun res => (res, cache)

end Code

/-! ## Specification vocabulary -/

/-- The row slices taken by `Detect` lie within `Pix`: the bounds are not inverted and, for
each row of the bounds, the slice `Pix[PixOffset(Min.X, y) : PixOffset(Max.X, y)]` is in
range. -/
def Gray.WellFormed (g : Gray) : Prop :=
  g.Rect.Min.X ≤ g.Rect.Max.X ∧ g.Rect.Min.Y ≤ g.Rect.Max.Y ∧
    ∀ j, j < g.Rect.Dy.toNat →
      0 ≤ (j : ℤ) * g.Stride ∧ (j : ℤ) * g.Stride + g.Rect.Dx ≤ (g.Pix.length : ℤ)

instance (g : Gray) : Decidable g.WellFormed := by
  unfold Gray.WellFormed; infer_instance

/-- Sample of the grid at index `p.1` of image row `p.2` (zero outside the bounds). -/
def Gray.sample (g : Gray) (p : Pixel) : ℕ :=
  if p.1 < g.Rect.Dx.toNat ∧ g.Rect.Min.Y ≤ p.2 ∧ p.2 < g.Rect.Max.Y then
    g.Pix.getD (g.PixOffset (g.Rect.Min.X + p.1) p.2).toNat 0
  else 0

/-- Foreground pixels: the nonzero samples inside the bounds. -/
def Gray.fg (g : Gray) (p : Pixel) : Prop := g.sample p ≠ 0

/-- Horizontal or vertical adjacency. -/
def adj4 (a b : Pixel) : Prop :=
  (a.1 = b.1 ∧ (a.2 = b.2 + 1 ∨ b.2 = a.2 + 1)) ∨
    (a.2 = b.2 ∧ (a.1 = b.1 + 1 ∨ b.1 = a.1 + 1))

/-- Adjacent pixels that both belong to `S`. -/
def Link (S : Pixel → Prop) (a b : Pixel) : Prop := S a ∧ S b ∧ adj4 a b

/-- Joined by a path of adjacent pixels of `S`. -/
def Conn (S : Pixel → Prop) : Pixel → Pixel → Prop := Relation.ReflTransGen (Link S)

/-- A maximal 4-connected set of foreground pixels of the grid. -/
def IsComponent (g : Gray) (C : Finset Pixel) : Prop :=
  C.Nonempty ∧ ∀ a ∈ C, ∀ b, b ∈ C ↔ (g.fg b ∧ Conn g.fg a b)

/-- Number of maximal 4-connected components of nonzero pixels. -/
noncomputable def numComponents (g : Gray) : ℕ :=
  Set.ncard {C : Finset Pixel | IsComponent g C}

/-- Row-major scan order on pixel positions. -/
def rmLt (a b : Pixel) : Prop := a.2 < b.2 ∨ (a.2 = b.2 ∧ a.1 < b.1)

/-- The accumulator the scan holds for a set of pixels: the weighted coordinate sums. -/
def rawSums (V : Pixel → ℕ) (C : Finset Pixel) : Blob ℝ :=
  ⟨∑ p in C, (p.1 : ℝ) * (V p : ℝ), ∑ p in C, (p.2 : ℝ) * (V p : ℝ),
   ∑ p in C, (p.1 : ℝ) * (p.1 : ℝ) * (V p : ℝ), ∑ p in C, (p.2 : ℝ) * (p.2 : ℝ) * (V p : ℝ),
   ∑ p in C, (V p : ℝ)⟩

/-- Weighted mean and population standard deviation of a set of pixels, in exact real
arithmetic. -/
noncomputable def moments (V : Pixel → ℕ) (C : Finset Pixel) : Blob ℝ :=
  let W : ℝ := ∑ p in C, (V p : ℝ)
  let mx : ℝ := (∑ p in C, (V p : ℝ) * (p.1 : ℝ)) / W
  let my : ℝ := (∑ p in C, (V p : ℝ) * (p.2 : ℝ)) / W
  ⟨mx, my, Real.sqrt ((∑ p in C, (V p : ℝ) * (p.1 : ℝ) ^ 2) / W - mx ^ 2),
   Real.sqrt ((∑ p in C, (V p : ℝ) * (p.2 : ℝ) ^ 2) / W - my ^ 2), W⟩

/-! ## Proof vocabulary -/

/-- Pixels of a grid of width `w` starting at row `y0` that the scan has passed when it is
about to process index `xc` of row `yc`. -/
def Scanned (V : Pixel → ℕ) (w : ℕ) (y0 yc : ℤ) (xc : ℕ) (a : Pixel) : Prop :=
  a.1 < w ∧ y0 ≤ a.2 ∧ V a ≠ 0 ∧ (a.2 < yc ∨ (a.2 = yc ∧ a.1 < xc))

/-- The classes `cls i` are exactly the `Conn S` classes of `S`. -/
structure Classes (S : Pixel → Prop) (cls : ℕ → Finset Pixel) : Prop where
  sub : ∀ i a, a ∈ cls i → S a
  cover : ∀ a, S a → ∃ i, a ∈ cls i
  conn : ∀ i a b, a ∈ cls i → b ∈ cls i → Conn S a b
  sep : ∀ i j a b, a ∈ cls i → b ∈ cls j → Conn S a b → i = j

/-- Classes after the pixel `p` joined the classes `t` and `l`. -/
def joinCls (cls : ℕ → Finset Pixel) (t l : ℕ) (p : Pixel) : ℕ → Finset Pixel :=
  fun i => if i = t then insert p (cls t ∪ cls l) else if i = l then ∅ else cls i

/-- Foreground pixels of a grid of width `w` whose first row is `y0`. -/
def Fore (V : Pixel → ℕ) (w : ℕ) (y0 : ℤ) (a : Pixel) : Prop :=
  a.1 < w ∧ y0 ≤ a.2 ∧ V a ≠ 0

/-- The pixel whose region id the cell `c` of the row state holds when the scan is about to
process index `xc` of row `yc`: the current row left of `xc`, the previous row from `xc` on. -/
def frontier (yc : ℤ) (xc c : ℕ) : Pixel := if c < xc then (c, yc) else (c, yc - 1)

/-- The pixels at which the entries of the region list were created. -/
structure Seeds (V : Pixel → ℕ) (w : ℕ) (y0 yc : ℤ) (xc n : ℕ) (seed : ℕ → Pixel) : Prop where
  lt : ∀ i j, i < j → j < n → rmLt (seed i) (seed j)
  sc : ∀ i, i < n → Scanned V w y0 yc xc (seed i)
  corner : ∀ i, i < n → ¬ Fore V w y0 ((seed i).1, (seed i).2 - 1) ∧
    ∀ x, (seed i).1 = x + 1 → ¬ Fore V w y0 (x, (seed i).2)

/-- Invariant of the scan loop when it is about to process index `xc` of row `yc`, with the
ghost classes `cls` (pixels accumulated in each region entry) and `seed`. -/
structure Inv (V : Pixel → ℕ) (w : ℕ) (y0 yc : ℤ) (xc : ℕ) (st : ScanState ℝ)
    (cls : ℕ → Finset Pixel) (seed : ℕ → Pixel) : Prop where
  len : st.indicies.length = w
  classes : Classes (Scanned V w y0 yc xc) cls
  oob : ∀ i, st.out.length ≤ i → cls i = ∅
  dead : ∀ i b, st.out[i]? = some b → cls i = ∅ → b.Weight = -1
  sums : ∀ i b, st.out[i]? = some b → (cls i).Nonempty → b = rawSums V (cls i)
  front_in : ∀ c, c < w → Scanned V w y0 yc xc (frontier yc xc c) →
    ∃ i : ℕ, st.indicies[c]? = some (i : ℤ) ∧ frontier yc xc c ∈ cls i
  front_out : ∀ c, c < w → ¬ Scanned V w y0 yc xc (frontier yc xc c) →
    st.indicies[c]? = some (-1)
  seed_mem : ∀ i, (cls i).Nonempty → seed i ∈ cls i
  seeds : Seeds V w y0 yc xc st.out.length seed

section FinalizeSpec

variable {F : Type} [Field F] [DecidableEq F]

/-- Finalized form of one accumulator entry (lines 158-161). -/
def finBlob (sqrt : F → F) (b : Blob F) : Blob F :=
  ⟨b.X / b.Weight, b.Y / b.Weight,
   sqrt (b.Xdev / b.Weight - b.X / b.Weight * (b.X / b.Weight)),
   sqrt (b.Ydev / b.Weight - b.Y / b.Weight * (b.Y / b.Weight)), b.Weight⟩

/-- The finalizer read as a filter followed by a map. -/
def finalizeSpec (sqrt : F → F) (out : List (Blob F)) : List (Blob F) :=
  (out.filter (fun b => decide (b.Weight ≠ -1))).map (finBlob sqrt)

/-- Invariant of the finalize loop before index `i`, for the original list `out`. -/
def FinInv (sqrt : F → F) (out : List (Blob F)) (i : ℕ) (st : List (Blob F) × ℕ) : Prop :=
  st.1.length = out.length ∧ (finalizeSpec sqrt (out.take i)).length + st.2 = i ∧
    (∀ k, k < i - st.2 → st.1[k]? = (finalizeSpec sqrt (out.take i))[k]?) ∧
    (∀ k, i ≤ k → st.1[k]? = out[k]?)

end FinalizeSpec

/-- Indices below `n` of the region entries that are alive: those with a nonempty class. -/
def liveIdx (n : ℕ) (cls : ℕ → Finset Pixel) : List ℕ :=
  (List.range n).filter (fun i => decide (cls i).Nonempty)

/-- The pixel `s` is foreground and has no foreground pixel above it or to its left: a place
where the scan creates a new region entry. -/
def Corner (g : Gray) (s : Pixel) : Prop :=
  g.fg s ∧ ¬ g.fg (s.1, s.2 - 1) ∧ ∀ x, s.1 = x + 1 → ¬ g.fg (x, s.2)

/-- The list `comps` enumerates the maximal 4-connected components of the grid, each once. -/
def Enumerates (g : Gray) (comps : List (Finset Pixel)) : Prop :=
  comps.Nodup ∧ ∀ C, C ∈ comps ↔ IsComponent g C

/-- The blob `b` carries the total weight and the weighted mean position of the pixel set `C`
(`v` the sample, `p.1` the column, `p.2` the row). -/
def MomentSpec (V : Pixel → ℕ) (C : Finset Pixel) (b : Blob ℝ) : Prop :=
  b.Weight = ∑ p in C, (V p : ℝ) ∧
    b.X = (∑ p in C, (V p : ℝ) * (p.1 : ℝ)) / b.Weight ∧
    b.Y = (∑ p in C, (V p : ℝ) * (p.2 : ℝ)) / b.Weight

/-- The fields `Xdev`, `Ydev` of `b` are the weighted population standard deviations of the
pixel set `C`: the argument of the square root is non-negative, the deviations are
non-negative and satisfy the second-moment identity. -/
def DeviationSpec (V : Pixel → ℕ) (C : Finset Pixel) (b : Blob ℝ) : Prop :=
  (0 ≤ (∑ p in C, (V p : ℝ) * (p.1 : ℝ) ^ 2) / b.Weight - b.X ^ 2 ∧
    b.Xdev = Real.sqrt ((∑ p in C, (V p : ℝ) * (p.1 : ℝ) ^ 2) / b.Weight - b.X ^ 2) ∧
    0 ≤ b.Xdev ∧ b.Xdev ^ 2 + b.X ^ 2 = (∑ p in C, (V p : ℝ) * (p.1 : ℝ) ^ 2) / b.Weight) ∧
  (0 ≤ (∑ p in C, (V p : ℝ) * (p.2 : ℝ) ^ 2) / b.Weight - b.Y ^ 2 ∧
    b.Ydev = Real.sqrt ((∑ p in C, (V p : ℝ) * (p.2 : ℝ) ^ 2) / b.Weight - b.Y ^ 2) ∧
    0 ≤ b.Ydev ∧ b.Ydev ^ 2 + b.Y ^ 2 = (∑ p in C, (V p : ℝ) * (p.2 : ℝ) ^ 2) / b.Weight) ∧
  ((∀ p ∈ C, V p = 1) →
    b.Xdev ^ 2 + b.X ^ 2 = (∑ p in C, (p.1 : ℝ) ^ 2) / (C.card : ℝ))

/-- The 3x2 grid `1 0 1 / 1 1 1`. -/
def gridU : Gray := ⟨[1, 0, 1, 1, 1, 1], 3, ⟨⟨0, 0⟩, ⟨3, 2⟩⟩⟩

/-- The 4x3 grid `1 0 1 0 / 1 0 0 1 / 1 1 1 1`. -/
def gridE : Gray := ⟨[1, 0, 1, 0, 1, 0, 0, 1, 1, 1, 1, 1], 4, ⟨⟨0, 0⟩, ⟨4, 3⟩⟩⟩

/-- The pixel `a` is the first pixel of `C` in row-major scan order (topmost, then
leftmost). -/
def IsFirstPixel (C : Finset Pixel) (a : Pixel) : Prop :=
  a ∈ C ∧ ∀ b ∈ C, b = a ∨ rmLt a b

/-- The blobs are paired with the components and listed in the scan order of the first pixels
of their components. -/
def FirstPixelOrder (g : Gray) (blobs : List (Blob ℝ)) : Prop :=
  ∃ (comps : List (Finset Pixel)) (firsts : List Pixel),
    Enumerates g comps ∧ List.Forall₂ (MomentSpec g.sample) comps blobs ∧
      List.Forall₂ (fun a C => IsFirstPixel C a) firsts comps ∧ firsts.Pairwise rmLt

/-- State of the scan loop of `Detect` when it is about to process index `x` of the `j`-th row
of the bounds: the rows before it have been scanned, and the first `x` samples of the row. -/
def stateBefore {F : Type} [Field F] [DecidableEq F] (g : Gray) (j x : ℕ) :
    Option (ScanState F) :=
  (scanRows g j g.Rect.Min.Y ⟨List.replicate g.Rect.Dx.toNat (-1), []⟩).bind fun st =>
    (rowData g (g.Rect.Min.Y + j)).bind fun row =>
      scanRow (g.Rect.Min.Y + j) 0 (row.take x) st

/-- The scan performs a merge at index `x` of the `j`-th row: the sample is nonzero and the
cells above and to the left hold the different region ids `upBlob` and `leftBlob`. -/
def IsMerge (g : Gray) (j x : ℕ) (upBlob leftBlob : ℤ) : Prop :=
  ∃ (st : ScanState ℝ) (row : List ℕ) (v : ℕ),
    j < g.Rect.Dy.toNat ∧ stateBefore (F := ℝ) g j x = some st ∧
      rowData g (g.Rect.Min.Y + j) = some row ∧ row[x]? = some v ∧ v ≠ 0 ∧
      index? st.indicies x = some upBlob ∧ leftOf st.indicies x = some leftBlob ∧
      upBlob ≠ -1 ∧ leftBlob ≠ -1 ∧ upBlob ≠ leftBlob

/-- The scan creates the entry `i` of the region list at the pixel `p`: when it is about to
process `p`, the sample is nonzero, the cells above and to the left both hold `-1` (the branch
of lines 97-103 is taken) and the region list has `i` entries, so that the appended entry gets
the index `i`. -/
def IsCreatedAt (g : Gray) (i : ℕ) (p : Pixel) : Prop :=
  ∃ (j : ℕ) (st : ScanState ℝ) (row : List ℕ) (v : ℕ),
    j < g.Rect.Dy.toNat ∧ p.2 = g.Rect.Min.Y + j ∧ stateBefore (F := ℝ) g j p.1 = some st ∧
      rowData g (g.Rect.Min.Y + j) = some row ∧ row[p.1]? = some v ∧ v ≠ 0 ∧
      index? st.indicies p.1 = some (-1) ∧ leftOf st.indicies p.1 = some (-1) ∧
      st.out.length = i

/-- The blobs are listed in the scan order of the pixels at which their surviving region
entries were created. With `st` the state the scan of `Detect` ends in and `idxs` the indices,
in increasing order, of the entries of `st.out` whose weight is not `-1`: the blobs are the
finalized forms of these entries, in this order; the entry `idxs[k]` was created at the pixel
`seeds[k]`, and the pixels `seeds` are in row-major scan order; the pixel `seeds[k]` lies in the
component `comps[k]`, whose weight and mean position the `k`-th blob carries, and has no
foreground pixel above it or to its left; `comps` lists every component once. -/
def CreationOrder (g : Gray) (blobs : List (Blob ℝ)) : Prop :=
  ∃ (st : ScanState ℝ) (idxs : List ℕ) (seeds : List Pixel) (comps : List (Finset Pixel)),
    scanRows g g.Rect.Dy.toNat g.Rect.Min.Y ⟨List.replicate g.Rect.Dx.toNat (-1), []⟩ = some st ∧
      idxs.Pairwise (fun i k => i < k) ∧
      (∀ i, i ∈ idxs ↔ ∃ e, st.out[i]? = some e ∧ e.Weight ≠ -1) ∧
      List.Forall₂ (fun i b => ∃ e, st.out[i]? = some e ∧ b = finBlob Real.sqrt e) idxs blobs ∧
      List.Forall₂ (fun i s => IsCreatedAt g i s) idxs seeds ∧ seeds.Pairwise rmLt ∧
      Enumerates g comps ∧ List.Forall₂ (fun s C => s ∈ C ∧ Corner g s) seeds comps ∧
      List.Forall₂ (MomentSpec g.sample) comps blobs

/-- The 2x2 grid with the given samples in row-major order (stride 2, bounds at the origin). -/
def grid2x2 (p00 p10 p01 p11 : ℕ) : Gray := ⟨[p00, p10, p01, p11], 2, ⟨⟨0, 0⟩, ⟨2, 2⟩⟩⟩

/-- What a merge at index `x` of the `j`-th row does: both ids index live entries; after the
step the entry `upBlob` holds the sums of both entries and of the pixel and stays live, the
entry `leftBlob` has weight `-1`, and the cell `x` holds `upBlob`. -/
def MergeOutcome (g : Gray) (j x : ℕ) (upBlob leftBlob : ℤ) : Prop :=
  ∃ (st st1 : ScanState ℝ) (bu bl : Blob ℝ) (v : ℕ),
    stateBefore g j x = some st ∧ v = g.sample (x, g.Rect.Min.Y + j) ∧ v ≠ 0 ∧
      pixelStep (g.Rect.Min.Y + j) x v st = some st1 ∧
      index? st.out upBlob = some bu ∧ index? st.out leftBlob = some bl ∧
      bu.Weight ≠ -1 ∧ bl.Weight ≠ -1 ∧
      index? st1.out upBlob = some
        ⟨bu.X + bl.X + (x : ℝ) * (v : ℝ), bu.Y + bl.Y + ((g.Rect.Min.Y + j : ℤ) : ℝ) * (v : ℝ),
         bu.Xdev + bl.Xdev + (x : ℝ) * (x : ℝ) * (v : ℝ),
         bu.Ydev + bl.Ydev + ((g.Rect.Min.Y + j : ℤ) : ℝ) * ((g.Rect.Min.Y + j : ℤ) : ℝ) * (v : ℝ),
         bu.Weight + bl.Weight + (v : ℝ)⟩ ∧
      bu.Weight + bl.Weight + (v : ℝ) ≠ -1 ∧
      (index? st1.out leftBlob).map Blob.Weight = some (-1) ∧
      index? st1.indicies x = some upBlob

/-- The grid of one row and two columns with the samples `a b` (stride 2, bounds at the
origin). -/
def grid1x2 (a b : ℕ) : Gray := ⟨[a, b], 2, ⟨⟨0, 0⟩, ⟨2, 1⟩⟩⟩

/-! ## Vocabulary for the buffer pool, the finalizer and the grid sums -/

/-- The slice `b[0:size]` of a pooled slice: its first `size` cells of the backing array, the
remaining ones being spare capacity. -/
def IntSlice.view (b : IntSlice) (size : ℤ) : IntSlice :=
  ⟨(b.cells ++ b.spare).take size.toNat, (b.cells ++ b.spare).drop size.toNat⟩

/-- The call `getIntArray(size)` returns one of the pooled slices, viewed to length `size`. -/
def ReturnsPooled (pool : ArrayCache) (size : ℤ) : Prop :=
  ∃ b ∈ pool, ∃ rest, getIntArray pool size = some (b.view size, rest)

/-- A channel content whose first slice has capacity 0 and whose second has capacity 3. -/
def poolSmallBig : ArrayCache := [⟨[], []⟩, ⟨[7, 7, 7], []⟩]

/-- A list of optional values as an optional list: `none` as soon as one value is missing. -/
def sequenceOpt {α : Type} : List (Option α) → Option (List α)
  | [] => some []
  | none :: _ => none
  | some a :: l => (sequenceOpt l).map (fun r => a :: r)

section FinalizeFilterMap

variable {F : Type} [Field F] [DecidableEq F]

/-- Finalized form of one accumulator entry, undefined when the weight is zero. -/
def finBlob? (sqrt : F → F) (b : Blob F) : Option (Blob F) :=
  if b.Weight = 0 then none else some (finBlob sqrt b)

/-- The finalizer as the spec words it: keep the entries with `Weight != -1`, in their order,
and replace each by its finalized form. -/
def finalizeFilterMap (sqrt : F → F) (out : List (Blob F)) : Option (List (Blob F)) :=
  sequenceOpt ((out.filter (fun b => decide (b.Weight ≠ -1))).map (finBlob? sqrt))

end FinalizeFilterMap

/-- Sum of all samples of the grid inside its bounds. -/
def gridSum (g : Gray) : ℕ :=
  ∑ j in Finset.range g.Rect.Dy.toNat, ∑ x in Finset.range g.Rect.Dx.toNat,
    g.sample (x, g.Rect.Min.Y + j)

/-- The pixel positions inside the bounds of the grid. -/
def boundsBox (g : Gray) : Finset Pixel :=
  (Finset.range g.Rect.Dy.toNat ×ˢ Finset.range g.Rect.Dx.toNat).image
    (fun q => (q.2, g.Rect.Min.Y + (q.1 : ℤ)))

/-- Go `(*Gray).GrayAt`: the sample at the absolute image position `(x, y)`, zero outside the
bounds. -/
def Gray.GrayAt (g : Gray) (x y : ℤ) : ℕ :=
  if g.Rect.Min.X ≤ x ∧ x < g.Rect.Max.X ∧ g.Rect.Min.Y ≤ y ∧ y < g.Rect.Max.Y then
    g.Pix.getD (g.PixOffset x y).toNat 0
  else 0

/-- A 2x2 grid whose bounds start at `(3, 5)`, with the single nonzero sample 9 at the image
position `(3, 6)`. -/
def gridOff : Gray := ⟨[0, 0, 9, 0], 2, ⟨⟨3, 5⟩, ⟨5, 7⟩⟩⟩

/-! ## Connectivity lemmas -/

theorem adj4_symm {a b : Pixel} (h : adj4 a b) : adj4 b a := by
  unfold adj4 at *; omega

theorem adj4_irrefl (a : Pixel) : ¬ adj4 a a := by
  unfold adj4; omega

theorem Link.symm_link {S : Pixel → Prop} {a b : Pixel} (h : Link S a b) : Link S b a :=
  ⟨h.2.1, h.1, adj4_symm h.2.2⟩

theorem Conn.refl (S : Pixel → Prop) (a : Pixel) : Conn S a a := Relation.ReflTransGen.refl

theorem Conn.trans {S : Pixel → Prop} {a b c : Pixel} (h1 : Conn S a b) (h2 : Conn S b c) :
    Conn S a c := Relation.ReflTransGen.trans h1 h2

theorem Conn.symm_conn {S : Pixel → Prop} {a b : Pixel} (h : Conn S a b) : Conn S b a := by
  induction h with
  | refl => exact Conn.refl S _
  | tail _ hl ih => exact Conn.trans (Relation.ReflTransGen.single hl.symm_link) ih

theorem Conn.of_link {S : Pixel → Prop} {a b : Pixel} (h : Link S a b) : Conn S a b :=
  Relation.ReflTransGen.single h

/-- A path either is trivial or stays inside `S`. -/
theorem Conn.eq_or_mem {S : Pixel → Prop} {a b : Pixel} (h : Conn S a b) :
    a = b ∨ (S a ∧ S b) := by
  induction h with
  | refl => exact Or.inl rfl
  | tail _ hl ih =>
    rcases ih with rfl | ⟨ha, _⟩
    · exact Or.inr ⟨hl.1, hl.2.1⟩
    · exact Or.inr ⟨ha, hl.2.1⟩

theorem Conn.mem_right {S : Pixel → Prop} {a b : Pixel} (h : Conn S a b) (ha : S a) : S b := by
  rcases h.eq_or_mem with rfl | h2
  · exact ha
  · exact h2.2

theorem Conn.mono {S T : Pixel → Prop} (hST : ∀ a, S a → T a) {a b : Pixel}
    (h : Conn S a b) : Conn T a b :=
  Relation.ReflTransGen.mono (fun _ _ hl => ⟨hST _ hl.1, hST _ hl.2.1, hl.2.2⟩) h

theorem Conn.congr_set {S T : Pixel → Prop} (hST : ∀ a, S a ↔ T a) {a b : Pixel} :
    Conn S a b ↔ Conn T a b :=
  ⟨Conn.mono fun a => (hST a).1, Conn.mono fun a => (hST a).2⟩

/-- Paths after adding the pixel `p` to `S`: either an old path, or both ends lie in the
class that `p` creates. -/
theorem Conn.of_insert {S T : Pixel → Prop} {p : Pixel} (hT : ∀ a, T a ↔ (S a ∨ a = p))
    (hp : ¬ S p) {a b : Pixel} (h : Conn T a b) :
    Conn S a b ∨
      ((a = p ∨ ∃ n, S n ∧ adj4 p n ∧ Conn S n a) ∧ (b = p ∨ ∃ n, S n ∧ adj4 p n ∧ Conn S n b)) := by
  induction h with
  | refl => exact Or.inl (Conn.refl S _)
  | @tail c b _ hl ih =>
    obtain ⟨hc, hb, hadj⟩ := hl
    by_cases hcp : c = p
    · subst hcp
      have hbp : b ≠ c := fun e => adj4_irrefl c (e ▸ hadj)
      have hbS : S b := ((hT b).1 hb).resolve_right hbp
      have hbT : b = c ∨ ∃ n, S n ∧ adj4 c n ∧ Conn S n b :=
        Or.inr ⟨b, hbS, hadj, Conn.refl S b⟩
      rcases ih with ih | ih
      · rcases ih.eq_or_mem with e | ⟨_, h2⟩
        · exact Or.inr ⟨Or.inl e, hbT⟩
        · exact absurd h2 hp
      · exact Or.inr ⟨ih.1, hbT⟩
    · have hcS : S c := ((hT c).1 hc).resolve_right hcp
      by_cases hbp : b = p
      · subst hbp
        have hcT : c = b ∨ ∃ n, S n ∧ adj4 b n ∧ Conn S n c :=
          Or.inr ⟨c, hcS, adj4_symm hadj, Conn.refl S c⟩
        rcases ih with ih | ih
        · refine Or.inr ⟨?_, Or.inl rfl⟩
          rcases ih.eq_or_mem with e | ⟨h1, _⟩
          · exact e ▸ hcT
          · exact Or.inr ⟨c, hcS, adj4_symm hadj, ih.symm_conn⟩
        · exact Or.inr ⟨ih.1, Or.inl rfl⟩
      · have hbS : S b := ((hT b).1 hb).resolve_right hbp
        have hcb : Conn S c b := Conn.of_link ⟨hcS, hbS, hadj⟩
        rcases ih with ih | ih
        · exact Or.inl (ih.trans hcb)
        · refine Or.inr ⟨ih.1, Or.inr ?_⟩
          rcases ih.2 with e | ⟨n, hn, hpn, hnc⟩
          · exact absurd e hcp
          · exact ⟨n, hn, hpn, hnc.trans hcb⟩


theorem mem_joinCls {cls : ℕ → Finset Pixel} {t l : ℕ} {p a : Pixel} {i : ℕ} :
    a ∈ joinCls cls t l p i ↔
      (i = t ∧ (a = p ∨ a ∈ cls t ∨ a ∈ cls l)) ∨ (i ≠ t ∧ i ≠ l ∧ a ∈ cls i) := by
  unfold joinCls
  by_cases h1 : i = t
  · simp [h1]
  · by_cases h2 : i = l
    · subst h2; simp [h1]
    · simp [h1, h2]

/-- Where an old class member ends up after the join. -/
theorem mem_joinCls_of_mem {cls : ℕ → Finset Pixel} {t l : ℕ} {p a : Pixel} {i : ℕ}
    (h : a ∈ cls i) : a ∈ joinCls cls t l p (if i = l then t else i) := by
  rw [mem_joinCls]
  by_cases h2 : i = l
  · subst h2; simp [h]
  · by_cases h1 : i = t
    · subst h1; simp [h2, h]
    · simp [h1, h2, h]

/-- Where a member of a joined class comes from. -/
theorem mem_joinCls_inv {cls : ℕ → Finset Pixel} {t l : ℕ} {p a : Pixel} {i : ℕ}
    (h : a ∈ joinCls cls t l p i) :
    (a = p ∧ i = t) ∨ ∃ k, a ∈ cls k ∧ i = (if k = l then t else k) := by
  rw [mem_joinCls] at h
  rcases h with ⟨rfl, h | h | h⟩ | ⟨h1, h2, h⟩
  · exact Or.inl ⟨h, rfl⟩
  · by_cases e : i = l
    · exact Or.inr ⟨i, h, by simp [e]⟩
    · exact Or.inr ⟨i, h, by simp [e]⟩
  · exact Or.inr ⟨l, h, by simp⟩
  · exact Or.inr ⟨i, h, by simp [h2]⟩

/-- Adding the pixel `p`, whose neighbours in `S` lie in the classes `t` and `l`, joins these
two classes with `p` and leaves the other classes alone. -/
theorem Classes.join_cls {S T : Pixel → Prop} {cls : ℕ → Finset Pixel} {p : Pixel} {t l : ℕ}
    (hc : Classes S cls) (hT : ∀ a, T a ↔ (S a ∨ a = p)) (hp : ¬ S p)
    (hnb : ∀ q, S q → adj4 p q → q ∈ cls t ∨ q ∈ cls l)
    (ht : cls t = ∅ ∨ ∃ n ∈ cls t, adj4 p n) (hl : cls l = ∅ ∨ ∃ n ∈ cls l, adj4 p n) :
    Classes T (joinCls cls t l p) := by
  have hST : ∀ a, S a → T a := fun a ha => (hT a).2 (Or.inl ha)
  have hTp : T p := (hT p).2 (Or.inr rfl)
  have hpcls : ∀ k, p ∉ cls k := fun k hk => hp (hc.sub k p hk)
  -- every member of a touched class is joined to `p`
  have hpa : ∀ k, (cls k = ∅ ∨ ∃ n ∈ cls k, adj4 p n) → ∀ a ∈ cls k, Conn T p a := by
    intro k hk a ha
    rcases hk with hk | ⟨n, hn, hpn⟩
    · simp [hk] at ha
    · exact (Conn.of_link ⟨hTp, hST n (hc.sub k n hn), hpn⟩).trans
        ((hc.conn k n a hn ha).mono hST)
  have hpt : ∀ a, a ∈ joinCls cls t l p t → Conn T p a := by
    intro a ha
    rw [mem_joinCls] at ha
    rcases ha with ⟨_, rfl | ha | ha⟩ | ⟨h1, _, _⟩
    · exact Conn.refl T _
    · exact hpa t ht a ha
    · exact hpa l hl a ha
    · exact absurd rfl h1
  -- the class of a pixel that `p` touches is `t`
  have htouch : ∀ a i, a ∈ joinCls cls t l p i →
      (a = p ∨ ∃ n, S n ∧ adj4 p n ∧ Conn S n a) → i = t := by
    intro a i ha hta
    rcases mem_joinCls_inv ha with ⟨_, e⟩ | ⟨k, hk, e⟩
    · exact e
    · rcases hta with rfl | ⟨n, hn, hpn, hna⟩
      · exact absurd hk (hpcls k)
      · rcases hnb n hn hpn with h | h
        · have := hc.sep t k n a h hk hna
          subst this
          simpa using e
        · have := hc.sep l k n a h hk hna
          subst this
          simpa using e
  refine ⟨?_, ?_, ?_, ?_⟩
  · intro i a ha
    rcases mem_joinCls_inv ha with ⟨rfl, _⟩ | ⟨k, hk, _⟩
    · exact hTp
    · exact hST a (hc.sub k a hk)
  · intro a ha
    rcases (hT a).1 ha with h | rfl
    · obtain ⟨k, hk⟩ := hc.cover a h
      exact ⟨_, mem_joinCls_of_mem hk⟩
    · exact ⟨t, by rw [mem_joinCls]; simp⟩
  · intro i a b ha hb
    by_cases hi : i = t
    · subst hi
      exact (hpt a ha).symm_conn.trans (hpt b hb)
    · rw [mem_joinCls] at ha hb
      rcases ha with ⟨e, _⟩ | ⟨_, _, ha⟩
      · exact absurd e hi
      rcases hb with ⟨e, _⟩ | ⟨_, _, hb⟩
      · exact absurd e hi
      exact (hc.conn i a b ha hb).mono hST
  · intro i j a b ha hb hab
    rcases Conn.of_insert hT hp hab with h | ⟨h1, h2⟩
    · rcases mem_joinCls_inv ha with ⟨rfl, ei⟩ | ⟨k, hk, ei⟩
      · have hb2 : a = b := by
          rcases h.eq_or_mem with e | ⟨h3, _⟩
          · exact e
          · exact absurd h3 hp
        subst hb2
        exact ei.trans (htouch a j hb (Or.inl rfl)).symm
      · rcases mem_joinCls_inv hb with ⟨rfl, ej⟩ | ⟨m, hm, ej⟩
        · have : S b := h.mem_right (hc.sub k a hk)
          exact absurd this hp
        · have := hc.sep k m a b hk hm h
          subst this
          exact ei.trans ej.symm
    · exact (htouch a i ha h1).trans (htouch b j hb h2).symm


/-! ## Scan bookkeeping -/

theorem scanned_succ {V : Pixel → ℕ} {w : ℕ} {y0 yc : ℤ} {xc : ℕ} (hx : xc < w)
    (hy : y0 ≤ yc) (a : Pixel) :
    Scanned V w y0 yc (xc + 1) a ↔
      (Scanned V w y0 yc xc a ∨ (a = (xc, yc) ∧ V (xc, yc) ≠ 0)) := by
  obtain ⟨a1, a2⟩ := a
  unfold Scanned
  simp only [Prod.mk.injEq]
  constructor
  · rintro ⟨h1, h2, h3, h4 | ⟨h4, h5⟩⟩
    · exact Or.inl ⟨h1, h2, h3, Or.inl h4⟩
    · by_cases e : a1 = xc
      · subst e; subst h4; exact Or.inr ⟨⟨rfl, rfl⟩, h3⟩
      · exact Or.inl ⟨h1, h2, h3, Or.inr ⟨h4, by omega⟩⟩
  · rintro (⟨h1, h2, h3, h4⟩ | ⟨⟨rfl, rfl⟩, h3⟩)
    · exact ⟨h1, h2, h3, by omega⟩
    · exact ⟨hx, hy, h3, Or.inr ⟨rfl, by omega⟩⟩

theorem scanned_not_self {V : Pixel → ℕ} {w : ℕ} {y0 yc : ℤ} {xc : ℕ} :
    ¬ Scanned V w y0 yc xc (xc, yc) := by
  unfold Scanned; simp

theorem scanned_row_end {V : Pixel → ℕ} {w : ℕ} {y0 yc : ℤ} (a : Pixel) :
    Scanned V w y0 yc w a ↔ Scanned V w y0 (yc + 1) 0 a := by
  unfold Scanned
  constructor
  · rintro ⟨h1, h2, h3, h4⟩
    exact ⟨h1, h2, h3, by omega⟩
  · rintro ⟨h1, h2, h3, h4⟩
    exact ⟨h1, h2, h3, by omega⟩

/-- The scanned neighbours of the pixel about to be processed are the one above and the one
to the left. -/
theorem scanned_adj {V : Pixel → ℕ} {w : ℕ} {y0 yc : ℤ} {xc : ℕ} {q : Pixel}
    (hq : Scanned V w y0 yc xc q) (ha : adj4 (xc, yc) q) :
    q = (xc, yc - 1) ∨ ∃ x, xc = x + 1 ∧ q = (x, yc) := by
  obtain ⟨q1, q2⟩ := q
  unfold Scanned at hq
  unfold adj4 at ha
  simp only at hq ha
  simp only [Prod.mk.injEq]
  rcases ha with ⟨h1, h2⟩ | ⟨h1, h2⟩
  · left; omega
  · right
    refine ⟨q1, ?_, rfl, by omega⟩
    omega

theorem frontier_succ_ne {yc : ℤ} {xc c : ℕ} (h : c ≠ xc) :
    frontier yc (xc + 1) c = frontier yc xc c := by
  unfold frontier
  by_cases h1 : c < xc
  · simp [h1, Nat.lt_succ_of_lt h1]
  · have : ¬ c < xc + 1 := by omega
    simp [h1, this]

theorem frontier_succ_self {yc : ℤ} {xc : ℕ} : frontier yc (xc + 1) xc = (xc, yc) := by
  simp [frontier]

theorem frontier_self {yc : ℤ} {xc : ℕ} : frontier yc xc xc = (xc, yc - 1) := by
  simp [frontier]

theorem frontier_left {yc : ℤ} {x : ℕ} : frontier yc (x + 1) x = (x, yc) := by
  simp [frontier]

theorem frontier_row_end {yc : ℤ} {w c : ℕ} (h : c < w) :
    frontier (yc + 1) 0 c = frontier yc w c := by
  simp [frontier, h]

theorem Seeds.step {V : Pixel → ℕ} {w : ℕ} {y0 yc : ℤ} {xc n : ℕ} {seed : ℕ → Pixel}
    (h : Seeds V w y0 yc xc n seed) (hx : xc < w) (hy : y0 ≤ yc) :
    Seeds V w y0 yc (xc + 1) n seed :=
  ⟨h.lt, fun i hi => (scanned_succ hx hy _).2 (Or.inl (h.sc i hi)), h.corner⟩

theorem Seeds.push {V : Pixel → ℕ} {w : ℕ} {y0 yc : ℤ} {xc n : ℕ} {seed : ℕ → Pixel}
    (h : Seeds V w y0 yc xc n seed) (hx : xc < w) (hy : y0 ≤ yc) (hv : V (xc, yc) ≠ 0)
    (hu : ¬ Scanned V w y0 yc xc (xc, yc - 1))
    (hl : ∀ x, xc = x + 1 → ¬ Scanned V w y0 yc xc (x, yc)) :
    Seeds V w y0 yc (xc + 1) (n + 1) (Function.update seed n (xc, yc)) := by
  refine ⟨?_, ?_, ?_⟩
  · intro i j hij hj
    have hi : i ≠ n := by omega
    by_cases e : j = n
    · subst e
      rw [Function.update_same, Function.update_noteq hi]
      have := h.sc i (by omega)
      unfold Scanned at this
      unfold rmLt
      simp only
      omega
    · rw [Function.update_noteq e, Function.update_noteq hi]
      exact h.lt i j hij (by omega)
  · intro i hi
    by_cases e : i = n
    · subst e
      rw [Function.update_same]
      exact (scanned_succ hx hy _).2 (Or.inr ⟨rfl, hv⟩)
    · rw [Function.update_noteq e]
      exact (scanned_succ hx hy _).2 (Or.inl (h.sc i (by omega)))
  · intro i hi
    by_cases e : i = n
    · subst e
      rw [Function.update_same]
      constructor
      · intro hf
        apply hu
        unfold Fore at hf
        unfold Scanned
        simp only at hf ⊢
        exact ⟨hf.1, hf.2.1, hf.2.2, Or.inl (by omega)⟩
      · intro x hxe hf
        apply hl x hxe
        unfold Fore at hf
        unfold Scanned
        simp only at hxe
        exact ⟨hf.1, hf.2.1, hf.2.2, Or.inr ⟨rfl, show x < xc by omega⟩⟩
    · rw [Function.update_noteq e]
      exact h.corner i (by omega)

theorem Seeds.next_row {V : Pixel → ℕ} {w : ℕ} {y0 yc : ℤ} {n : ℕ} {seed : ℕ → Pixel}
    (h : Seeds V w y0 yc w n seed) : Seeds V w y0 (yc + 1) 0 n seed :=
  ⟨h.lt, fun i hi => (scanned_row_end _).1 (h.sc i hi), h.corner⟩


theorem Classes.congr_cls {S T : Pixel → Prop} {cls : ℕ → Finset Pixel} (hST : ∀ a, S a ↔ T a)
    (h : Classes S cls) : Classes T cls :=
  ⟨fun i a ha => (hST a).1 (h.sub i a ha), fun a ha => h.cover a ((hST a).2 ha),
   fun i a b ha hb => (Conn.congr_set hST).1 (h.conn i a b ha hb),
   fun i j a b ha hb hab => h.sep i j a b ha hb ((Conn.congr_set hST).2 hab)⟩

theorem frontier_fst (yc : ℤ) (xc c : ℕ) : (frontier yc xc c).1 = c := by
  unfold frontier; split <;> rfl

/-- The invariant is kept by a background pixel. -/
theorem Inv.skip {V : Pixel → ℕ} {w : ℕ} {y0 yc : ℤ} {xc : ℕ} {st : ScanState ℝ}
    {cls : ℕ → Finset Pixel} {seed : ℕ → Pixel} (h : Inv V w y0 yc xc st cls seed)
    (hx : xc < w) (hy : y0 ≤ yc) (hv : V (xc, yc) = 0) :
    Inv V w y0 yc (xc + 1) ⟨st.indicies.set xc (-1), st.out⟩ cls seed := by
  have hS : ∀ a, Scanned V w y0 yc xc a ↔ Scanned V w y0 yc (xc + 1) a := by
    intro a
    rw [scanned_succ hx hy]
    simp [hv]
  refine ⟨by simpa using h.len, h.classes.congr_cls hS, h.oob, h.dead, h.sums, ?_, ?_,
    h.seed_mem, h.seeds.step hx hy⟩
  · intro c hc hsc
    by_cases e : c = xc
    · subst e
      rw [frontier_succ_self] at hsc
      exact absurd ((hS _).2 hsc) scanned_not_self
    · rw [frontier_succ_ne e] at hsc ⊢
      obtain ⟨i, hi, hm⟩ := h.front_in c hc ((hS _).2 hsc)
      exact ⟨i, by simpa [List.getElem?_set_ne (Ne.symm e)] using hi, hm⟩
  · intro c hc hsc
    by_cases e : c = xc
    · subst e
      simp [List.getElem?_set_self, h.len, hc]
    · rw [frontier_succ_ne e] at hsc
      have := h.front_out c hc (fun hh => hsc ((hS _).1 hh))
      simpa [List.getElem?_set_ne (Ne.symm e)] using this

/-- The invariant is kept by a foreground pixel that joins the classes `t` and `l`. -/
theorem Inv.join_step {V : Pixel → ℕ} {w : ℕ} {y0 yc : ℤ} {xc : ℕ} {st st1 : ScanState ℝ}
    {cls : ℕ → Finset Pixel} {seed seed1 : ℕ → Pixel} (h : Inv V w y0 yc xc st cls seed)
    (hx : xc < w) (hy : y0 ≤ yc) (hv : V (xc, yc) ≠ 0) {t l : ℕ}
    (hnbU : Scanned V w y0 yc xc (xc, yc - 1) → (xc, yc - 1) ∈ cls t ∨ (xc, yc - 1) ∈ cls l)
    (hnbL : ∀ x, xc = x + 1 → Scanned V w y0 yc xc (x, yc) → (x, yc) ∈ cls t ∨ (x, yc) ∈ cls l)
    (ht : cls t = ∅ ∨ ∃ n ∈ cls t, adj4 (xc, yc) n)
    (hl : cls l = ∅ ∨ ∃ n ∈ cls l, adj4 (xc, yc) n)
    (hlen : st1.indicies.length = w)
    (hout_len : st1.out.length = max st.out.length (t + 1))
    (hout_other : ∀ i, i ≠ t → i ≠ l → st1.out[i]? = st.out[i]?)
    (hout_t : st1.out[t]? = some (rawSums V (insert (xc, yc) (cls t ∪ cls l))))
    (hout_l : t ≠ l → ∀ b, st1.out[l]? = some b → b.Weight = -1)
    (hind_x : st1.indicies[xc]? = some (t : ℤ))
    (hind_other : ∀ c, c ≠ xc → ∀ z, st.indicies[c]? = some z →
      if z = (l : ℤ) then (cls l = ∅ ∨ st1.indicies[c]? = some (t : ℤ))
      else st1.indicies[c]? = some z)
    (hseed_t : seed1 t = (xc, yc) ∨ seed1 t ∈ cls t)
    (hseed_o : ∀ i, i ≠ t → seed1 i = seed i)
    (hseeds : Seeds V w y0 yc (xc + 1) st1.out.length seed1) :
    Inv V w y0 yc (xc + 1) st1 (joinCls cls t l (xc, yc)) seed1 := by
  have hT : ∀ a, Scanned V w y0 yc (xc + 1) a ↔ (Scanned V w y0 yc xc a ∨ a = (xc, yc)) := by
    intro a
    rw [scanned_succ hx hy]
    simp [hv]
  have hnb : ∀ q, Scanned V w y0 yc xc q → adj4 (xc, yc) q → q ∈ cls t ∨ q ∈ cls l := by
    intro q hq ha
    rcases scanned_adj hq ha with rfl | ⟨x, hxe, rfl⟩
    · exact hnbU hq
    · exact hnbL x hxe hq
  refine ⟨hlen, h.classes.join_cls hT scanned_not_self hnb ht hl, ?_, ?_, ?_, ?_, ?_, ?_, hseeds⟩
  · intro i hi
    rw [hout_len] at hi
    have h1 : i ≠ t := by omega
    have h2 : cls i = ∅ := h.oob i (le_trans (le_max_left _ _) hi)
    unfold joinCls
    simp only [h1, if_false]
    split
    · rfl
    · exact h2
  · intro i b hb hempty
    by_cases h1 : i = t
    · subst h1
      simp [joinCls] at hempty
    · by_cases h2 : i = l
      · subst h2
        exact hout_l (Ne.symm h1) b hb
      · rw [hout_other i h1 h2] at hb
        refine h.dead i b hb ?_
        simpa [joinCls, h1, h2] using hempty
  · intro i b hb hne
    by_cases h1 : i = t
    · subst h1
      rw [hout_t] at hb
      have : joinCls cls i l (xc, yc) i = insert (xc, yc) (cls i ∪ cls l) := by simp [joinCls]
      rw [this]
      exact (Option.some.inj hb).symm
    · by_cases h2 : i = l
      · subst h2
        simp [joinCls, h1] at hne
      · rw [hout_other i h1 h2] at hb
        have e : joinCls cls t l (xc, yc) i = cls i := by simp [joinCls, h1, h2]
        rw [e] at hne ⊢
        exact h.sums i b hb hne
  · intro c hc hsc
    by_cases e : c = xc
    · subst e
      rw [frontier_succ_self]
      exact ⟨t, hind_x, by rw [mem_joinCls]; simp⟩
    · rw [frontier_succ_ne e] at hsc ⊢
      have hsc0 : Scanned V w y0 yc xc (frontier yc xc c) := by
        rcases (hT _).1 hsc with h0 | h0
        · exact h0
        · have := congrArg Prod.fst h0
          rw [frontier_fst] at this
          exact absurd this e
      obtain ⟨i, hi, hm⟩ := h.front_in c hc hsc0
      refine ⟨if i = l then t else i, ?_, mem_joinCls_of_mem hm⟩
      have := hind_other c e _ hi
      by_cases e2 : i = l
      · subst e2
        simp only [if_true] at this ⊢
        rcases this with h0 | h0
        · rw [h0] at hm; simp at hm
        · exact h0
      · have e3 : ¬ ((i : ℤ) = (l : ℤ)) := by exact_mod_cast e2
        simp only [e3, if_false] at this
        simpa [e2] using this
  · intro c hc hsc
    by_cases e : c = xc
    · subst e
      rw [frontier_succ_self] at hsc
      exact absurd ((hT _).2 (Or.inr rfl)) hsc
    · rw [frontier_succ_ne e] at hsc
      have h0 := h.front_out c hc (fun hh => hsc ((hT _).2 (Or.inl hh)))
      have := hind_other c e _ h0
      have e3 : ¬ ((-1 : ℤ) = (l : ℤ)) := by omega
      simpa only [e3, if_false] using this
  · intro i hne
    by_cases h1 : i = t
    · subst h1
      rw [mem_joinCls]
      rcases hseed_t with h0 | h0
      · exact Or.inl ⟨rfl, Or.inl h0⟩
      · exact Or.inl ⟨rfl, Or.inr (Or.inl h0)⟩
    · by_cases h2 : i = l
      · subst h2
        simp [joinCls, h1] at hne
      · have e : joinCls cls t l (xc, yc) i = cls i := by simp [joinCls, h1, h2]
        rw [e] at hne ⊢
        rw [hseed_o i h1]
        exact h.seed_mem i hne

/-- The invariant at the end of a row is the invariant at the start of the next one. -/
theorem Inv.next_row_inv {V : Pixel → ℕ} {w : ℕ} {y0 yc : ℤ} {st : ScanState ℝ}
    {cls : ℕ → Finset Pixel} {seed : ℕ → Pixel} (h : Inv V w y0 yc w st cls seed) :
    Inv V w y0 (yc + 1) 0 st cls seed := by
  refine ⟨h.len, h.classes.congr_cls scanned_row_end, h.oob, h.dead, h.sums, ?_, ?_, h.seed_mem,
    h.seeds.next_row⟩
  · intro c hc hsc
    rw [frontier_row_end hc] at hsc ⊢
    exact h.front_in c hc ((scanned_row_end _).2 hsc)
  · intro c hc hsc
    rw [frontier_row_end hc] at hsc
    exact h.front_out c hc (fun hh => hsc ((scanned_row_end _).1 hh))


/-! ## Evaluating one step of the scan -/

@[simp] theorem index?_natCast {α : Type} (l : List α) (i : ℕ) : index? l (i : ℤ) = l[i]? := by
  simp [index?]

@[simp] theorem index?_neg_one {α : Type} (l : List α) : index? l (-1) = none := by
  simp [index?]

theorem assign_natCast {α : Type} (l : List α) (i : ℕ) (a : α) (h : i < l.length) :
    assign l (i : ℤ) a = some (l.set i a) := by
  simp [assign, h]

theorem rawSums_insert_union (V : Pixel → ℕ) (A B : Finset Pixel) (p : Pixel) (hA : p ∉ A)
    (hB : p ∉ B) (hAB : Disjoint A B) :
    rawSums V (insert p (A ∪ B)) =
      ⟨(rawSums V A).X + (rawSums V B).X + (p.1 : ℝ) * (V p : ℝ),
       (rawSums V A).Y + (rawSums V B).Y + (p.2 : ℝ) * (V p : ℝ),
       (rawSums V A).Xdev + (rawSums V B).Xdev + (p.1 : ℝ) * (p.1 : ℝ) * (V p : ℝ),
       (rawSums V A).Ydev + (rawSums V B).Ydev + (p.2 : ℝ) * (p.2 : ℝ) * (V p : ℝ),
       (rawSums V A).Weight + (rawSums V B).Weight + (V p : ℝ)⟩ := by
  have hp : p ∉ A ∪ B := by simp [hA, hB]
  simp only [rawSums, Finset.sum_insert hp, Finset.sum_union hAB]
  congr 1 <;> ring

theorem rawSums_insert (V : Pixel → ℕ) (A : Finset Pixel) (p : Pixel) (hA : p ∉ A) :
    rawSums V (insert p (A ∪ A)) =
      ⟨(rawSums V A).X + (p.1 : ℝ) * (V p : ℝ), (rawSums V A).Y + (p.2 : ℝ) * (V p : ℝ),
       (rawSums V A).Xdev + (p.1 : ℝ) * (p.1 : ℝ) * (V p : ℝ),
       (rawSums V A).Ydev + (p.2 : ℝ) * (p.2 : ℝ) * (V p : ℝ),
       (rawSums V A).Weight + (V p : ℝ)⟩ := by
  simp only [rawSums, Finset.union_self, Finset.sum_insert hA]
  congr 1 <;> ring

/-- The step on a foreground pixel that is added to the entry `t` without a merge. -/
theorem pixelStep_add (y : ℤ) (x v : ℕ) (st : ScanState ℝ) (up left : ℤ) (t : ℕ) (b : Blob ℝ)
    (hv : v ≠ 0) (hx : x < st.indicies.length) (hup : st.indicies[x]? = some up)
    (hleft : leftOf st.indicies x = some left)
    (hsel : (up = t ∧ left = -1) ∨ (up = -1 ∧ left = t) ∨ (up = t ∧ left = t))
    (hb : st.out[t]? = some b) :
    pixelStep y x v st = some ⟨st.indicies.set x (t : ℤ), st.out.set t
      ⟨b.X + (x : ℝ) * (v : ℝ), b.Y + (y : ℝ) * (v : ℝ), b.Xdev + (x : ℝ) * (x : ℝ) * (v : ℝ),
       b.Ydev + (y : ℝ) * (y : ℝ) * (v : ℝ), b.Weight + (v : ℝ)⟩⟩ := by
  have ht : t < st.out.length := by
    rcases Nat.lt_or_ge t st.out.length with h | h
    · exact h
    · rw [List.getElem?_eq_none h] at hb; exact absurd hb (by simp)
  have hneg : ¬ ((t : ℤ) = -1) := by omega
  unfold pixelStep
  rw [if_neg hv]
  simp only [index?_natCast, hup, hleft, Option.bind_eq_bind, Option.some_bind]
  rcases hsel with ⟨rfl, rfl⟩ | ⟨rfl, rfl⟩ | ⟨rfl, rfl⟩
  · simp [hneg, hb, assign_natCast, ht, hx]
  · simp [hneg, hb, assign_natCast, ht, hx]
  · simp [hneg, hb, assign_natCast, ht, hx]


theorem lt_length_of_getElem? {α : Type} {l : List α} {i : ℕ} {a : α} (h : l[i]? = some a) :
    i < l.length := by
  rcases Nat.lt_or_ge i l.length with h1 | h1
  · exact h1
  · rw [List.getElem?_eq_none h1] at h; exact absurd h (by simp)

/-- The step on a foreground pixel with no region above or to the left. -/
theorem pixelStep_new (y : ℤ) (x v : ℕ) (st : ScanState ℝ)
    (hv : v ≠ 0) (hx : x < st.indicies.length) (hup : st.indicies[x]? = some (-1))
    (hleft : leftOf st.indicies x = some (-1)) :
    pixelStep y x v st = some ⟨st.indicies.set x (st.out.length : ℤ), st.out ++
      [⟨(x : ℝ) * (v : ℝ), (y : ℝ) * (v : ℝ), (x : ℝ) * (x : ℝ) * (v : ℝ),
        (y : ℝ) * (y : ℝ) * (v : ℝ), (v : ℝ)⟩]⟩ := by
  unfold pixelStep
  rw [if_neg hv]
  simp only [index?_natCast, hup, hleft, Option.bind_eq_bind, Option.some_bind]
  simp [assign, hx]

/-- The step on a foreground pixel whose upper and left regions differ. -/
theorem pixelStep_merge (y : ℤ) (x v : ℕ) (st : ScanState ℝ) (iu il : ℕ) (bu bl : Blob ℝ)
    (hv : v ≠ 0) (hx : x < st.indicies.length) (hup : st.indicies[x]? = some (iu : ℤ))
    (hleft : leftOf st.indicies x = some (il : ℤ)) (hne : iu ≠ il)
    (hbu : st.out[iu]? = some bu) (hbl : st.out[il]? = some bl) :
    pixelStep y x v st = some
      ⟨(st.indicies.map (fun c => if c = (il : ℤ) then (iu : ℤ) else c)).set x (iu : ℤ),
       ((st.out.set iu ⟨bu.X + bl.X, bu.Y + bl.Y, bu.Xdev + bl.Xdev, bu.Ydev + bl.Ydev,
          bu.Weight + bl.Weight⟩).set il { bl with Weight := -1 }).set iu
        ⟨bu.X + bl.X + (x : ℝ) * (v : ℝ), bu.Y + bl.Y + (y : ℝ) * (v : ℝ),
         bu.Xdev + bl.Xdev + (x : ℝ) * (x : ℝ) * (v : ℝ),
         bu.Ydev + bl.Ydev + (y : ℝ) * (y : ℝ) * (v : ℝ), bu.Weight + bl.Weight + (v : ℝ)⟩⟩ := by
  have hu := lt_length_of_getElem? hbu
  have hl := lt_length_of_getElem? hbl
  have hneg1 : ¬ ((iu : ℤ) = -1) := by omega
  have hneg2 : ¬ ((il : ℤ) = -1) := by omega
  have hne2 : ¬ ((iu : ℤ) = (il : ℤ)) := by exact_mod_cast hne
  unfold pixelStep
  rw [if_neg hv]
  simp only [index?_natCast, hup, hleft, Option.bind_eq_bind, Option.some_bind]
  simp [hneg1, hneg2, hne2, mergeBlobs, hbu, hbl, assign_natCast, hu, hl, hx,
    List.getElem?_set_ne hne, List.getElem?_set_ne (Ne.symm hne), List.getElem?_set_self]


/-! ## The invariant is kept by every step -/

theorem Inv.lt_length {V : Pixel → ℕ} {w : ℕ} {y0 yc : ℤ} {xc : ℕ} {st : ScanState ℝ}
    {cls : ℕ → Finset Pixel} {seed : ℕ → Pixel} (h : Inv V w y0 yc xc st cls seed) {i : ℕ}
    (hne : (cls i).Nonempty) : i < st.out.length := by
  by_contra hc
  have := h.oob i (by omega)
  rw [this] at hne
  exact Finset.not_nonempty_empty hne

theorem Inv.get {V : Pixel → ℕ} {w : ℕ} {y0 yc : ℤ} {xc : ℕ} {st : ScanState ℝ}
    {cls : ℕ → Finset Pixel} {seed : ℕ → Pixel} (h : Inv V w y0 yc xc st cls seed) {i : ℕ}
    (hne : (cls i).Nonempty) : st.out[i]? = some (rawSums V (cls i)) := by
  have hi := h.lt_length hne
  rw [List.getElem?_eq_getElem hi]
  exact congrArg some (h.sums i _ (List.getElem?_eq_getElem hi) hne)

theorem Inv.up_cases {V : Pixel → ℕ} {w : ℕ} {y0 yc : ℤ} {xc : ℕ} {st : ScanState ℝ}
    {cls : ℕ → Finset Pixel} {seed : ℕ → Pixel} (h : Inv V w y0 yc xc st cls seed)
    (hx : xc < w) :
    (st.indicies[xc]? = some (-1) ∧ ¬ Scanned V w y0 yc xc (xc, yc - 1)) ∨
      ∃ i : ℕ, st.indicies[xc]? = some (i : ℤ) ∧ Scanned V w y0 yc xc (xc, yc - 1) ∧
        (xc, yc - 1) ∈ cls i := by
  by_cases hs : Scanned V w y0 yc xc (xc, yc - 1)
  · obtain ⟨i, hi, hm⟩ := h.front_in xc hx (by rw [frontier_self]; exact hs)
    rw [frontier_self] at hm
    exact Or.inr ⟨i, hi, hs, hm⟩
  · exact Or.inl ⟨h.front_out xc hx (by rw [frontier_self]; exact hs), hs⟩

theorem leftOf_succ (indicies : List ℤ) (x : ℕ) : leftOf indicies (x + 1) = indicies[x]? := by
  unfold leftOf
  have : ((x + 1 : ℕ) : ℤ) - 1 = (x : ℤ) := by push_cast; ring
  rw [if_pos (Nat.succ_pos x), this, index?_natCast]

theorem Inv.left_cases {V : Pixel → ℕ} {w : ℕ} {y0 yc : ℤ} {xc : ℕ} {st : ScanState ℝ}
    {cls : ℕ → Finset Pixel} {seed : ℕ → Pixel} (h : Inv V w y0 yc xc st cls seed)
    (hx : xc < w) :
    (leftOf st.indicies xc = some (-1) ∧ ∀ x, xc = x + 1 → ¬ Scanned V w y0 yc xc (x, yc)) ∨
      ∃ (i x : ℕ), xc = x + 1 ∧ leftOf st.indicies xc = some (i : ℤ) ∧
        Scanned V w y0 yc xc (x, yc) ∧ (x, yc) ∈ cls i := by
  cases xc with
  | zero =>
    left
    refine ⟨by simp [leftOf], ?_⟩
    intro x hxe; omega
  | succ x =>
    rw [leftOf_succ]
    by_cases hs : Scanned V w y0 yc (x + 1) (x, yc)
    · obtain ⟨i, hi, hm⟩ := h.front_in x (by omega) (by rw [frontier_left]; exact hs)
      rw [frontier_left] at hm
      exact Or.inr ⟨i, x, rfl, hi, hs, hm⟩
    · left
      refine ⟨h.front_out x (by omega) (by rw [frontier_left]; exact hs), ?_⟩
      intro x2 hxe
      have : x2 = x := by omega
      subst this
      exact hs

theorem adj4_up (x : ℕ) (y : ℤ) : adj4 (x, y) (x, y - 1) := by
  unfold adj4; simp

theorem adj4_left (x : ℕ) (y : ℤ) : adj4 (x + 1, y) (x, y) := by
  unfold adj4; simp

/-- The invariant after a foreground pixel has been added to the entry `i`. -/
theorem Inv.add {V : Pixel → ℕ} {w : ℕ} {y0 yc : ℤ} {xc : ℕ} {st : ScanState ℝ}
    {cls : ℕ → Finset Pixel} {seed : ℕ → Pixel} (h : Inv V w y0 yc xc st cls seed)
    (hx : xc < w) (hy : y0 ≤ yc) (hv : V (xc, yc) ≠ 0) (i : ℕ) (up left : ℤ)
    (hup : st.indicies[xc]? = some up) (hleft : leftOf st.indicies xc = some left)
    (hsel : (up = i ∧ left = -1) ∨ (up = -1 ∧ left = i) ∨ (up = i ∧ left = i))
    (hn : ∃ n ∈ cls i, adj4 (xc, yc) n)
    (hnbU : Scanned V w y0 yc xc (xc, yc - 1) → (xc, yc - 1) ∈ cls i)
    (hnbL : ∀ x, xc = x + 1 → Scanned V w y0 yc xc (x, yc) → (x, yc) ∈ cls i) :
    ∃ st1 cls1, pixelStep yc xc (V (xc, yc)) st = some st1 ∧
      Inv V w y0 yc (xc + 1) st1 cls1 seed ∧ st1.out.length = st.out.length := by
  have hne : (cls i).Nonempty := by
    obtain ⟨n, hn1, _⟩ := hn
    exact ⟨n, hn1⟩
  have hxl : xc < st.indicies.length := by rw [h.len]; exact hx
  have hpi : (xc, yc) ∉ cls i := fun hm => scanned_not_self (h.classes.sub i _ hm)
  refine ⟨_, joinCls cls i i (xc, yc),
    pixelStep_add yc xc _ st up left i _ hv hxl hup hleft hsel (h.get hne), ?_,
    by simp only [List.length_set]⟩
  have hil := h.lt_length hne
  refine h.join_step hx hy hv (fun hs => Or.inl (hnbU hs)) (fun x hxe hs => Or.inl (hnbL x hxe hs))
    (Or.inr hn) (Or.inr hn) (by simpa using h.len) ?_ ?_ ?_ (fun hc => absurd rfl hc) ?_ ?_
    (Or.inr (h.seed_mem i hne)) (fun _ _ => rfl) ?_
  · simp only [List.length_set]
    rw [max_eq_left (by omega)]
  · intro k hk _
    simp only
    rw [List.getElem?_set_ne (Ne.symm hk)]
  · simp only
    rw [List.getElem?_set_self hil, rawSums_insert V _ _ hpi]
  · simp only
    rw [List.getElem?_set_self hxl]
  · intro c hc z hz
    simp only
    rw [List.getElem?_set_ne (Ne.symm hc)]
    split
    · next e => right; rw [hz, e]
    · exact hz
  · simp only [List.length_set]
    exact h.seeds.step hx hy


/-- The invariant after a foreground pixel has created a new entry. -/
theorem Inv.new {V : Pixel → ℕ} {w : ℕ} {y0 yc : ℤ} {xc : ℕ} {st : ScanState ℝ}
    {cls : ℕ → Finset Pixel} {seed : ℕ → Pixel} (h : Inv V w y0 yc xc st cls seed)
    (hx : xc < w) (hy : y0 ≤ yc) (hv : V (xc, yc) ≠ 0)
    (hup : st.indicies[xc]? = some (-1)) (hleft : leftOf st.indicies xc = some (-1))
    (hU : ¬ Scanned V w y0 yc xc (xc, yc - 1))
    (hL : ∀ x, xc = x + 1 → ¬ Scanned V w y0 yc xc (x, yc)) :
    ∃ st1 cls1, pixelStep yc xc (V (xc, yc)) st = some st1 ∧
      Inv V w y0 yc (xc + 1) st1 cls1 (Function.update seed st.out.length (xc, yc)) ∧
      st1.out.length = st.out.length + 1 := by
  have hxl : xc < st.indicies.length := by rw [h.len]; exact hx
  have hemp : cls st.out.length = ∅ := h.oob _ le_rfl
  refine ⟨_, joinCls cls st.out.length st.out.length (xc, yc),
    pixelStep_new yc xc _ st hv hxl hup hleft, ?_,
    by simp only [List.length_append, List.length_singleton]⟩
  refine h.join_step hx hy hv (fun hs => absurd hs hU) (fun x hxe hs => absurd hs (hL x hxe))
    (Or.inl hemp) (Or.inl hemp) (by simpa using h.len) ?_ ?_ ?_ (fun hc => absurd rfl hc) ?_ ?_
    (Or.inl (Function.update_same _ _ _)) (fun k hk => Function.update_noteq hk _ _) ?_
  · simp
  · intro k hk _
    simp only
    rcases Nat.lt_or_ge k st.out.length with h1 | h1
    · rw [List.getElem?_append_left h1]
    · rw [List.getElem?_eq_none h1, List.getElem?_eq_none]
      simp only [List.length_append, List.length_singleton]
      omega
  · simp only
    rw [hemp, List.getElem?_append_right le_rfl]
    simp [rawSums]
  · simp only
    rw [List.getElem?_set_self hxl]
  · intro c hc z hz
    simp only
    rw [List.getElem?_set_ne (Ne.symm hc)]
    split
    · exact Or.inl hemp
    · exact hz
  · simp only [List.length_append, List.length_singleton]
    exact h.seeds.push hx hy hv hU hL

/-- The invariant after a foreground pixel has merged its upper and left regions. -/
theorem Inv.merge {V : Pixel → ℕ} {w : ℕ} {y0 yc : ℤ} {xc : ℕ} {st : ScanState ℝ}
    {cls : ℕ → Finset Pixel} {seed : ℕ → Pixel} (h : Inv V w y0 yc xc st cls seed)
    (hx : xc < w) (hy : y0 ≤ yc) (hv : V (xc, yc) ≠ 0) (iu il x : ℕ) (hxe : xc = x + 1)
    (hup : st.indicies[xc]? = some (iu : ℤ)) (hleft : leftOf st.indicies xc = some (il : ℤ))
    (hne : iu ≠ il) (hU : (xc, yc - 1) ∈ cls iu) (hL : (x, yc) ∈ cls il) :
    ∃ st1 cls1, pixelStep yc xc (V (xc, yc)) st = some st1 ∧
      Inv V w y0 yc (xc + 1) st1 cls1 seed ∧ st1.out.length = st.out.length := by
  have hneu : (cls iu).Nonempty := ⟨_, hU⟩
  have hnel : (cls il).Nonempty := ⟨_, hL⟩
  have hiu := h.lt_length hneu
  have hil := h.lt_length hnel
  have hxl : xc < st.indicies.length := by rw [h.len]; exact hx
  have hpu : (xc, yc) ∉ cls iu := fun hm => scanned_not_self (h.classes.sub iu _ hm)
  have hpl : (xc, yc) ∉ cls il := fun hm => scanned_not_self (h.classes.sub il _ hm)
  have hdisj : Disjoint (cls iu) (cls il) := by
    rw [Finset.disjoint_left]
    intro a ha hb
    exact hne (h.classes.sep iu il a a ha hb (Conn.refl _ a))
  have hadjL : adj4 (xc, yc) (x, yc) := by rw [hxe]; exact adj4_left x yc
  refine ⟨_, joinCls cls iu il (xc, yc),
    pixelStep_merge yc xc _ st iu il _ _ hv hxl hup hleft hne (h.get hneu) (h.get hnel), ?_,
    by simp only [List.length_set]⟩
  refine h.join_step hx hy hv (fun _ => Or.inl hU) ?_ (Or.inr ⟨_, hU, adj4_up xc yc⟩)
    (Or.inr ⟨_, hL, hadjL⟩) (by simpa using h.len) ?_ ?_ ?_ ?_ ?_ ?_
    (Or.inr (h.seed_mem iu hneu)) (fun _ _ => rfl) ?_
  · intro x2 hx2 _
    have : x2 = x := by omega
    subst this
    exact Or.inr hL
  · simp only [List.length_set]
    rw [max_eq_left (by omega)]
  · intro k hk1 hk2
    simp only
    rw [List.getElem?_set_ne (Ne.symm hk1), List.getElem?_set_ne (Ne.symm hk2),
      List.getElem?_set_ne (Ne.symm hk1)]
  · simp only
    rw [List.getElem?_set_self (by simpa using hiu), rawSums_insert_union V _ _ _ hpu hpl hdisj]
  · intro _ b hb
    simp only at hb
    rw [List.getElem?_set_ne hne, List.getElem?_set_self (by simpa using hil)] at hb
    rw [← Option.some.inj hb]
  · simp only
    rw [List.getElem?_set_self (by simpa using hxl)]
  · intro c hc z hz
    simp only
    rw [List.getElem?_set_ne (Ne.symm hc), List.getElem?_map, hz]
    simp only [Option.map_some']
    split
    · exact Or.inr rfl
    · rfl
  · simp only [List.length_set]
    exact h.seeds.step hx hy

/-- Every step of the inner loop succeeds and keeps the invariant. The region list grows by
one entry exactly when the sample is nonzero and the cells above and to the left both hold
`-1`; the pixel is then recorded as the seed of the new entry, and no other seed changes. -/
theorem pixelStep_inv_created {V : Pixel → ℕ} {w : ℕ} {y0 yc : ℤ} {xc : ℕ} {st : ScanState ℝ}
    {cls : ℕ → Finset Pixel} {seed : ℕ → Pixel} (h : Inv V w y0 yc xc st cls seed)
    (hx : xc < w) (hy : y0 ≤ yc) :
    ∃ st1 cls1 seed1, pixelStep yc xc (V (xc, yc)) st = some st1 ∧
      Inv V w y0 yc (xc + 1) st1 cls1 seed1 ∧
      ((st1.out.length = st.out.length ∧ seed1 = seed) ∨
        (st1.out.length = st.out.length + 1 ∧
          seed1 = Function.update seed st.out.length (xc, yc) ∧ V (xc, yc) ≠ 0 ∧
          st.indicies[xc]? = some (-1) ∧ leftOf st.indicies xc = some (-1))) := by
  by_cases hv : V (xc, yc) = 0
  · refine ⟨_, cls, seed, ?_, h.skip hx hy hv, Or.inl ⟨rfl, rfl⟩⟩
    have hxl : xc < st.indicies.length := by rw [h.len]; exact hx
    simp [pixelStep, hv, assign, hxl]
  · rcases h.up_cases hx with ⟨hup, hU⟩ | ⟨iu, hup, hU, hUm⟩
    · rcases h.left_cases hx with ⟨hleft, hL⟩ | ⟨il, x, hxe, hleft, hL, hLm⟩
      · obtain ⟨st1, cls1, h1, h2, h3⟩ := h.new hx hy hv hup hleft hU hL
        exact ⟨st1, cls1, _, h1, h2, Or.inr ⟨h3, rfl, hv, hup, hleft⟩⟩
      · obtain ⟨st1, cls1, h1, h2, h3⟩ :=
          h.add hx hy hv il _ _ hup hleft (Or.inr (Or.inl ⟨rfl, rfl⟩))
            ⟨_, hLm, by rw [hxe]; exact adj4_left x yc⟩ (fun hs => absurd hs hU)
            (by
              intro x2 hx2 _
              have : x2 = x := by omega
              subst this
              exact hLm)
        exact ⟨st1, cls1, seed, h1, h2, Or.inl ⟨h3, rfl⟩⟩
    · rcases h.left_cases hx with ⟨hleft, hL⟩ | ⟨il, x, hxe, hleft, hL, hLm⟩
      · obtain ⟨st1, cls1, h1, h2, h3⟩ :=
          h.add hx hy hv iu _ _ hup hleft (Or.inl ⟨rfl, rfl⟩)
            ⟨_, hUm, adj4_up xc yc⟩ (fun _ => hUm) (fun x2 hx2 hs => absurd hs (hL x2 hx2))
        exact ⟨st1, cls1, seed, h1, h2, Or.inl ⟨h3, rfl⟩⟩
      · by_cases hne : iu = il
        · subst hne
          obtain ⟨st1, cls1, h1, h2, h3⟩ :=
            h.add hx hy hv iu _ _ hup hleft (Or.inr (Or.inr ⟨rfl, rfl⟩))
              ⟨_, hUm, adj4_up xc yc⟩ (fun _ => hUm)
              (by
                intro x2 hx2 _
                have : x2 = x := by omega
                subst this
                exact hLm)
          exact ⟨st1, cls1, seed, h1, h2, Or.inl ⟨h3, rfl⟩⟩
        · obtain ⟨st1, cls1, h1, h2, h3⟩ := h.merge hx hy hv iu il x hxe hup hleft hne hUm hLm
          exact ⟨st1, cls1, seed, h1, h2, Or.inl ⟨h3, rfl⟩⟩

/-- Every step of the inner loop succeeds and keeps the invariant. -/
theorem pixelStep_inv {V : Pixel → ℕ} {w : ℕ} {y0 yc : ℤ} {xc : ℕ} {st : ScanState ℝ}
    {cls : ℕ → Finset Pixel} {seed : ℕ → Pixel} (h : Inv V w y0 yc xc st cls seed)
    (hx : xc < w) (hy : y0 ≤ yc) :
    ∃ st1 cls1 seed1, pixelStep yc xc (V (xc, yc)) st = some st1 ∧
      Inv V w y0 yc (xc + 1) st1 cls1 seed1 := by
  obtain ⟨st1, cls1, seed1, h1, h2, _⟩ := pixelStep_inv_created h hx hy
  exact ⟨st1, cls1, seed1, h1, h2⟩


/-! ## The invariant along rows and along the whole scan -/

/-- Scanning `n` further samples of a row, from index `xc` on, succeeds and keeps the
invariant. -/
theorem scanRow_inv {V : Pixel → ℕ} {w : ℕ} {y0 yc : ℤ} (hy : y0 ≤ yc) :
    ∀ (n xc : ℕ) (st : ScanState ℝ) (cls : ℕ → Finset Pixel) (seed : ℕ → Pixel),
      xc + n ≤ w → Inv V w y0 yc xc st cls seed →
      ∃ st1 cls1 seed1,
        scanRow yc xc ((List.range' xc n).map (fun c => V (c, yc))) st = some st1 ∧
          Inv V w y0 yc (xc + n) st1 cls1 seed1 := by
  intro n
  induction n with
  | zero =>
    intro xc st cls seed _ h
    exact ⟨st, cls, seed, rfl, h⟩
  | succ n ih =>
    intro xc st cls seed hn h
    obtain ⟨st1, cls1, seed1, hstep, h1⟩ := pixelStep_inv h (by omega) hy
    obtain ⟨st2, cls2, seed2, hrest, h2⟩ := ih (xc + 1) st1 cls1 seed1 (by omega) h1
    have e : xc + 1 + n = xc + (n + 1) := by omega
    rw [e] at h2
    refine ⟨st2, cls2, seed2, ?_, h2⟩
    simp only [List.range'_succ, List.map_cons, scanRow, hstep, Option.some_bind]
    exact hrest

theorem Gray.sample_eq (g : Gray) (c j : ℕ) (hc : c < g.Rect.Dx.toNat)
    (hj : j < g.Rect.Dy.toNat) :
    g.sample (c, g.Rect.Min.Y + j) = g.Pix.getD ((j : ℤ) * g.Stride + c).toNat 0 := by
  have h1 : g.Rect.Min.Y + (j : ℤ) < g.Rect.Max.Y := by
    unfold Rectangle.Dy at hj; omega
  have h2 : g.Rect.Min.Y ≤ g.Rect.Min.Y + (j : ℤ) := by omega
  unfold Gray.sample Gray.PixOffset
  simp only [hc, h1, h2, and_self, if_true]
  congr 2
  ring

/-- On a well-formed grid the row slice exists and holds the samples of the row. -/
theorem rowData_eq (g : Gray) (hw : g.WellFormed) (j : ℕ) (hj : j < g.Rect.Dy.toNat) :
    rowData g (g.Rect.Min.Y + j) =
      some ((List.range' 0 g.Rect.Dx.toNat).map (fun c => g.sample (c, g.Rect.Min.Y + j))) := by
  obtain ⟨hX, hY, hrow⟩ := hw
  obtain ⟨hlo, hhi⟩ := hrow j hj
  have hdx : 0 ≤ g.Rect.Dx := by unfold Rectangle.Dx; omega
  have e1 : g.PixOffset g.Bounds.Min.X (g.Rect.Min.Y + j) = (j : ℤ) * g.Stride := by
    unfold Gray.PixOffset Gray.Bounds; ring
  have e2 : g.PixOffset g.Bounds.Max.X (g.Rect.Min.Y + j) = (j : ℤ) * g.Stride + g.Rect.Dx := by
    unfold Gray.PixOffset Gray.Bounds Rectangle.Dx; ring
  unfold rowData sliceRange
  rw [e1, e2, if_pos ⟨hlo, by omega, hhi⟩]
  congr 1
  have e3 : ((j : ℤ) * g.Stride + g.Rect.Dx - (j : ℤ) * g.Stride).toNat = g.Rect.Dx.toNat := by
    congr 1; ring
  rw [e3]
  apply List.ext_getElem?
  intro k
  rw [List.getElem?_take, List.getElem?_map]
  by_cases hk : k < g.Rect.Dx.toNat
  · have e4 : (List.range' 0 g.Rect.Dx.toNat)[k]? = some k := by
      rw [List.getElem?_range' _ _ hk]; simp
    rw [if_pos hk, e4, Option.map_some', List.getElem?_drop, g.sample_eq k j hk hj]
    have e5 : ((j : ℤ) * g.Stride + (k : ℤ)).toNat = ((j : ℤ) * g.Stride).toNat + k := by omega
    have e6 : ((j : ℤ) * g.Stride).toNat + k < g.Pix.length := by omega
    rw [e5, List.getElem?_eq_getElem e6, List.getD_eq_getElem _ _ e6]
  · have e4 : (List.range' 0 g.Rect.Dx.toNat)[k]? = none := by
      rw [List.getElem?_eq_none]; simp; omega
    rw [if_neg hk, e4, Option.map_none']

/-- Scanning `n` further rows of a well-formed grid succeeds and keeps the invariant. -/
theorem scanRows_inv (g : Gray) (hw : g.WellFormed) :
    ∀ (n j : ℕ) (st : ScanState ℝ) (cls : ℕ → Finset Pixel) (seed : ℕ → Pixel),
      j + n ≤ g.Rect.Dy.toNat →
      Inv g.sample g.Rect.Dx.toNat g.Rect.Min.Y (g.Rect.Min.Y + j) 0 st cls seed →
      ∃ st1 cls1 seed1, scanRows g n (g.Rect.Min.Y + j) st = some st1 ∧
        Inv g.sample g.Rect.Dx.toNat g.Rect.Min.Y (g.Rect.Min.Y + (j + n : ℕ)) 0 st1 cls1 seed1 := by
  intro n
  induction n with
  | zero =>
    intro j st cls seed _ h
    exact ⟨st, cls, seed, rfl, by simpa using h⟩
  | succ n ih =>
    intro j st cls seed hn h
    obtain ⟨st1, cls1, seed1, hrow, h1⟩ :=
      scanRow_inv (by omega) g.Rect.Dx.toNat 0 st cls seed (by omega) h
    rw [zero_add] at h1
    have h1b := h1.next_row_inv
    have e : g.Rect.Min.Y + (j : ℤ) + 1 = g.Rect.Min.Y + ((j + 1 : ℕ) : ℤ) := by
      push_cast; ring
    rw [e] at h1b
    obtain ⟨st2, cls2, seed2, hrest, h2⟩ := ih (j + 1) st1 cls1 seed1 (by omega) h1b
    refine ⟨st2, cls2, seed2, ?_, ?_⟩
    · simp only [scanRows, rowData_eq g hw j (by omega), Option.some_bind, hrow]
      rw [e]
      exact hrest
    · have e2 : j + 1 + n = j + (n + 1) := by omega
      rw [e2] at h2
      exact h2

/-- The invariant holds before the first pixel. -/
theorem Inv.init (V : Pixel → ℕ) (w : ℕ) (y0 : ℤ) (cells : List ℤ) (hc : cells.length = w) :
    Inv V w y0 y0 0 ⟨cells.map (fun _ => (-1 : ℤ)), []⟩ (fun _ => ∅) (fun _ => (0, 0)) := by
  have hS : ∀ a, ¬ Scanned V w y0 y0 0 a := by
    intro a h
    unfold Scanned at h
    omega
  refine ⟨by simpa using hc, ⟨?_, ?_, ?_, ?_⟩, ?_, ?_, ?_, ?_, ?_, ?_, ⟨?_, ?_, ?_⟩⟩
  · intro i a ha; simp at ha
  · intro a ha; exact absurd ha (hS a)
  · intro i a b ha; simp at ha
  · intro i j a b ha; simp at ha
  · intro i _; rfl
  · intro i b hb; simp at hb
  · intro i b hb; simp at hb
  · intro c _ hs; exact absurd hs (hS _)
  · intro c hcw _
    rw [List.getElem?_map, List.getElem?_eq_getElem (by omega)]
    rfl
  · intro i hne; simp at hne
  · intro i j _ hj; simp at hj
  · intro i hi; simp at hi
  · intro i hi; simp at hi


/-! ## The finalizer -/

section FinalizeLemmas

variable {F : Type} [Field F] [DecidableEq F]

theorem finalizeSpec_append_singleton (sqrt : F → F) (l : List (Blob F)) (b : Blob F) :
    finalizeSpec sqrt (l ++ [b]) =
      finalizeSpec sqrt l ++ (if b.Weight = -1 then [] else [finBlob sqrt b]) := by
  unfold finalizeSpec
  by_cases h : b.Weight = -1
  · simp [List.filter_append, h]
  · simp [List.filter_append, h, List.filter_cons]

theorem finalizeStep_inv (sqrt : F → F) (out : List (Blob F)) (i : ℕ) (st : List (Blob F) × ℕ)
    (hi : i < out.length) (h0 : ∀ b, out[i]? = some b → b.Weight ≠ 0)
    (h : FinInv sqrt out i st) :
    ∃ st1, finalizeStep sqrt st i = some st1 ∧ FinInv sqrt out (i + 1) st1 := by
  obtain ⟨cur, dead⟩ := st
  obtain ⟨hlen, hcnt, hlo, hhi⟩ := h
  simp only at hlen hcnt hlo hhi
  have hb : cur[i]? = some out[i] := by rw [hhi i le_rfl, List.getElem?_eq_getElem hi]
  have htake : out.take (i + 1) = out.take i ++ [out[i]] := by
    rw [List.take_succ, List.getElem?_eq_getElem hi]; rfl
  have hic : i < cur.length := by omega
  by_cases hd : out[i].Weight = -1
  · refine ⟨(cur, dead + 1), ?_, ?_⟩
    · simp [finalizeStep, hb, hd]
    · refine ⟨hlen, ?_, ?_, ?_⟩
      · rw [htake, finalizeSpec_append_singleton, if_pos hd, List.append_nil]
        simp only
        omega
      · intro k hk
        rw [htake, finalizeSpec_append_singleton, if_pos hd, List.append_nil]
        exact hlo k (by simp only at hk ⊢; omega)
      · intro k hk
        exact hhi k (by omega)
  · have hz : out[i].Weight ≠ 0 := h0 _ (List.getElem?_eq_getElem hi)
    have hdi : dead ≤ i := by omega
    have hcast : ((i : ℤ) - (dead : ℤ)) = ((i - dead : ℕ) : ℤ) := by omega
    refine ⟨((cur.set i (finBlob sqrt out[i])).set (i - dead) (finBlob sqrt out[i]), dead),
      ?_, ?_⟩
    · have h2 : i - dead < cur.length := by omega
      simp only [finalizeStep, index?_natCast, hb, Option.bind_eq_bind, Option.some_bind,
        if_neg hd, if_neg hz]
      rw [assign_natCast _ _ _ hic]
      simp only [Option.some_bind, index?_natCast]
      rw [List.getElem?_set_self hic]
      simp only [Option.some_bind, hcast]
      rw [assign_natCast _ _ _ (by simpa using h2)]
      rfl
    · have hsl : (finalizeSpec sqrt (out.take i)).length = i - dead := by omega
      refine ⟨by simpa using hlen, ?_, ?_, ?_⟩
      · rw [htake, finalizeSpec_append_singleton, if_neg hd]
        simp only [List.length_append, List.length_singleton]
        omega
      · intro k hk
        simp only at hk ⊢
        rw [htake, finalizeSpec_append_singleton, if_neg hd]
        by_cases hk2 : k = i - dead
        · subst hk2
          rw [List.getElem?_set_self (by simpa using (by omega : i - dead < cur.length)),
            List.getElem?_append_right (by omega), hsl]
          simp
        · have hk3 : k < i - dead := by omega
          rw [List.getElem?_set_ne (Ne.symm hk2), List.getElem?_set_ne (by omega),
            List.getElem?_append_left (by omega)]
          exact hlo k hk3
      · intro k hk
        simp only
        rw [List.getElem?_set_ne (by omega), List.getElem?_set_ne (by omega)]
        exact hhi k (by omega)

theorem finalizeLoop_inv (sqrt : F → F) (out : List (Blob F))
    (h0 : ∀ b, b ∈ out → b.Weight ≠ 0) :
    ∀ (n i : ℕ) (st : List (Blob F) × ℕ), i + n = out.length → FinInv sqrt out i st →
      ∃ st1, finalizeLoop sqrt (List.range' i n) st = some st1 ∧
        FinInv sqrt out out.length st1 := by
  intro n
  induction n with
  | zero =>
    intro i st hn h
    have : i = out.length := by omega
    subst this
    exact ⟨st, rfl, h⟩
  | succ n ih =>
    intro i st hn h
    have hi : i < out.length := by omega
    obtain ⟨st1, hstep, h1⟩ := finalizeStep_inv sqrt out i st hi
      (fun b hb => h0 b (List.getElem?_mem hb)) h
    obtain ⟨st2, hrest, h2⟩ := ih (i + 1) st1 (by omega) h1
    refine ⟨st2, ?_, h2⟩
    simp only [List.range'_succ, finalizeLoop, hstep, Option.some_bind]
    exact hrest

/-- The in-place finalizer computes the filter-then-map of its input, provided no entry has
weight zero. -/
theorem finalize_eq (sqrt : F → F) (out : List (Blob F)) (h0 : ∀ b, b ∈ out → b.Weight ≠ 0) :
    finalize sqrt out = some (finalizeSpec sqrt out) := by
  have hinit : FinInv sqrt out 0 (out, 0) := by
    refine ⟨rfl, by simp [finalizeSpec], ?_, fun k _ => rfl⟩
    intro k hk
    simp at hk
  obtain ⟨⟨cur, dead⟩, hloop, hlen, hcnt, hlo, _⟩ :=
    finalizeLoop_inv sqrt out h0 out.length 0 (out, 0) (by omega) hinit
  simp only [List.take_length] at hlen hcnt hlo
  unfold finalize
  rw [List.range_eq_range', hloop]
  simp only [Option.some_bind, sliceRange]
  have hd : dead ≤ cur.length := by omega
  rw [if_pos ⟨le_rfl, by omega, by omega⟩]
  congr 1
  have e : ((cur.length : ℤ) - (dead : ℤ) - 0).toNat = out.length - dead := by omega
  simp only [Int.toNat_zero, List.drop_zero, e]
  apply List.ext_getElem?
  intro k
  rw [List.getElem?_take]
  by_cases hk : k < out.length - dead
  · rw [if_pos hk]
    exact hlo k hk
  · rw [if_neg hk, eq_comm, List.getElem?_eq_none]
    omega

end FinalizeLemmas


/-! ## From the invariant to the result of `Detect` -/

theorem getIntArray_some (pool : ArrayCache) (size : ℤ) (h : 0 ≤ size) :
    ∃ got, getIntArray pool size = some got ∧ got.1.cells.length = size.toNat := by
  unfold getIntArray
  cases pool with
  | nil =>
    exact ⟨(⟨List.replicate size.toNat 0, []⟩, []), by simp [makeInts, h], by simp⟩
  | cons b rest =>
    simp only
    by_cases hc : (b.cap : ℤ) ≥ size
    · refine ⟨_, by rw [if_pos hc, if_pos h], ?_⟩
      simp only [List.length_take, List.length_append]
      unfold IntSlice.cap at hc
      omega
    · exact ⟨(⟨List.replicate size.toNat 0, []⟩, rest), by rw [if_neg hc]; simp [makeInts, h],
        by simp⟩

theorem filter_map_range {α β : Type} (P : α → Bool) (Q : ℕ → Bool) (f : α → β) (h : ℕ → β) :
    ∀ l : List α, (∀ i a, l[i]? = some a → P a = Q i) →
      (∀ i a, l[i]? = some a → Q i = true → f a = h i) →
      (l.filter P).map f = ((List.range l.length).filter Q).map h := by
  intro l
  induction l using List.reverseRecOn with
  | nil => intro _ _; rfl
  | append_singleton l a ih =>
    intro hPQ hfh
    have hl : ∀ (i : ℕ) (b : α), l[i]? = some b → (l ++ [a])[i]? = some b := by
      intro i b hb
      have hlt : i < l.length := lt_length_of_getElem? hb
      rw [List.getElem?_append_left hlt]
      exact hb
    have ha : (l ++ [a])[l.length]? = some a := by
      rw [List.getElem?_append_right le_rfl]; simp
    have ih2 := ih (fun i b hb => hPQ i b (hl i b hb)) (fun i b hb => hfh i b (hl i b hb))
    rw [List.length_append, List.length_singleton, List.range_succ, List.filter_append,
      List.filter_append, List.map_append, List.map_append, ih2]
    congr 1
    have e := hPQ _ _ ha
    by_cases hq : Q l.length = true
    · have hp : P a = true := by rw [e]; exact hq
      simp [List.filter_cons, hp, hq, hfh _ _ ha hq]
    · have hq2 : Q l.length = false := by simpa using hq
      have hp : P a = false := by rw [e]; exact hq2
      simp [List.filter_cons, hp, hq2]

theorem finBlob_rawSums (V : Pixel → ℕ) (C : Finset Pixel) :
    finBlob Real.sqrt (rawSums V C) = moments V C := by
  have e1 : ∑ p in C, (p.1 : ℝ) * (V p : ℝ) = ∑ p in C, (V p : ℝ) * (p.1 : ℝ) :=
    Finset.sum_congr rfl (fun _ _ => mul_comm _ _)
  have e2 : ∑ p in C, (p.2 : ℝ) * (V p : ℝ) = ∑ p in C, (V p : ℝ) * (p.2 : ℝ) :=
    Finset.sum_congr rfl (fun _ _ => mul_comm _ _)
  have e3 : ∑ p in C, (p.1 : ℝ) * (p.1 : ℝ) * (V p : ℝ) = ∑ p in C, (V p : ℝ) * (p.1 : ℝ) ^ 2 :=
    Finset.sum_congr rfl (fun _ _ => by ring)
  have e4 : ∑ p in C, (p.2 : ℝ) * (p.2 : ℝ) * (V p : ℝ) = ∑ p in C, (V p : ℝ) * (p.2 : ℝ) ^ 2 :=
    Finset.sum_congr rfl (fun _ _ => by ring)
  simp only [finBlob, rawSums, moments, e1, e2, e3, e4, sq]

/-- The weight accumulated for a nonempty set of foreground pixels is positive. -/
theorem sum_weight_pos (V : Pixel → ℕ) (C : Finset Pixel) (hne : C.Nonempty)
    (hV : ∀ p ∈ C, V p ≠ 0) : 0 < ∑ p in C, (V p : ℝ) := by
  apply Finset.sum_pos _ hne
  intro p hp
  exact_mod_cast Nat.pos_of_ne_zero (hV p hp)

theorem Inv.rawWeight_pos {V : Pixel → ℕ} {w : ℕ} {y0 yc : ℤ} {xc : ℕ} {st : ScanState ℝ}
    {cls : ℕ → Finset Pixel} {seed : ℕ → Pixel} (h : Inv V w y0 yc xc st cls seed) {i : ℕ}
    (hne : (cls i).Nonempty) : 0 < (rawSums V (cls i)).Weight :=
  sum_weight_pos V (cls i) hne (fun p hp => (h.classes.sub i p hp).2.2.1)

/-- The finalizer applied to the state of the scan: the live entries, finalized. -/
theorem Inv.finalize_out {V : Pixel → ℕ} {w : ℕ} {y0 yc : ℤ} {xc : ℕ} {st : ScanState ℝ}
    {cls : ℕ → Finset Pixel} {seed : ℕ → Pixel} (h : Inv V w y0 yc xc st cls seed) :
    finalize Real.sqrt st.out =
      some ((liveIdx st.out.length cls).map (fun i => moments V (cls i))) := by
  have hw : ∀ i b, st.out[i]? = some b → (b.Weight = -1 ↔ ¬ (cls i).Nonempty) := by
    intro i b hb
    constructor
    · intro hd hne
      have := h.rawWeight_pos hne
      rw [← h.sums i b hb hne, hd] at this
      norm_num at this
    · intro hne
      exact h.dead i b hb (Finset.not_nonempty_iff_eq_empty.1 hne)
  rw [Blobdetect.finalize_eq]
  · congr 1
    unfold finalizeSpec liveIdx
    apply filter_map_range
    · intro i b hb
      have := hw i b hb
      by_cases hne : (cls i).Nonempty
      · have h1 : ¬ b.Weight = -1 := fun hd => (this.1 hd) hne
        simp [h1, hne]
      · have h1 : b.Weight = -1 := this.2 hne
        simp [h1, hne]
    · intro i b hb hne
      have hne2 : (cls i).Nonempty := by simpa using hne
      rw [h.sums i b hb hne2, finBlob_rawSums]
  · intro b hb
    obtain ⟨i, hi⟩ := List.mem_iff_getElem?.1 hb
    by_cases hne : (cls i).Nonempty
    · have := h.rawWeight_pos hne
      rw [← h.sums i b hi hne] at this
      exact ne_of_gt this
    · rw [(hw i b hi).2 hne]
      norm_num

theorem fore_iff_fg (g : Gray) (a : Pixel) :
    Fore g.sample g.Rect.Dx.toNat g.Rect.Min.Y a ↔ g.fg a := by
  unfold Fore Gray.fg
  constructor
  · exact fun h => h.2.2
  · intro h
    have : a.1 < g.Rect.Dx.toNat ∧ g.Rect.Min.Y ≤ a.2 ∧ a.2 < g.Rect.Max.Y := by
      by_contra hc
      exact h (by unfold Gray.sample; rw [if_neg hc])
    exact ⟨this.1, this.2.1, h⟩

theorem scanned_final_iff_fg (g : Gray) (a : Pixel) :
    Scanned g.sample g.Rect.Dx.toNat g.Rect.Min.Y (g.Rect.Min.Y + (g.Rect.Dy.toNat : ℕ)) 0 a ↔
      g.fg a := by
  unfold Scanned Gray.fg
  constructor
  · exact fun h => h.2.2.1
  · intro h
    have : a.1 < g.Rect.Dx.toNat ∧ g.Rect.Min.Y ≤ a.2 ∧ a.2 < g.Rect.Max.Y := by
      by_contra hc
      exact h (by unfold Gray.sample; rw [if_neg hc])
    refine ⟨this.1, this.2.1, h, Or.inl ?_⟩
    unfold Rectangle.Dy
    omega

/-- What `Detect` computes on a well-formed grid: it returns, and the blobs are the moments of
the classes `cls i` of the foreground pixels, in the order of the live entries; `seed i` is the
pixel at which entry `i` was created. -/
theorem Detect_spec (g : Gray) (hw : g.WellFormed) (pool : ArrayCache) (out : List (Blob ℝ)) :
    ∃ (n : ℕ) (cls : ℕ → Finset Pixel) (seed : ℕ → Pixel) (pool1 : ArrayCache),
      Detect Real.sqrt pool g out =
          some ((liveIdx n cls).map (fun i => moments g.sample (cls i)), pool1) ∧
        Classes g.fg cls ∧ (∀ i, n ≤ i → cls i = ∅) ∧
        (∀ i, (cls i).Nonempty → seed i ∈ cls i) ∧
        (∀ i j, i < j → j < n → rmLt (seed i) (seed j)) ∧
        (∀ i, i < n → g.fg (seed i) ∧ ¬ g.fg ((seed i).1, (seed i).2 - 1) ∧
          ∀ x, (seed i).1 = x + 1 → ¬ g.fg (x, (seed i).2)) := by
  have hdx : 0 ≤ g.Rect.Dx := by unfold Rectangle.Dx; have := hw.1; omega
  obtain ⟨got, hgot, hcells⟩ := getIntArray_some pool g.Rect.Dx hdx
  have hout : (if out.length > 0 then out.take 0 else out) = [] := by
    cases out <;> simp
  have hinit := Inv.init g.sample g.Rect.Dx.toNat g.Rect.Min.Y got.1.cells hcells
  have hinit2 : Inv g.sample g.Rect.Dx.toNat g.Rect.Min.Y (g.Rect.Min.Y + ((0 : ℕ) : ℤ)) 0
      ⟨got.1.cells.map (fun _ => (-1 : ℤ)), []⟩ (fun _ => ∅) (fun _ => (0, 0)) := by
    simpa using hinit
  obtain ⟨st, cls, seed, hscan, hinv⟩ :=
    scanRows_inv g hw g.Rect.Dy.toNat 0 _ _ _ (by omega) hinit2
  simp only [Nat.cast_zero, add_zero, zero_add] at hscan hinv
  refine ⟨st.out.length, cls, seed, releaseIntArray got.2 ⟨st.indicies, got.1.spare⟩, ?_,
    hinv.classes.congr_cls (scanned_final_iff_fg g),
    hinv.oob, hinv.seed_mem, hinv.seeds.lt, ?_⟩
  · unfold Detect convertToGray Gray.Bounds
    simp only [hout, hgot, Option.some_bind, hscan, hinv.finalize_out, Option.map_some']
  · intro i hi
    refine ⟨(scanned_final_iff_fg g _).1 (hinv.seeds.sc i hi), ?_, ?_⟩
    · exact fun hf => (hinv.seeds.corner i hi).1 ((fore_iff_fg g _).2 hf)
    · exact fun x hx hf => (hinv.seeds.corner i hi).2 x hx ((fore_iff_fg g _).2 hf)


/-! ## Components -/

theorem mem_liveIdx {n : ℕ} {cls : ℕ → Finset Pixel} {i : ℕ} :
    i ∈ liveIdx n cls ↔ i < n ∧ (cls i).Nonempty := by
  simp [liveIdx]

/-- A class of the final partition is a maximal 4-connected component. -/
theorem Classes.isComponent {g : Gray} {cls : ℕ → Finset Pixel} (hc : Classes g.fg cls) {i : ℕ}
    (hne : (cls i).Nonempty) : IsComponent g (cls i) := by
  refine ⟨hne, ?_⟩
  intro a ha b
  constructor
  · intro hb
    exact ⟨hc.sub i b hb, hc.conn i a b ha hb⟩
  · rintro ⟨hb, hab⟩
    obtain ⟨j, hj⟩ := hc.cover b hb
    have := hc.sep i j a b ha hj hab
    subst this
    exact hj

/-- Two components that share a pixel are equal. -/
theorem IsComponent.eq_of_mem {g : Gray} {C D : Finset Pixel} (hC : IsComponent g C)
    (hD : IsComponent g D) {a : Pixel} (haC : a ∈ C) (haD : a ∈ D) : C = D := by
  ext b
  rw [hC.2 a haC b, hD.2 a haD b]

theorem Classes.enumerates {g : Gray} {cls : ℕ → Finset Pixel} {n : ℕ} (hc : Classes g.fg cls)
    (hoob : ∀ i, n ≤ i → cls i = ∅) : Enumerates g ((liveIdx n cls).map cls) := by
  constructor
  · apply List.Nodup.map_on
    · intro i hi j hj hij
      obtain ⟨a, ha⟩ := (mem_liveIdx.1 hi).2
      have haj : a ∈ cls j := hij ▸ ha
      exact hc.sep i j a a ha haj (Conn.refl _ a)
    · exact (List.nodup_range n).filter _
  · intro C
    rw [List.mem_map]
    constructor
    · rintro ⟨i, hi, rfl⟩
      exact hc.isComponent (mem_liveIdx.1 hi).2
    · intro hC
      obtain ⟨a, ha⟩ := hC.1
      have hfa : g.fg a := ((hC.2 a ha a).1 ha).1
      obtain ⟨i, hi⟩ := hc.cover a hfa
      have hne : (cls i).Nonempty := ⟨a, hi⟩
      refine ⟨i, mem_liveIdx.2 ⟨?_, hne⟩, (hc.isComponent hne).eq_of_mem hC hi ha⟩
      by_contra hlt
      rw [hoob i (by omega)] at hne
      exact Finset.not_nonempty_empty hne

theorem Enumerates.length_eq {g : Gray} {comps : List (Finset Pixel)} (h : Enumerates g comps) :
    comps.length = numComponents g := by
  unfold numComponents
  have : {C : Finset Pixel | IsComponent g C} = ↑comps.toFinset := by
    ext C
    simp [h.2 C]
  rw [this, Set.ncard_coe_Finset, List.toFinset_card_of_nodup h.1]

/-- Any two enumerations of the components have the same members. -/
theorem Enumerates.mem_iff {g : Gray} {comps comps2 : List (Finset Pixel)}
    (h : Enumerates g comps) (h2 : Enumerates g comps2) (C : Finset Pixel) :
    C ∈ comps ↔ C ∈ comps2 := by
  rw [h.2 C, h2.2 C]

/-- What `Detect` returns on a well-formed grid, in terms of components: the blobs are the
moments of the components, each component once; `seeds` are the pixels at which the surviving
entries were created. -/
theorem Detect_components (g : Gray) (hw : g.WellFormed) (pool : ArrayCache)
    (out : List (Blob ℝ)) :
    ∃ (comps : List (Finset Pixel)) (seeds : List Pixel) (pool1 : ArrayCache),
      Detect Real.sqrt pool g out = some (comps.map (moments g.sample), pool1) ∧
        Enumerates g comps ∧
        List.Forall₂ (fun s C => s ∈ C ∧ Corner g s) seeds comps ∧
        seeds.Pairwise rmLt := by
  obtain ⟨n, cls, seed, pool1, hD, hc, hoob, hmem, hlt, hcorner⟩ := Detect_spec g hw pool out
  refine ⟨(liveIdx n cls).map cls, (liveIdx n cls).map seed, pool1, ?_, hc.enumerates hoob,
    ?_, ?_⟩
  · rw [hD, List.map_map]
    rfl
  · rw [List.forall₂_map_left_iff, List.forall₂_map_right_iff, List.forall₂_same]
    intro i hi
    obtain ⟨h1, h2⟩ := mem_liveIdx.1 hi
    exact ⟨hmem i h2, hcorner i h1⟩
  · rw [List.pairwise_map]
    have hsorted : (liveIdx n cls).Pairwise (fun i j => i < j) :=
      (List.pairwise_lt_range n).filter _
    refine hsorted.imp_of_mem ?_
    intro i j _ hj hij
    exact hlt i j hij (mem_liveIdx.1 hj).1


/-! ## Moments -/

theorem moments_momentSpec (V : Pixel → ℕ) (C : Finset Pixel) :
    MomentSpec V C (moments V C) :=
  ⟨rfl, rfl, rfl⟩

/-- The weighted variance is non-negative (Cauchy-Schwarz). -/
theorem variance_nonneg (V : Pixel → ℕ) (C : Finset Pixel) (f : Pixel → ℝ)
    (hW : 0 < ∑ p in C, (V p : ℝ)) :
    0 ≤ (∑ p in C, (V p : ℝ) * f p ^ 2) / (∑ p in C, (V p : ℝ)) -
      ((∑ p in C, (V p : ℝ) * f p) / (∑ p in C, (V p : ℝ))) ^ 2 := by
  have hcs : (∑ p in C, (V p : ℝ) * f p) ^ 2 ≤
      (∑ p in C, (V p : ℝ) * f p ^ 2) * ∑ p in C, (V p : ℝ) := by
    apply Finset.sum_sq_le_sum_mul_sum_of_sq_eq_mul
    · intro p _
      exact mul_nonneg (Nat.cast_nonneg _) (sq_nonneg _)
    · intro p _
      exact Nat.cast_nonneg _
    · intro p _
      ring
  rw [div_pow, sub_nonneg, div_le_div_iff₀ (by positivity) hW]
  calc (∑ p in C, (V p : ℝ) * f p) ^ 2 * ∑ p in C, (V p : ℝ)
      ≤ ((∑ p in C, (V p : ℝ) * f p ^ 2) * ∑ p in C, (V p : ℝ)) * ∑ p in C, (V p : ℝ) :=
        mul_le_mul_of_nonneg_right hcs hW.le
    _ = (∑ p in C, (V p : ℝ) * f p ^ 2) * (∑ p in C, (V p : ℝ)) ^ 2 := by ring

theorem moments_deviationSpec (V : Pixel → ℕ) (C : Finset Pixel)
    (hW : 0 < ∑ p in C, (V p : ℝ)) : DeviationSpec V C (moments V C) := by
  have hx := variance_nonneg V C (fun p => (p.1 : ℝ)) hW
  have hy := variance_nonneg V C (fun p => (p.2 : ℝ)) hW
  refine ⟨⟨hx, rfl, Real.sqrt_nonneg _, ?_⟩, ⟨hy, rfl, Real.sqrt_nonneg _, ?_⟩, ?_⟩
  · show Real.sqrt _ ^ 2 + _ = _
    rw [Real.sq_sqrt hx]
    simp only [moments]
    ring
  · show Real.sqrt _ ^ 2 + _ = _
    rw [Real.sq_sqrt hy]
    simp only [moments]
    ring
  · intro h1
    show Real.sqrt _ ^ 2 + _ = _
    rw [Real.sq_sqrt hx]
    have e1 : ∑ p in C, (V p : ℝ) = (C.card : ℝ) := by
      rw [Finset.sum_congr rfl (fun p hp => by rw [h1 p hp])]
      simp
    have e2 : ∑ p in C, (V p : ℝ) * (p.1 : ℝ) ^ 2 = ∑ p in C, (p.1 : ℝ) ^ 2 :=
      Finset.sum_congr rfl (fun p hp => by rw [h1 p hp]; simp)
    simp only [moments, e1, e2]
    ring

theorem IsComponent.comp_weight_pos {g : Gray} {C : Finset Pixel} (hC : IsComponent g C) :
    0 < ∑ p in C, (g.sample p : ℝ) :=
  sum_weight_pos g.sample C hC.1 (fun p hp => ((hC.2 p hp p).1 hp).1)

/-! ## The run of `Detect` in terms of the scan -/

/-- The blobs returned by `Detect` are those of the scan started on a row state of `-1`
cells, whatever the channel holds. -/
theorem Detect_blobs {F : Type} [Field F] [DecidableEq F] (sqrt : F → F) (pool : ArrayCache)
    (g : Gray) (out : List (Blob F)) (h : 0 ≤ g.Rect.Dx) :
    (Detect sqrt pool g out).map Prod.fst =
      (scanRows g g.Rect.Dy.toNat g.Rect.Min.Y
        ⟨List.replicate g.Rect.Dx.toNat (-1), []⟩).bind (fun st => finalize sqrt st.out) := by
  obtain ⟨got, hgot, hcells⟩ := getIntArray_some pool g.Rect.Dx h
  have hout : (if out.length > 0 then out.take 0 else out) = [] := by
    cases out <;> simp
  have hmap : got.1.cells.map (fun _ => (-1 : ℤ)) = List.replicate g.Rect.Dx.toNat (-1) := by
    rw [← hcells]
    exact List.map_const' _ _
  unfold Detect convertToGray Gray.Bounds
  simp only [hout, hgot, Option.some_bind, hmap]
  cases scanRows (F := F) g g.Rect.Dy.toNat g.Rect.Min.Y
    ⟨List.replicate g.Rect.Dx.toNat (-1), []⟩ with
  | none => rfl
  | some st =>
    simp only [Option.some_bind]
    cases finalize sqrt st.out <;> rfl

theorem scanRow_append {F : Type} [Field F] [DecidableEq F] (y : ℤ) :
    ∀ (l1 l2 : List ℕ) (x : ℕ) (st : ScanState F),
      scanRow y x (l1 ++ l2) st = (scanRow y x l1 st).bind (scanRow y (x + l1.length) l2) := by
  intro l1
  induction l1 with
  | nil => intro l2 x st; rfl
  | cons v vs ih =>
    intro l2 x st
    show (pixelStep y x v st).bind (scanRow y (x + 1) (vs ++ l2)) =
      ((pixelStep y x v st).bind (scanRow y (x + 1) vs)).bind
        (scanRow y (x + (vs.length + 1)) l2)
    cases pixelStep y x v st with
    | none => rfl
    | some st1 =>
      simp only [Option.some_bind]
      rw [ih l2 (x + 1) st1]
      have e : x + 1 + vs.length = x + (vs.length + 1) := by omega
      rw [e]

theorem scanRows_add {F : Type} [Field F] [DecidableEq F] (g : Gray) :
    ∀ (j n : ℕ) (y : ℤ) (st : ScanState F),
      scanRows g (j + n) y st = (scanRows g j y st).bind (scanRows g n (y + j)) := by
  intro j
  induction j with
  | zero => intro n y st; simp [scanRows]
  | succ j ih =>
    intro n y st
    have e : j + 1 + n = (j + n) + 1 := by omega
    rw [e]
    simp only [scanRows]
    cases rowData g y with
    | none => rfl
    | some row =>
      simp only [Option.some_bind]
      cases scanRow y 0 row st with
      | none => rfl
      | some st1 =>
        simp only [Option.some_bind]
        rw [ih n (y + 1) st1]
        have e2 : y + 1 + (j : ℤ) = y + ((j + 1 : ℕ) : ℤ) := by push_cast; ring
        rw [e2]

/-- The scan of `Detect` passes through `stateBefore g j x`: it scans `j` rows and `x` samples,
and goes on from that state with the sample at index `x`. -/
theorem scanRows_through_stateBefore {F : Type} [Field F] [DecidableEq F] (g : Gray) (j x : ℕ)
    (hj : j < g.Rect.Dy.toNat) :
    scanRows (F := F) g g.Rect.Dy.toNat g.Rect.Min.Y
        ⟨List.replicate g.Rect.Dx.toNat (-1), []⟩ =
      (stateBefore g j x).bind fun st =>
        (rowData g (g.Rect.Min.Y + j)).bind fun row =>
          (scanRow (g.Rect.Min.Y + j) (0 + (row.take x).length) (row.drop x) st).bind
            (scanRows g (g.Rect.Dy.toNat - (j + 1)) (g.Rect.Min.Y + j + 1)) := by
  have e : j + ((g.Rect.Dy.toNat - (j + 1)) + 1) = g.Rect.Dy.toNat := by omega
  have h1 := scanRows_add (F := F) g j ((g.Rect.Dy.toNat - (j + 1)) + 1) g.Rect.Min.Y
    ⟨List.replicate g.Rect.Dx.toNat (-1), []⟩
  rw [e] at h1
  rw [h1]
  unfold stateBefore
  cases scanRows (F := F) g j g.Rect.Min.Y ⟨List.replicate g.Rect.Dx.toNat (-1), []⟩ with
  | none => rfl
  | some st =>
    simp only [Option.some_bind, scanRows]
    cases rowData g (g.Rect.Min.Y + j) with
    | none => rfl
    | some row =>
      simp only [Option.some_bind]
      conv_lhs => rw [← List.take_append_drop x row, scanRow_append]
      cases scanRow (g.Rect.Min.Y + ↑j) 0 (List.take x row) st <;> rfl

/-- On a well-formed grid every `stateBefore` exists and satisfies the scan invariant. -/
theorem stateBefore_inv (g : Gray) (hw : g.WellFormed) (j x : ℕ) (hj : j < g.Rect.Dy.toNat)
    (hx : x ≤ g.Rect.Dx.toNat) :
    ∃ st cls seed, stateBefore (F := ℝ) g j x = some st ∧
      Inv g.sample g.Rect.Dx.toNat g.Rect.Min.Y (g.Rect.Min.Y + j) x st cls seed := by
  have hinit := Inv.init g.sample g.Rect.Dx.toNat g.Rect.Min.Y
    (List.replicate g.Rect.Dx.toNat (0 : ℤ)) (by simp)
  have hmap : (List.replicate g.Rect.Dx.toNat (0 : ℤ)).map (fun _ => (-1 : ℤ)) =
      List.replicate g.Rect.Dx.toNat (-1) := by simp
  rw [hmap] at hinit
  have hinit2 : Inv g.sample g.Rect.Dx.toNat g.Rect.Min.Y (g.Rect.Min.Y + ((0 : ℕ) : ℤ)) 0
      ⟨List.replicate g.Rect.Dx.toNat (-1), []⟩ (fun _ => ∅) (fun _ => (0, 0)) := by
    simpa using hinit
  obtain ⟨st, cls, seed, hscan, hinv⟩ := scanRows_inv g hw j 0 _ _ _ (by omega) hinit2
  simp only [Nat.cast_zero, add_zero, zero_add] at hscan hinv
  obtain ⟨st1, cls1, seed1, hrow, hinv1⟩ :=
    scanRow_inv (by omega) x 0 st cls seed (by omega) hinv
  rw [zero_add] at hinv1
  refine ⟨st1, cls1, seed1, ?_, hinv1⟩
  unfold stateBefore
  rw [hscan, rowData_eq g hw j hj]
  simp only [Option.some_bind]
  rw [← hrow, ← List.map_take, ← List.range_eq_range', List.take_range, List.range_eq_range',
    min_eq_left hx]

theorem exists_component (g : Gray) (hw : g.WellFormed) (a : Pixel) (ha : g.fg a) :
    ∃ C, IsComponent g C ∧ a ∈ C := by
  obtain ⟨n, cls, seed, pool1, _, hc, _, _, _, _⟩ := Detect_spec g hw [] []
  obtain ⟨i, hi⟩ := hc.cover a ha
  exact ⟨cls i, hc.isComponent ⟨a, hi⟩, hi⟩

theorem list_eq_singleton {α : Type} {l : List α} {a : α} (hn : l.Nodup)
    (hm : ∀ x, x ∈ l ↔ x = a) : l = [a] := by
  cases l with
  | nil => exact absurd ((hm a).2 rfl) (List.not_mem_nil a)
  | cons x xs =>
    have hx : x = a := (hm x).1 (List.mem_cons_self x xs)
    subst hx
    cases xs with
    | nil => rfl
    | cons y ys =>
      have hy : y = x := (hm y).1 (List.mem_cons_of_mem _ (List.mem_cons_self y ys))
      subst hy
      exact absurd (List.mem_cons_self y ys) (List.nodup_cons.1 hn).1


/-! ## Two concrete runs of the scan -/

theorem rowData_gridE_0 : rowData gridE 0 = some [1, 0, 1, 0] := by decide

theorem scanRow_gridE_0 : scanRow (F := ℝ) 0 0 [1, 0, 1, 0] ⟨[-1, -1, -1, -1], []⟩ =
    some ⟨[0, -1, 1, -1], [⟨0, 0, 0, 0, 1⟩, ⟨2, 0, 4, 0, 1⟩]⟩ := by
  have s0 : pixelStep (F := ℝ) 0 0 1 ⟨[-1, -1, -1, -1], []⟩ = some ⟨[0, -1, -1, -1], [⟨0, 0, 0, 0, 1⟩]⟩ := by
    simp [pixelStep, leftOf, index?, assign, mergeBlobs]
  have s1 : pixelStep (F := ℝ) 0 1 0 ⟨[0, -1, -1, -1], [⟨0, 0, 0, 0, 1⟩]⟩ = some ⟨[0, -1, -1, -1], [⟨0, 0, 0, 0, 1⟩]⟩ := by
    simp [pixelStep, leftOf, index?, assign, mergeBlobs]
  have s2 : pixelStep (F := ℝ) 0 2 1 ⟨[0, -1, -1, -1], [⟨0, 0, 0, 0, 1⟩]⟩ = some ⟨[0, -1, 1, -1], [⟨0, 0, 0, 0, 1⟩, ⟨2, 0, 4, 0, 1⟩]⟩ := by
    simp [pixelStep, leftOf, index?, assign, mergeBlobs]
    norm_num
  have s3 : pixelStep (F := ℝ) 0 3 0 ⟨[0, -1, 1, -1], [⟨0, 0, 0, 0, 1⟩, ⟨2, 0, 4, 0, 1⟩]⟩ = some ⟨[0, -1, 1, -1], [⟨0, 0, 0, 0, 1⟩, ⟨2, 0, 4, 0, 1⟩]⟩ := by
    simp [pixelStep, leftOf, index?, assign, mergeBlobs]
  simp only [scanRow, s0, s1, s2, s3, Option.some_bind, zero_add, Nat.reduceAdd]

theorem rowData_gridE_1 : rowData gridE 1 = some [1, 0, 0, 1] := by decide

theorem scanRow_gridE_1 : scanRow (F := ℝ) 1 0 [1, 0, 0, 1] ⟨[0, -1, 1, -1], [⟨0, 0, 0, 0, 1⟩, ⟨2, 0, 4, 0, 1⟩]⟩ =
    some ⟨[0, -1, -1, 2], [⟨0, 1, 0, 1, 2⟩, ⟨2, 0, 4, 0, 1⟩, ⟨3, 1, 9, 1, 1⟩]⟩ := by
  have s0 : pixelStep (F := ℝ) 1 0 1 ⟨[0, -1, 1, -1], [⟨0, 0, 0, 0, 1⟩, ⟨2, 0, 4, 0, 1⟩]⟩ = some ⟨[0, -1, 1, -1], [⟨0, 1, 0, 1, 2⟩, ⟨2, 0, 4, 0, 1⟩]⟩ := by
    simp [pixelStep, leftOf, index?, assign, mergeBlobs]
    norm_num
  have s1 : pixelStep (F := ℝ) 1 1 0 ⟨[0, -1, 1, -1], [⟨0, 1, 0, 1, 2⟩, ⟨2, 0, 4, 0, 1⟩]⟩ = some ⟨[0, -1, 1, -1], [⟨0, 1, 0, 1, 2⟩, ⟨2, 0, 4, 0, 1⟩]⟩ := by
    simp [pixelStep, leftOf, index?, assign, mergeBlobs]
  have s2 : pixelStep (F := ℝ) 1 2 0 ⟨[0, -1, 1, -1], [⟨0, 1, 0, 1, 2⟩, ⟨2, 0, 4, 0, 1⟩]⟩ = some ⟨[0, -1, -1, -1], [⟨0, 1, 0, 1, 2⟩, ⟨2, 0, 4, 0, 1⟩]⟩ := by
    simp [pixelStep, leftOf, index?, assign, mergeBlobs]
  have s3 : pixelStep (F := ℝ) 1 3 1 ⟨[0, -1, -1, -1], [⟨0, 1, 0, 1, 2⟩, ⟨2, 0, 4, 0, 1⟩]⟩ = some ⟨[0, -1, -1, 2], [⟨0, 1, 0, 1, 2⟩, ⟨2, 0, 4, 0, 1⟩, ⟨3, 1, 9, 1, 1⟩]⟩ := by
    simp [pixelStep, leftOf, index?, assign, mergeBlobs]
    norm_num
  simp only [scanRow, s0, s1, s2, s3, Option.some_bind, zero_add, Nat.reduceAdd]

theorem rowData_gridE_2 : rowData gridE 2 = some [1, 1, 1, 1] := by decide

theorem scanRow_gridE_2 : scanRow (F := ℝ) 2 0 [1, 1, 1, 1] ⟨[0, -1, -1, 2], [⟨0, 1, 0, 1, 2⟩, ⟨2, 0, 4, 0, 1⟩, ⟨3, 1, 9, 1, 1⟩]⟩ =
    some ⟨[2, 2, 2, 2], [⟨3, 7, 5, 13, -1⟩, ⟨2, 0, 4, 0, 1⟩, ⟨9, 10, 23, 18, 7⟩]⟩ := by
  have s0 : pixelStep (F := ℝ) 2 0 1 ⟨[0, -1, -1, 2], [⟨0, 1, 0, 1, 2⟩, ⟨2, 0, 4, 0, 1⟩, ⟨3, 1, 9, 1, 1⟩]⟩ = some ⟨[0, -1, -1, 2], [⟨0, 3, 0, 5, 3⟩, ⟨2, 0, 4, 0, 1⟩, ⟨3, 1, 9, 1, 1⟩]⟩ := by
    simp [pixelStep, leftOf, index?, assign, mergeBlobs]
    norm_num
  have s1 : pixelStep (F := ℝ) 2 1 1 ⟨[0, -1, -1, 2], [⟨0, 3, 0, 5, 3⟩, ⟨2, 0, 4, 0, 1⟩, ⟨3, 1, 9, 1, 1⟩]⟩ = some ⟨[0, 0, -1, 2], [⟨1, 5, 1, 9, 4⟩, ⟨2, 0, 4, 0, 1⟩, ⟨3, 1, 9, 1, 1⟩]⟩ := by
    simp [pixelStep, leftOf, index?, assign, mergeBlobs]
    norm_num
  have s2 : pixelStep (F := ℝ) 2 2 1 ⟨[0, 0, -1, 2], [⟨1, 5, 1, 9, 4⟩, ⟨2, 0, 4, 0, 1⟩, ⟨3, 1, 9, 1, 1⟩]⟩ = some ⟨[0, 0, 0, 2], [⟨3, 7, 5, 13, 5⟩, ⟨2, 0, 4, 0, 1⟩, ⟨3, 1, 9, 1, 1⟩]⟩ := by
    simp [pixelStep, leftOf, index?, assign, mergeBlobs]
    norm_num
  have s3 : pixelStep (F := ℝ) 2 3 1 ⟨[0, 0, 0, 2], [⟨3, 7, 5, 13, 5⟩, ⟨2, 0, 4, 0, 1⟩, ⟨3, 1, 9, 1, 1⟩]⟩ = some ⟨[2, 2, 2, 2], [⟨3, 7, 5, 13, -1⟩, ⟨2, 0, 4, 0, 1⟩, ⟨9, 10, 23, 18, 7⟩]⟩ := by
    simp [pixelStep, leftOf, index?, assign, mergeBlobs]
    norm_num
  simp only [scanRow, s0, s1, s2, s3, Option.some_bind, zero_add, Nat.reduceAdd]

theorem rowData_gridU_0 : rowData gridU 0 = some [1, 0, 1] := by decide

theorem scanRow_gridU_0 : scanRow (F := ℝ) 0 0 [1, 0, 1] ⟨[-1, -1, -1], []⟩ =
    some ⟨[0, -1, 1], [⟨0, 0, 0, 0, 1⟩, ⟨2, 0, 4, 0, 1⟩]⟩ := by
  have s0 : pixelStep (F := ℝ) 0 0 1 ⟨[-1, -1, -1], []⟩ = some ⟨[0, -1, -1], [⟨0, 0, 0, 0, 1⟩]⟩ := by
    simp [pixelStep, leftOf, index?, assign, mergeBlobs]
  have s1 : pixelStep (F := ℝ) 0 1 0 ⟨[0, -1, -1], [⟨0, 0, 0, 0, 1⟩]⟩ = some ⟨[0, -1, -1], [⟨0, 0, 0, 0, 1⟩]⟩ := by
    simp [pixelStep, leftOf, index?, assign, mergeBlobs]
  have s2 : pixelStep (F := ℝ) 0 2 1 ⟨[0, -1, -1], [⟨0, 0, 0, 0, 1⟩]⟩ = some ⟨[0, -1, 1], [⟨0, 0, 0, 0, 1⟩, ⟨2, 0, 4, 0, 1⟩]⟩ := by
    simp [pixelStep, leftOf, index?, assign, mergeBlobs]
    norm_num
  simp only [scanRow, s0, s1, s2, Option.some_bind, zero_add, Nat.reduceAdd]

theorem rowData_gridU_1 : rowData gridU 1 = some [1, 1, 1] := by decide

theorem scanRow_gridU_1_upto : scanRow (F := ℝ) 1 0 [1, 1] ⟨[0, -1, 1], [⟨0, 0, 0, 0, 1⟩, ⟨2, 0, 4, 0, 1⟩]⟩ =
    some ⟨[0, 0, 1], [⟨1, 2, 1, 2, 3⟩, ⟨2, 0, 4, 0, 1⟩]⟩ := by
  have s0 : pixelStep (F := ℝ) 1 0 1 ⟨[0, -1, 1], [⟨0, 0, 0, 0, 1⟩, ⟨2, 0, 4, 0, 1⟩]⟩ = some ⟨[0, -1, 1], [⟨0, 1, 0, 1, 2⟩, ⟨2, 0, 4, 0, 1⟩]⟩ := by
    simp [pixelStep, leftOf, index?, assign, mergeBlobs]
    norm_num
  have s1 : pixelStep (F := ℝ) 1 1 1 ⟨[0, -1, 1], [⟨0, 1, 0, 1, 2⟩, ⟨2, 0, 4, 0, 1⟩]⟩ = some ⟨[0, 0, 1], [⟨1, 2, 1, 2, 3⟩, ⟨2, 0, 4, 0, 1⟩]⟩ := by
    simp [pixelStep, leftOf, index?, assign, mergeBlobs]
    norm_num
  simp only [scanRow, s0, s1, Option.some_bind, zero_add, Nat.reduceAdd]

theorem scanRows_gridE : scanRows (F := ℝ) gridE 3 0 ⟨[-1, -1, -1, -1], []⟩ =
    some ⟨[2, 2, 2, 2], [⟨3, 7, 5, 13, -1⟩, ⟨2, 0, 4, 0, 1⟩, ⟨9, 10, 23, 18, 7⟩]⟩ := by
  simp only [scanRows, rowData_gridE_0, scanRow_gridE_0, rowData_gridE_1, scanRow_gridE_1,
    rowData_gridE_2, scanRow_gridE_2, Option.some_bind, zero_add, Int.reduceAdd]

theorem finalize_gridE :
    ∃ b1 : Blob ℝ, b1.Weight = 7 ∧
      finalize Real.sqrt [(⟨3, 7, 5, 13, -1⟩ : Blob ℝ), ⟨2, 0, 4, 0, 1⟩, ⟨9, 10, 23, 18, 7⟩] =
        some [⟨2, 0, 0, 0, 1⟩, b1] := by
  refine ⟨finBlob Real.sqrt ⟨9, 10, 23, 18, 7⟩, rfl, ?_⟩
  rw [finalize_eq]
  · have h1 : ((-1 : ℝ) = -1) := rfl
    have h2 : ¬ ((1 : ℝ) = -1) := by norm_num
    have h3 : ¬ ((7 : ℝ) = -1) := by norm_num
    have h4 : finBlob Real.sqrt (⟨2, 0, 4, 0, 1⟩ : Blob ℝ) = ⟨2, 0, 0, 0, 1⟩ := by
      simp [finBlob]
      norm_num
    simp only [finalizeSpec, List.filter_cons, List.filter_nil, ne_eq, h1, h2, h3,
      not_true_eq_false, not_false_eq_true, decide_True, decide_False, if_true,
      Bool.false_eq_true, if_false, List.map_cons, List.map_nil, h4]
  · intro b hb
    simp only [List.mem_cons, List.mem_singleton, List.not_mem_nil, or_false] at hb
    rcases hb with rfl | rfl | rfl <;> norm_num

/-- The run of `Detect` on `gridE`: the blob of the pixel `(2, 0)` comes first, the blob of
weight 7 second. -/
theorem Detect_gridE :
    ∃ (b1 : Blob ℝ) (pool1 : ArrayCache), b1.Weight = 7 ∧
      Detect Real.sqrt [] gridE [] = some ([⟨2, 0, 0, 0, 1⟩, b1], pool1) := by
  obtain ⟨b1, hb1, hfin⟩ := finalize_gridE
  have h := Detect_blobs Real.sqrt [] gridE [] (by decide)
  have e1 : gridE.Rect.Dy.toNat = 3 := by decide
  have e2 : gridE.Rect.Min.Y = 0 := rfl
  have e3 : List.replicate gridE.Rect.Dx.toNat (-1 : ℤ) = [-1, -1, -1, -1] := by decide
  rw [e1, e2, e3, scanRows_gridE, Option.some_bind, hfin] at h
  cases hD : Detect Real.sqrt [] gridE [] with
  | none => rw [hD] at h; exact absurd h (by simp)
  | some r =>
    rw [hD] at h
    obtain ⟨blobs, pool1⟩ := r
    simp only [Option.map_some', Option.some.injEq] at h
    subst h
    exact ⟨b1, pool1, hb1, rfl⟩

theorem Gray.fg_inside {g : Gray} {a : Pixel} (h : g.fg a) :
    a.1 < g.Rect.Dx.toNat ∧ g.Rect.Min.Y ≤ a.2 ∧ a.2 < g.Rect.Max.Y := by
  by_contra hc
  exact h (by unfold Gray.sample; rw [if_neg hc])

/-- No listing of the blobs of `gridE` that starts with a blob of weight 1 is in first-pixel
order: the pixel `(0, 0)` lies in a component of weight at least 2. -/
theorem not_firstPixelOrder_gridE (b0 b1 : Blob ℝ) (h0 : b0.Weight = 1) :
    ¬ FirstPixelOrder gridE [b0, b1] := by
  rintro ⟨comps, firsts, henum, hmom, hfirst, hpw⟩
  obtain ⟨C0, cs, hC0, hrest, rfl⟩ := List.forall₂_cons_right_iff.1 hmom
  obtain ⟨C1, cs2, _, hnil, rfl⟩ := List.forall₂_cons_right_iff.1 hrest
  have hcs2 : cs2 = [] := by cases hnil; rfl
  subst hcs2
  obtain ⟨a0, fs, ha0, hrest2, rfl⟩ := List.forall₂_cons_right_iff.1 hfirst
  obtain ⟨a1, fs2, ha1, _, rfl⟩ := List.forall₂_cons_right_iff.1 hrest2
  have hlt : rmLt a0 a1 := (List.pairwise_cons.1 hpw).1 a1 (List.mem_cons_self _ _)
  have hIC0 : IsComponent gridE C0 := (henum.2 C0).1 (List.mem_cons_self _ _)
  have hIC1 : IsComponent gridE C1 :=
    (henum.2 C1).1 (List.mem_cons_of_mem _ (List.mem_cons_self _ _))
  -- no foreground pixel precedes `(0, 0)`
  have hmin : ∀ (C : Finset Pixel) (a : Pixel), IsComponent gridE C → a ∈ C →
      ¬ rmLt a (0, 0) := by
    intro C a hC ha hr
    have hin := Gray.fg_inside ((hC.2 a ha a).1 ha).1
    have e : gridE.Rect.Min.Y = 0 := rfl
    rw [e] at hin
    unfold rmLt at hr
    simp only at hr
    omega
  have hf00 : gridE.fg (0, 0) := by unfold Gray.fg; decide
  have hf01 : gridE.fg (0, 1) := by unfold Gray.fg; decide
  obtain ⟨C, hC, h00⟩ := exists_component gridE (by decide) (0, 0) hf00
  have hmem : C ∈ [C0, C1] := (henum.2 C).2 hC
  simp only [List.mem_cons, List.mem_singleton, List.not_mem_nil, or_false] at hmem
  rcases hmem with rfl | rfl
  · -- `(0, 0)` in the first component: its weight is at least 2
    have h01 : (0, 1) ∈ C := by
      rw [hC.2 (0, 0) h00 (0, 1)]
      refine ⟨hf01, Conn.of_link ⟨hf00, hf01, ?_⟩⟩
      unfold adj4; simp
    have hsub : ({(0, 0), (0, 1)} : Finset Pixel) ⊆ C := by
      intro p hp
      simp only [Finset.mem_insert, Finset.mem_singleton] at hp
      rcases hp with rfl | rfl
      · exact h00
      · exact h01
    have hle : ∑ p in ({(0, 0), (0, 1)} : Finset Pixel), (gridE.sample p : ℝ) ≤
        ∑ p in C, (gridE.sample p : ℝ) :=
      Finset.sum_le_sum_of_subset_of_nonneg hsub (fun _ _ _ => Nat.cast_nonneg _)
    have hne : ((0, 0) : Pixel) ≠ (0, 1) := by decide
    have e0 : gridE.sample (0, 0) = 1 := by decide
    have e1 : gridE.sample (0, 1) = 1 := by decide
    rw [Finset.sum_pair hne, e0, e1, ← hC0.1, h0] at hle
    norm_num at hle
  · -- `(0, 0)` in the second component: it is its first pixel, nothing precedes it
    have ha1eq : a1 = (0, 0) := by
      rcases ha1.2 (0, 0) h00 with h | h
      · exact h.symm
      · exact absurd h (hmin C a1 hC ha1.1)
    rw [ha1eq] at hlt
    exact hmin C0 a0 hIC0 ha0.1 hlt

/-- The scan of `gridU` merges at index 2 of row 1 with `upBlob = 1` and `leftBlob = 0`. -/
theorem isMerge_gridU : IsMerge gridU 1 2 1 0 := by
  refine ⟨⟨[0, 0, 1], [⟨1, 2, 1, 2, 3⟩, ⟨2, 0, 4, 0, 1⟩]⟩, [1, 1, 1], 1, by decide, ?_,
    rowData_gridU_1, rfl, by decide, ?_, ?_, by decide, by decide, by decide⟩
  · have e1 : gridU.Rect.Min.Y = 0 := rfl
    have e3 : List.replicate gridU.Rect.Dx.toNat (-1 : ℤ) = [-1, -1, -1] := by decide
    unfold stateBefore
    rw [e1, e3]
    simp only [scanRows, rowData_gridU_0, scanRow_gridU_0, Option.some_bind, zero_add,
      Nat.cast_one, rowData_gridU_1, List.take, scanRow_gridU_1_upto]
  · simp [index?]
  · simp [leftOf, index?]


/-! ## Single pixels and 2x2 grids -/

theorem exists_of_map_fst {α β : Type} {o : Option (α × β)} {a : α}
    (h : o.map Prod.fst = some a) : ∃ b, o = some (a, b) := by
  cases o with
  | none => exact absurd h (by simp)
  | some r =>
    obtain ⟨a1, b1⟩ := r
    simp only [Option.map_some', Option.some.injEq] at h
    subst h
    exact ⟨b1, rfl⟩

theorem moments_singleton (V : Pixel → ℕ) (p : Pixel) (hv : V p ≠ 0) :
    moments V {p} = ⟨(p.1 : ℝ), (p.2 : ℝ), 0, 0, (V p : ℝ)⟩ := by
  have h : (V p : ℝ) ≠ 0 := by exact_mod_cast hv
  simp only [moments, Finset.sum_singleton, mul_div_cancel_left₀ _ h, sub_self,
    Real.sqrt_zero]

/-- In a grid with a single foreground pixel the components are that pixel alone. -/
theorem isComponent_iff_single (g : Gray) (p : Pixel) (hp : g.fg p)
    (hz : ∀ q, q ≠ p → g.sample q = 0) (C : Finset Pixel) : IsComponent g C ↔ C = {p} := by
  have hfg : ∀ q, g.fg q → q = p := by
    intro q hq
    by_contra hne
    exact hq (hz q hne)
  constructor
  · intro hC
    ext q
    rw [Finset.mem_singleton]
    constructor
    · intro hq
      exact hfg q ((hC.2 q hq q).1 hq).1
    · rintro rfl
      obtain ⟨a, ha⟩ := hC.1
      have := hfg a ((hC.2 a ha a).1 ha).1
      subst this
      exact ha
  · rintro rfl
    refine ⟨⟨p, Finset.mem_singleton_self p⟩, ?_⟩
    intro a ha b
    rw [Finset.mem_singleton] at ha
    subst ha
    rw [Finset.mem_singleton]
    constructor
    · rintro rfl
      exact ⟨hp, Conn.refl _ _⟩
    · rintro ⟨hb, _⟩
      exact hfg b hb

theorem sample_eq_zero_of_pix (g : Gray) (h : ∀ v ∈ g.Pix, v = 0) (p : Pixel) :
    g.sample p = 0 := by
  unfold Gray.sample
  split
  · rw [List.getD_eq_getElem?_getD]
    cases hq : g.Pix[(g.PixOffset (g.Rect.Min.X + ↑p.1) p.2).toNat]? with
    | none => rfl
    | some v => exact h v (List.getElem?_mem hq)
  · rfl

theorem finBlob_unit (x y : ℝ) (a : ℝ) (ha : a ≠ 0) :
    finBlob Real.sqrt ⟨x * a, y * a, x * x * a, y * y * a, a⟩ = ⟨x, y, 0, 0, a⟩ := by
  simp only [finBlob]
  rw [mul_div_cancel_right₀ _ ha, mul_div_cancel_right₀ _ ha, mul_div_cancel_right₀ _ ha,
    mul_div_cancel_right₀ _ ha, sub_self, sub_self, Real.sqrt_zero]

/-- The finalizer on two live single-pixel entries. -/
theorem finalize_two_pixels (x0 y0 x1 y1 : ℝ) (a b : ℕ) (ha : a ≠ 0) (hb : b ≠ 0) :
    finalize Real.sqrt [(⟨x0 * a, y0 * a, x0 * x0 * a, y0 * y0 * a, a⟩ : Blob ℝ),
        ⟨x1 * b, y1 * b, x1 * x1 * b, y1 * y1 * b, b⟩] =
      some [⟨x0, y0, 0, 0, a⟩, ⟨x1, y1, 0, 0, b⟩] := by
  have ha0 : (a : ℝ) ≠ 0 := by exact_mod_cast ha
  have hb0 : (b : ℝ) ≠ 0 := by exact_mod_cast hb
  have ha1 : ¬ ((a : ℝ) = -1) := by
    have : (0 : ℝ) ≤ (a : ℝ) := Nat.cast_nonneg a
    intro h; rw [h] at this; norm_num at this
  have hb1 : ¬ ((b : ℝ) = -1) := by
    have : (0 : ℝ) ≤ (b : ℝ) := Nat.cast_nonneg b
    intro h; rw [h] at this; norm_num at this
  rw [finalize_eq]
  · simp only [finalizeSpec, List.filter_cons, List.filter_nil, ne_eq, ha1, hb1,
      not_false_eq_true, decide_True, if_true, List.map_cons, List.map_nil,
      finBlob_unit _ _ _ ha0, finBlob_unit _ _ _ hb0]
  · intro c hc
    simp only [List.mem_cons, List.mem_singleton, List.not_mem_nil, or_false] at hc
    rcases hc with rfl | rfl
    · exact ha0
    · exact hb0

/-- The scan of the grid `0 a / b 0`. -/
theorem scanRows_diag_up (a b : ℕ) (ha : a ≠ 0) (hb : b ≠ 0) :
    scanRows (F := ℝ) (grid2x2 0 a b 0) 2 0 ⟨[-1, -1], []⟩ =
      some ⟨[1, -1], [⟨1 * a, 0 * a, 1 * 1 * a, 0 * 0 * a, a⟩,
        ⟨0 * b, 1 * b, 0 * 0 * b, 1 * 1 * b, b⟩]⟩ := by
  have r0 : rowData (grid2x2 0 a b 0) 0 = some [0, a] := rfl
  have r1 : rowData (grid2x2 0 a b 0) 1 = some [b, 0] := rfl
  have s0 : pixelStep (F := ℝ) 0 0 0 ⟨[-1, -1], []⟩ = some ⟨[-1, -1], []⟩ := by
    simp [pixelStep, assign]
  have s1 : pixelStep (F := ℝ) 0 1 a ⟨[-1, -1], []⟩ =
      some ⟨[-1, 0], [⟨1 * a, 0 * a, 1 * 1 * a, 0 * 0 * a, a⟩]⟩ := by
    simp [pixelStep, leftOf, index?, assign, ha]
  have s2 : pixelStep (F := ℝ) 1 0 b ⟨[-1, 0], [⟨1 * a, 0 * a, 1 * 1 * a, 0 * 0 * a, a⟩]⟩ =
      some ⟨[1, 0], [⟨1 * a, 0 * a, 1 * 1 * a, 0 * 0 * a, a⟩,
        ⟨0 * b, 1 * b, 0 * 0 * b, 1 * 1 * b, b⟩]⟩ := by
    simp [pixelStep, leftOf, index?, assign, hb]
  have s3 : pixelStep (F := ℝ) 1 1 0 ⟨[1, 0], [⟨1 * a, 0 * a, 1 * 1 * a, 0 * 0 * a, a⟩,
        ⟨0 * b, 1 * b, 0 * 0 * b, 1 * 1 * b, b⟩]⟩ =
      some ⟨[1, -1], [⟨1 * a, 0 * a, 1 * 1 * a, 0 * 0 * a, a⟩,
        ⟨0 * b, 1 * b, 0 * 0 * b, 1 * 1 * b, b⟩]⟩ := by
    simp [pixelStep, assign]
  simp only [scanRows, scanRow, r0, r1, s0, s1, s2, s3, Option.some_bind, zero_add]

/-- The scan of the grid `a 0 / 0 b`. -/
theorem scanRows_diag_down (a b : ℕ) (ha : a ≠ 0) (hb : b ≠ 0) :
    scanRows (F := ℝ) (grid2x2 a 0 0 b) 2 0 ⟨[-1, -1], []⟩ =
      some ⟨[-1, 1], [⟨0 * a, 0 * a, 0 * 0 * a, 0 * 0 * a, a⟩,
        ⟨1 * b, 1 * b, 1 * 1 * b, 1 * 1 * b, b⟩]⟩ := by
  have r0 : rowData (grid2x2 a 0 0 b) 0 = some [a, 0] := rfl
  have r1 : rowData (grid2x2 a 0 0 b) 1 = some [0, b] := rfl
  have s0 : pixelStep (F := ℝ) 0 0 a ⟨[-1, -1], []⟩ =
      some ⟨[0, -1], [⟨0 * a, 0 * a, 0 * 0 * a, 0 * 0 * a, a⟩]⟩ := by
    simp [pixelStep, leftOf, index?, assign, ha]
  have s1 : pixelStep (F := ℝ) 0 1 0 ⟨[0, -1], [⟨0 * a, 0 * a, 0 * 0 * a, 0 * 0 * a, a⟩]⟩ =
      some ⟨[0, -1], [⟨0 * a, 0 * a, 0 * 0 * a, 0 * 0 * a, a⟩]⟩ := by
    simp [pixelStep, assign]
  have s2 : pixelStep (F := ℝ) 1 0 0 ⟨[0, -1], [⟨0 * a, 0 * a, 0 * 0 * a, 0 * 0 * a, a⟩]⟩ =
      some ⟨[-1, -1], [⟨0 * a, 0 * a, 0 * 0 * a, 0 * 0 * a, a⟩]⟩ := by
    simp [pixelStep, assign]
  have s3 : pixelStep (F := ℝ) 1 1 b ⟨[-1, -1], [⟨0 * a, 0 * a, 0 * 0 * a, 0 * 0 * a, a⟩]⟩ =
      some ⟨[-1, 1], [⟨0 * a, 0 * a, 0 * 0 * a, 0 * 0 * a, a⟩,
        ⟨1 * b, 1 * b, 1 * 1 * b, 1 * 1 * b, b⟩]⟩ := by
    simp [pixelStep, leftOf, index?, assign, hb]
  simp only [scanRows, scanRow, r0, r1, s0, s1, s2, s3, Option.some_bind, zero_add]


/-! ## One row of two samples, and the full 2x2 grid -/

theorem natCast_ne_neg_one (n : ℕ) : ¬ ((n : ℝ) = -1) := by
  have : (0 : ℝ) ≤ (n : ℝ) := Nat.cast_nonneg n
  intro h; rw [h] at this; norm_num at this

/-- The finalizer on a single live entry. -/
theorem finalize_single (b : Blob ℝ) (h1 : ¬ b.Weight = -1) (h0 : b.Weight ≠ 0) :
    finalize Real.sqrt [b] = some [finBlob Real.sqrt b] := by
  rw [finalize_eq]
  · simp only [finalizeSpec, List.filter_cons, List.filter_nil, ne_eq, h1, not_false_eq_true,
      decide_True, if_true, List.map_cons, List.map_nil]
  · intro c hc
    simp only [List.mem_singleton] at hc
    rw [hc]
    exact h0

/-- The scan of the one-row grid `a b`. -/
theorem scanRows_row2 (a b : ℕ) (ha : a ≠ 0) (hb : b ≠ 0) :
    scanRows (F := ℝ) (grid1x2 a b) 1 0 ⟨[-1, -1], []⟩ =
      some ⟨[0, 0], [⟨(b : ℝ), 0, (b : ℝ), 0, (a : ℝ) + (b : ℝ)⟩]⟩ := by
  have r0 : rowData (grid1x2 a b) 0 = some [a, b] := rfl
  have s0 : pixelStep (F := ℝ) 0 0 a ⟨[-1, -1], []⟩ =
      some ⟨[0, -1], [⟨0, 0, 0, 0, (a : ℝ)⟩]⟩ := by
    simp [pixelStep, leftOf, index?, assign, ha]
  have s1 : pixelStep (F := ℝ) 0 1 b ⟨[0, -1], [⟨0, 0, 0, 0, (a : ℝ)⟩]⟩ =
      some ⟨[0, 0], [⟨(b : ℝ), 0, (b : ℝ), 0, (a : ℝ) + (b : ℝ)⟩]⟩ := by
    simp [pixelStep, leftOf, index?, assign, hb]
  simp only [scanRows, scanRow, r0, s0, s1, Option.some_bind, zero_add]

/-- The scan of the 2x2 grid whose four samples are `c`. -/
theorem scanRows_full2x2 (c : ℕ) (hc : c ≠ 0) :
    scanRows (F := ℝ) (grid2x2 c c c c) 2 0 ⟨[-1, -1], []⟩ =
      some ⟨[0, 0], [⟨2 * (c : ℝ), 2 * (c : ℝ), 2 * (c : ℝ), 2 * (c : ℝ), 4 * (c : ℝ)⟩]⟩ := by
  have r0 : rowData (grid2x2 c c c c) 0 = some [c, c] := rfl
  have r1 : rowData (grid2x2 c c c c) 1 = some [c, c] := rfl
  have s0 : pixelStep (F := ℝ) 0 0 c ⟨[-1, -1], []⟩ =
      some ⟨[0, -1], [⟨0, 0, 0, 0, (c : ℝ)⟩]⟩ := by
    simp [pixelStep, leftOf, index?, assign, hc]
  have s1 : pixelStep (F := ℝ) 0 1 c ⟨[0, -1], [⟨0, 0, 0, 0, (c : ℝ)⟩]⟩ =
      some ⟨[0, 0], [⟨(c : ℝ), 0, (c : ℝ), 0, 2 * (c : ℝ)⟩]⟩ := by
    simp [pixelStep, leftOf, index?, assign, hc]
    ring
  have s2 : pixelStep (F := ℝ) 1 0 c ⟨[0, 0], [⟨(c : ℝ), 0, (c : ℝ), 0, 2 * (c : ℝ)⟩]⟩ =
      some ⟨[0, 0], [⟨(c : ℝ), (c : ℝ), (c : ℝ), (c : ℝ), 3 * (c : ℝ)⟩]⟩ := by
    simp [pixelStep, leftOf, index?, assign, hc]
    ring
  have s3 : pixelStep (F := ℝ) 1 1 c
      ⟨[0, 0], [⟨(c : ℝ), (c : ℝ), (c : ℝ), (c : ℝ), 3 * (c : ℝ)⟩]⟩ =
      some ⟨[0, 0], [⟨2 * (c : ℝ), 2 * (c : ℝ), 2 * (c : ℝ), 2 * (c : ℝ), 4 * (c : ℝ)⟩]⟩ := by
    simp [pixelStep, leftOf, index?, assign, hc]
    constructor <;> ring
  simp only [scanRows, scanRow, r0, r1, s0, s1, s2, s3, Option.some_bind, zero_add]

theorem sqrt_quarter : Real.sqrt (1 / 4) = 1 / 2 := by
  have h : (1 / 4 : ℝ) = (1 / 2) ^ 2 := by norm_num
  rw [h, Real.sqrt_sq (by norm_num)]

/-- The run of `Detect` on the one-row grid `a b`. -/
theorem Detect_row2 (a b : ℕ) (ha : a ≠ 0) (hb : b ≠ 0) (pool : ArrayCache)
    (out : List (Blob ℝ)) :
    ∃ pool1, Detect Real.sqrt pool (grid1x2 a b) out =
      some ([⟨(b : ℝ) / ((a : ℝ) + (b : ℝ)), 0,
        Real.sqrt ((b : ℝ) / ((a : ℝ) + (b : ℝ)) - ((b : ℝ) / ((a : ℝ) + (b : ℝ))) ^ 2), 0,
        (a : ℝ) + (b : ℝ)⟩], pool1) := by
  have hpos : (0 : ℝ) < (a : ℝ) + (b : ℝ) := by
    have h1 : (0 : ℝ) < (a : ℝ) := by exact_mod_cast Nat.pos_of_ne_zero ha
    have h2 : (0 : ℝ) ≤ (b : ℝ) := Nat.cast_nonneg b
    linarith
  apply exists_of_map_fst
  rw [Detect_blobs Real.sqrt pool (grid1x2 a b) out (show (0 : ℤ) ≤ 2 - 0 by decide)]
  show (scanRows (F := ℝ) (grid1x2 a b) 1 0 ⟨[-1, -1], []⟩).bind _ = _
  rw [scanRows_row2 a b ha hb, Option.some_bind]
  rw [finalize_single _ (by intro h; simp only at h; rw [h] at hpos; norm_num at hpos)
    (ne_of_gt hpos)]
  simp only [finBlob, zero_div, mul_zero, sub_self, Real.sqrt_zero, sq]

/-- The run of `Detect` on the 2x2 grid whose four samples are `c`. -/
theorem Detect_full2x2 (c : ℕ) (hc : c ≠ 0) (pool : ArrayCache) (out : List (Blob ℝ)) :
    ∃ pool1, Detect Real.sqrt pool (grid2x2 c c c c) out =
      some ([⟨1 / 2, 1 / 2, 1 / 2, 1 / 2, 4 * (c : ℝ)⟩], pool1) := by
  have hc0 : (0 : ℝ) < (c : ℝ) := by exact_mod_cast Nat.pos_of_ne_zero hc
  have hpos : (0 : ℝ) < 4 * (c : ℝ) := by linarith
  have e1 : 2 * (c : ℝ) / (4 * (c : ℝ)) = 1 / 2 := by
    field_simp
    ring
  apply exists_of_map_fst
  rw [Detect_blobs Real.sqrt pool (grid2x2 c c c c) out (show (0 : ℤ) ≤ 2 - 0 by decide)]
  show (scanRows (F := ℝ) (grid2x2 c c c c) 2 0 ⟨[-1, -1], []⟩).bind _ = _
  rw [scanRows_full2x2 c hc, Option.some_bind]
  rw [finalize_single _ (by intro h; simp only at h; rw [h] at hpos; norm_num at hpos)
    (ne_of_gt hpos)]
  have e2 : (1 / 2 : ℝ) - 1 / 2 * (1 / 2) = 1 / 4 := by norm_num
  simp only [finBlob, e1, e2, sqrt_quarter]


/-! ## The buffer pool -/

theorem getIntArray_neg (pool : ArrayCache) (size : ℤ) (h : size < 0) :
    getIntArray pool size = none := by
  have h0 : ¬ 0 ≤ size := by omega
  unfold getIntArray
  cases pool with
  | nil => simp [makeInts, h0]
  | cons b rest =>
    simp only
    by_cases hc : (b.cap : ℤ) ≥ size
    · rw [if_pos hc, if_neg h0]
    · rw [if_neg hc]; simp [makeInts, h0]

/-- The blobs returned by `Detect` depend neither on the channel content nor on `out`. -/
theorem Detect_map_fst_indep {F : Type} [Field F] [DecidableEq F] (sqrt : F → F)
    (p1 p2 : ArrayCache) (g : Gray) (o1 o2 : List (Blob F)) :
    (Detect sqrt p1 g o1).map Prod.fst = (Detect sqrt p2 g o2).map Prod.fst := by
  by_cases h : 0 ≤ g.Rect.Dx
  · rw [Detect_blobs sqrt p1 g o1 h, Detect_blobs sqrt p2 g o2 h]
  · have e : ∀ (p : ArrayCache) (o : List (Blob F)), Detect sqrt p g o = none := by
      intro p o
      unfold Detect convertToGray Gray.Bounds
      simp only [getIntArray_neg p g.Rect.Dx (by omega), Option.none_bind]
    rw [e p1 o1, e p2 o2]

theorem getIntArray_poolSmallBig :
    getIntArray poolSmallBig 2 = some (⟨[0, 0], []⟩, [⟨[7, 7, 7], []⟩]) := by decide

/-! ## Cells and weights under the invariant -/

/-- The weight accumulated for a nonempty set of foreground pixels is at least 1. -/
theorem sum_weight_ge_one (V : Pixel → ℕ) (C : Finset Pixel) (hne : C.Nonempty)
    (hV : ∀ p ∈ C, V p ≠ 0) : (1 : ℝ) ≤ ∑ p in C, (V p : ℝ) := by
  obtain ⟨a, ha⟩ := hne
  have h1 : (1 : ℝ) ≤ (V a : ℝ) := by exact_mod_cast Nat.pos_of_ne_zero (hV a ha)
  have h2 : (V a : ℝ) ≤ ∑ p in C, (V p : ℝ) :=
    Finset.single_le_sum (f := fun p => (V p : ℝ)) (fun _ _ => Nat.cast_nonneg _) ha
  linarith

/-- Under the invariant every entry of the region list is a tombstone or has weight at least
1, according to whether its class is empty. -/
theorem Inv.weight_cases {V : Pixel → ℕ} {w : ℕ} {y0 yc : ℤ} {xc : ℕ} {st : ScanState ℝ}
    {cls : ℕ → Finset Pixel} {seed : ℕ → Pixel} (h : Inv V w y0 yc xc st cls seed) (i : ℕ)
    (b : Blob ℝ) (hb : st.out[i]? = some b) :
    (cls i = ∅ ∧ b.Weight = -1) ∨ ((cls i).Nonempty ∧ 1 ≤ b.Weight) := by
  by_cases hne : (cls i).Nonempty
  · right
    refine ⟨hne, ?_⟩
    rw [h.sums i b hb hne]
    exact sum_weight_ge_one V (cls i) hne (fun p hp => (h.classes.sub i p hp).2.2.1)
  · left
    have he := Finset.not_nonempty_iff_eq_empty.1 hne
    exact ⟨he, h.dead i b hb he⟩

/-- The cells of the row state under the invariant: `-1` or the index of a live entry. -/
theorem Inv.cell_cases {V : Pixel → ℕ} {w : ℕ} {y0 yc : ℤ} {xc : ℕ} {st : ScanState ℝ}
    {cls : ℕ → Finset Pixel} {seed : ℕ → Pixel} (h : Inv V w y0 yc xc st cls seed) (c : ℕ)
    (z : ℤ) (hz : st.indicies[c]? = some z) :
    z = -1 ∨ ∃ i : ℕ, z = (i : ℤ) ∧ (cls i).Nonempty := by
  have hc : c < w := by rw [← h.len]; exact lt_length_of_getElem? hz
  by_cases hs : Scanned V w y0 yc xc (frontier yc xc c)
  · obtain ⟨i, hi, hm⟩ := h.front_in c hc hs
    rw [hz] at hi
    exact Or.inr ⟨i, Option.some.inj hi, ⟨_, hm⟩⟩
  · have := h.front_out c hc hs
    rw [hz] at this
    exact Or.inl (Option.some.inj this)

/-- One more sample of the row: `stateBefore` at index `x + 1` is the step from the state at
index `x`. -/
theorem stateBefore_succ {F : Type} [Field F] [DecidableEq F] (g : Gray) (j x : ℕ)
    (row : List ℕ) (v : ℕ) (hrow : rowData g (g.Rect.Min.Y + j) = some row)
    (hv : row[x]? = some v) :
    stateBefore (F := F) g j (x + 1) =
      (stateBefore g j x).bind (pixelStep (g.Rect.Min.Y + j) x v) := by
  have hx : x < row.length := lt_length_of_getElem? hv
  have htake : row.take (x + 1) = row.take x ++ [v] := by
    rw [List.take_succ, hv]; rfl
  have hlen : (row.take x).length = x := by
    rw [List.length_take]; omega
  unfold stateBefore
  cases scanRows (F := F) g j g.Rect.Min.Y ⟨List.replicate g.Rect.Dx.toNat (-1), []⟩ with
  | none => rfl
  | some st =>
    simp only [Option.some_bind, hrow]
    rw [htake, scanRow_append, hlen, zero_add]
    cases scanRow (g.Rect.Min.Y + ↑j) 0 (List.take x row) st with
    | none => rfl
    | some st1 =>
      simp only [Option.some_bind, scanRow]
      cases pixelStep (g.Rect.Min.Y + ↑j) x v st1 <;> rfl

/-- What a step does to the tombstones: a tombstone stays one, and a live entry becomes a
tombstone only as the `leftBlob` of a merge. -/
theorem Inv.step_tombstone {V : Pixel → ℕ} {w : ℕ} {y0 yc : ℤ} {xc : ℕ} {st : ScanState ℝ}
    {cls : ℕ → Finset Pixel} {seed : ℕ → Pixel} (h : Inv V w y0 yc xc st cls seed)
    (hx : xc < w) (st1 : ScanState ℝ) (hstep : pixelStep yc xc (V (xc, yc)) st = some st1)
    (i : ℕ) (b b1 : Blob ℝ) (hb : st.out[i]? = some b) (hb1 : st1.out[i]? = some b1) :
    (b.Weight = -1 → b1.Weight = -1) ∧
      (b.Weight ≠ -1 → b1.Weight = -1 →
        V (xc, yc) ≠ 0 ∧ ∃ up : ℤ, st.indicies[xc]? = some up ∧
          leftOf st.indicies xc = some (i : ℤ) ∧ up ≠ -1 ∧ up ≠ (i : ℤ)) := by
  have hxl : xc < st.indicies.length := by rw [h.len]; exact hx
  have hil : i < st.out.length := lt_length_of_getElem? hb
  -- an entry that the step leaves alone
  have same : st1.out[i]? = st.out[i]? →
      (b.Weight = -1 → b1.Weight = -1) ∧
        (b.Weight ≠ -1 → b1.Weight = -1 →
          V (xc, yc) ≠ 0 ∧ ∃ up : ℤ, st.indicies[xc]? = some up ∧
            leftOf st.indicies xc = some (i : ℤ) ∧ up ≠ -1 ∧ up ≠ (i : ℤ)) := by
    intro e
    rw [hb1, hb] at e
    have e2 := Option.some.inj e
    subst e2
    exact ⟨fun h1 => h1, fun h1 h2 => absurd h2 h1⟩
  -- an entry that is live before and after the step
  have live : 0 < b.Weight → 0 < b1.Weight →
      (b.Weight = -1 → b1.Weight = -1) ∧
        (b.Weight ≠ -1 → b1.Weight = -1 →
          V (xc, yc) ≠ 0 ∧ ∃ up : ℤ, st.indicies[xc]? = some up ∧
            leftOf st.indicies xc = some (i : ℤ) ∧ up ≠ -1 ∧ up ≠ (i : ℤ)) := by
    intro p0 p1
    constructor
    · intro e; rw [e] at p0; norm_num at p0
    · intro _ e; rw [e] at p1; norm_num at p1
  -- the step adds the pixel to the entry `t`
  have add : ∀ (t : ℕ) (up left : ℤ), st.indicies[xc]? = some up →
      leftOf st.indicies xc = some left → V (xc, yc) ≠ 0 →
      ((up = t ∧ left = -1) ∨ (up = -1 ∧ left = t) ∨ (up = t ∧ left = t)) →
      (cls t).Nonempty →
      (b.Weight = -1 → b1.Weight = -1) ∧
        (b.Weight ≠ -1 → b1.Weight = -1 →
          V (xc, yc) ≠ 0 ∧ ∃ up : ℤ, st.indicies[xc]? = some up ∧
            leftOf st.indicies xc = some (i : ℤ) ∧ up ≠ -1 ∧ up ≠ (i : ℤ)) := by
    intro t up left hup hleft hv hsel hne
    rw [pixelStep_add yc xc _ st up left t _ hv hxl hup hleft hsel (h.get hne)] at hstep
    have e := Option.some.inj hstep
    subst e
    simp only at hb1
    have hvpos : (0 : ℝ) < (V (xc, yc) : ℝ) := by exact_mod_cast Nat.pos_of_ne_zero hv
    by_cases hit : i = t
    · subst hit
      rw [List.getElem?_set_self hil] at hb1
      have e1 := Option.some.inj hb1
      have e0 : b = rawSums V (cls i) := by
        have := h.get hne
        rw [hb] at this
        exact Option.some.inj this
      have hp := h.rawWeight_pos hne
      apply live
      · rw [e0]; exact hp
      · rw [← e1]; simp only; linarith
    · apply same
      rw [List.getElem?_set_ne (Ne.symm hit)]
  by_cases hv : V (xc, yc) = 0
  · apply same
    have : pixelStep yc xc (V (xc, yc)) st = some ⟨st.indicies.set xc (-1), st.out⟩ := by
      simp [pixelStep, hv, assign, hxl]
    rw [this] at hstep
    rw [← Option.some.inj hstep]
  · have hvpos : (0 : ℝ) < (V (xc, yc) : ℝ) := by exact_mod_cast Nat.pos_of_ne_zero hv
    rcases h.up_cases hx with ⟨hup, _⟩ | ⟨iu, hup, _, hUm⟩
    · rcases h.left_cases hx with ⟨hleft, _⟩ | ⟨il, x, _, hleft, _, hLm⟩
      · apply same
        rw [pixelStep_new yc xc _ st hv hxl hup hleft] at hstep
        rw [← Option.some.inj hstep]
        simp only
        rw [List.getElem?_append_left hil]
      · exact add il _ _ hup hleft hv (Or.inr (Or.inl ⟨rfl, rfl⟩)) ⟨_, hLm⟩
    · rcases h.left_cases hx with ⟨hleft, _⟩ | ⟨il, x, _, hleft, _, hLm⟩
      · exact add iu _ _ hup hleft hv (Or.inl ⟨rfl, rfl⟩) ⟨_, hUm⟩
      · by_cases hne : iu = il
        · subst hne
          exact add iu _ _ hup hleft hv (Or.inr (Or.inr ⟨rfl, rfl⟩)) ⟨_, hUm⟩
        · have hneu : (cls iu).Nonempty := ⟨_, hUm⟩
          have hnel : (cls il).Nonempty := ⟨_, hLm⟩
          have hiul := h.lt_length hneu
          have hill := h.lt_length hnel
          have hpu := h.rawWeight_pos hneu
          have hpl := h.rawWeight_pos hnel
          rw [pixelStep_merge yc xc _ st iu il _ _ hv hxl hup hleft hne (h.get hneu)
            (h.get hnel)] at hstep
          have e := Option.some.inj hstep
          subst e
          simp only at hb1
          by_cases hiu : i = iu
          · subst hiu
            rw [List.getElem?_set_self (by simpa using hil)] at hb1
            have e1 := Option.some.inj hb1
            have e0 : b = rawSums V (cls i) := by
              have := h.get hneu
              rw [hb] at this
              exact Option.some.inj this
            apply live
            · rw [e0]; exact hpu
            · rw [← e1]; simp only; linarith
          · by_cases hii : i = il
            · subst hii
              have e0 : b = rawSums V (cls i) := by
                have := h.get hnel
                rw [hb] at this
                exact Option.some.inj this
              constructor
              · intro e; rw [e0] at e; rw [e] at hpl; norm_num at hpl
              · intro _ _
                refine ⟨hv, iu, hup, hleft, by omega, ?_⟩
                exact_mod_cast hne
            · apply same
              rw [List.getElem?_set_ne (Ne.symm hiu), List.getElem?_set_ne (Ne.symm hii),
                List.getElem?_set_ne (Ne.symm hiu)]

/-! ## The finalizer as a filter followed by a map -/

theorem sequenceOpt_map_some {α β : Type} (f : α → β) (f? : α → Option β) :
    ∀ l : List α, (∀ a ∈ l, f? a = some (f a)) → sequenceOpt (l.map f?) = some (l.map f) := by
  intro l
  induction l with
  | nil => intro _; rfl
  | cons a l ih =>
    intro h
    have h1 := h a (List.mem_cons_self a l)
    have h2 := ih (fun b hb => h b (List.mem_cons_of_mem a hb))
    simp only [List.map_cons, h1, sequenceOpt, h2, Option.map_some']

theorem sequenceOpt_map_none {α β : Type} (f? : α → Option β) :
    ∀ l : List α, (∃ a ∈ l, f? a = none) → sequenceOpt (l.map f?) = none := by
  intro l
  induction l with
  | nil => rintro ⟨a, ha, _⟩; exact absurd ha (List.not_mem_nil a)
  | cons a l ih =>
    rintro ⟨c, hc, hnone⟩
    cases ha : f? a with
    | none => simp only [List.map_cons, ha, sequenceOpt]
    | some r =>
      have hcl : c ∈ l := by
        rcases List.mem_cons.1 hc with e | e
        · rw [e, ha] at hnone; exact absurd hnone (by simp)
        · exact e
      simp only [List.map_cons, ha, sequenceOpt, ih ⟨c, hcl, hnone⟩, Option.map_none']

section FinalizeRefinement

variable {F : Type} [Field F] [DecidableEq F]

theorem finalizeLoop_append (sqrt : F → F) :
    ∀ (l1 l2 : List ℕ) (st : List (Blob F) × ℕ),
      finalizeLoop sqrt (l1 ++ l2) st =
        (finalizeLoop sqrt l1 st).bind (finalizeLoop sqrt l2) := by
  intro l1
  induction l1 with
  | nil => intro l2 st; rfl
  | cons i is ih =>
    intro l2 st
    show (finalizeStep sqrt st i).bind (finalizeLoop sqrt (is ++ l2)) =
      ((finalizeStep sqrt st i).bind (finalizeLoop sqrt is)).bind (finalizeLoop sqrt l2)
    cases finalizeStep sqrt st i with
    | none => rfl
    | some st1 =>
      simp only [Option.some_bind]
      exact ih l2 st1

/-- The finalize loop over the indices from `i` to `i + n`, none of which holds a zero
weight. -/
theorem finalizeLoop_upto (sqrt : F → F) (out : List (Blob F)) :
    ∀ (n i : ℕ) (st : List (Blob F) × ℕ), i + n ≤ out.length →
      (∀ k, i ≤ k → k < i + n → ∀ b, out[k]? = some b → b.Weight ≠ 0) →
      FinInv sqrt out i st →
      ∃ st1, finalizeLoop sqrt (List.range' i n) st = some st1 ∧
        FinInv sqrt out (i + n) st1 := by
  intro n
  induction n with
  | zero =>
    intro i st _ _ h
    exact ⟨st, rfl, h⟩
  | succ n ih =>
    intro i st hn h0 h
    obtain ⟨st1, hstep, h1⟩ := finalizeStep_inv sqrt out i st (by omega)
      (h0 i le_rfl (by omega)) h
    obtain ⟨st2, hrest, h2⟩ := ih (i + 1) st1 (by omega)
      (fun k hk1 hk2 => h0 k (by omega) (by omega)) h1
    have e : i + 1 + n = i + (n + 1) := by omega
    rw [e] at h2
    refine ⟨st2, ?_, h2⟩
    simp only [List.range'_succ, finalizeLoop, hstep, Option.some_bind]
    exact hrest

/-- The finalizer fails when some entry has weight zero. -/
theorem finalize_zero_weight (sqrt : F → F) (out : List (Blob F))
    (h : ∃ b ∈ out, b.Weight = 0) : finalize sqrt out = none := by
  classical
  have hex : ∃ k : ℕ, ∃ b : Blob F, out[k]? = some b ∧ b.Weight = 0 := by
    obtain ⟨b, hb, hz⟩ := h
    obtain ⟨k, hk⟩ := List.mem_iff_getElem?.1 hb
    exact ⟨k, b, hk, hz⟩
  obtain ⟨b, hkb, hz⟩ := Nat.find_spec hex
  have hmin : ∀ k, k < Nat.find hex → ∀ c, out[k]? = some c → c.Weight ≠ 0 :=
    fun k hk c hc hzero => Nat.find_min hex hk ⟨c, hc, hzero⟩
  generalize Nat.find hex = i0 at hkb hmin
  have hi0 : i0 < out.length := lt_length_of_getElem? hkb
  have hinit : FinInv sqrt out 0 (out, 0) := by
    refine ⟨rfl, by simp [finalizeSpec], ?_, fun k _ => rfl⟩
    intro k hk
    simp at hk
  obtain ⟨st1, hloop, _, _, _, hhi⟩ := finalizeLoop_upto sqrt out i0 0 (out, 0) (by omega)
    (fun k _ hk => hmin k (by omega)) hinit
  have hsplit : List.range out.length =
      List.range' 0 i0 ++ (i0 :: List.range' (i0 + 1) (out.length - i0 - 1)) := by
    rw [List.range_eq_range']
    have e : out.length = (out.length - i0 - 1 + 1) + i0 := by omega
    conv_lhs => rw [e, ← List.range'_append_1 0 i0 (out.length - i0 - 1 + 1)]
    rw [zero_add, List.range'_succ]
  have hne : ¬ ((0 : F) = -1) := by
    intro e
    have : (1 : F) = 0 := by
      have := congrArg (fun t => t + 1) e
      simpa using this.symm
    exact one_ne_zero this
  have hstep : finalizeStep sqrt st1 i0 = none := by
    have hb1 : st1.1[i0]? = some b := by
      rw [hhi i0 (by omega)]; exact hkb
    simp only [finalizeStep, index?_natCast, hb1, Option.bind_eq_bind, Option.some_bind, hz,
      hne, if_false, if_true]
  unfold finalize
  rw [hsplit, finalizeLoop_append, hloop]
  simp only [Option.some_bind, finalizeLoop, hstep, Option.none_bind]

end FinalizeRefinement

/-! ## Sums over the grid, and grids with shifted bounds -/

theorem mem_boundsBox (g : Gray) (p : Pixel) :
    p ∈ boundsBox g ↔ p.1 < g.Rect.Dx.toNat ∧ g.Rect.Min.Y ≤ p.2 ∧ p.2 < g.Rect.Max.Y := by
  obtain ⟨x, y⟩ := p
  unfold boundsBox
  simp only [Finset.mem_image, Finset.mem_product, Finset.mem_range, Prod.mk.injEq, Prod.exists]
  constructor
  · rintro ⟨j, c, ⟨hj, hc⟩, rfl, rfl⟩
    unfold Rectangle.Dy at hj
    exact ⟨hc, by omega, by omega⟩
  · rintro ⟨h1, h2, h3⟩
    refine ⟨(y - g.Rect.Min.Y).toNat, x, ⟨?_, h1⟩, rfl, ?_⟩
    · unfold Rectangle.Dy; omega
    · omega

theorem sum_boundsBox (g : Gray) :
    ∑ p in boundsBox g, (g.sample p : ℝ) = (gridSum g : ℝ) := by
  unfold boundsBox gridSum
  rw [Finset.sum_image]
  · rw [Finset.sum_product]
    push_cast
    rfl
  · rintro ⟨j1, c1⟩ _ ⟨j2, c2⟩ _ h
    simp only [Prod.mk.injEq] at h ⊢
    omega

/-- The weights of the final classes add up to the sum of the samples. -/
theorem Classes.sum_weights {g : Gray} {cls : ℕ → Finset Pixel} {n : ℕ}
    (hc : Classes g.fg cls) (hoob : ∀ i, n ≤ i → cls i = ∅) :
    ((liveIdx n cls).map (fun i => ∑ p in cls i, (g.sample p : ℝ))).sum = (gridSum g : ℝ) := by
  have hnodup : (liveIdx n cls).Nodup := (List.nodup_range n).filter _
  rw [← List.sum_toFinset _ hnodup]
  have hsub : (liveIdx n cls).toFinset ⊆ Finset.range n := by
    intro i hi
    rw [List.mem_toFinset, mem_liveIdx] at hi
    exact Finset.mem_range.2 hi.1
  rw [Finset.sum_subset hsub]
  · have hdisj : Set.PairwiseDisjoint (↑(Finset.range n) : Set ℕ) cls := by
      intro i _ j _ hij
      rw [Function.onFun, Finset.disjoint_left]
      intro a ha hb
      exact hij (hc.sep i j a a ha hb (Conn.refl _ a))
    rw [← Finset.sum_biUnion hdisj, ← sum_boundsBox]
    have hU : (Finset.range n).biUnion cls = (boundsBox g).filter (fun p => g.sample p ≠ 0) := by
      ext p
      rw [Finset.mem_biUnion, Finset.mem_filter, mem_boundsBox]
      constructor
      · rintro ⟨i, _, hp⟩
        have hf := hc.sub i p hp
        exact ⟨Gray.fg_inside hf, hf⟩
      · rintro ⟨_, hf⟩
        obtain ⟨i, hi⟩ := hc.cover p hf
        refine ⟨i, Finset.mem_range.2 ?_, hi⟩
        by_contra hlt
        rw [hoob i (by omega)] at hi
        exact absurd hi (Finset.not_mem_empty p)
    rw [hU, Finset.sum_filter]
    apply Finset.sum_congr rfl
    intro p _
    by_cases hz : g.sample p = 0
    · simp [hz]
    · simp [hz]
  · intro i _ hi
    rw [List.mem_toFinset, mem_liveIdx] at hi
    by_cases hlt : i < n
    · have : cls i = ∅ := by
        by_contra hne
        exact hi ⟨hlt, Finset.nonempty_iff_ne_empty.2 hne⟩
      rw [this, Finset.sum_empty]
    · rw [hoob i (by omega), Finset.sum_empty]

theorem Gray.sample_eq_GrayAt (g : Gray) (p : Pixel) :
    g.sample p = g.GrayAt (g.Rect.Min.X + p.1) p.2 := by
  unfold Gray.sample Gray.GrayAt
  have e : (p.1 < g.Rect.Dx.toNat ∧ g.Rect.Min.Y ≤ p.2 ∧ p.2 < g.Rect.Max.Y) ↔
      (g.Rect.Min.X ≤ g.Rect.Min.X + (p.1 : ℤ) ∧ g.Rect.Min.X + (p.1 : ℤ) < g.Rect.Max.X ∧
        g.Rect.Min.Y ≤ p.2 ∧ p.2 < g.Rect.Max.Y) := by
    unfold Rectangle.Dx
    constructor
    · rintro ⟨h1, h2, h3⟩
      exact ⟨by omega, by omega, h2, h3⟩
    · rintro ⟨_, h1, h2, h3⟩
      exact ⟨by omega, h2, h3⟩
  by_cases h : p.1 < g.Rect.Dx.toNat ∧ g.Rect.Min.Y ≤ p.2 ∧ p.2 < g.Rect.Max.Y
  · rw [if_pos h, if_pos (e.1 h)]
  · rw [if_neg h, if_neg (fun h2 => h (e.2 h2))]

/-- On a well-formed grid whose only foreground pixel is `p`, `Detect` returns the blob of
`p` alone (the deviations are those of exact arithmetic). -/
theorem Detect_one_pixel (g : Gray) (hw : g.WellFormed) (p : Pixel) (hp : g.sample p ≠ 0)
    (hz : ∀ q, q ≠ p → g.sample q = 0) (pool : ArrayCache) (out : List (Blob ℝ)) :
    ∃ pool1, Detect Real.sqrt pool g out =
      some ([⟨(p.1 : ℝ), (p.2 : ℝ), 0, 0, (g.sample p : ℝ)⟩], pool1) := by
  obtain ⟨comps, _, pool1, hD, henum, _, _⟩ := Detect_components g hw pool out
  have hcomps : comps = [{p}] :=
    list_eq_singleton henum.1 (fun C => (henum.2 C).trans (isComponent_iff_single g p hp hz C))
  refine ⟨pool1, ?_⟩
  rw [hD, hcomps, List.map_singleton, moments_singleton g.sample p hp]

/-- The grid `gridOff` has no nonzero sample away from the image position `(3, 6)`. -/
theorem gridOff_GrayAt (x y : ℤ) (h : (x, y) ≠ (3, 6)) : gridOff.GrayAt x y = 0 := by
  unfold Gray.GrayAt
  split
  · next hb =>
    have h1 : (3 : ℤ) ≤ x := hb.1
    have h2 : x < 5 := hb.2.1
    have h3 : (5 : ℤ) ≤ y := hb.2.2.1
    have h4 : y < 7 := hb.2.2.2
    have hx : x = 3 ∨ x = 4 := by omega
    have hy : y = 5 ∨ y = 6 := by omega
    rcases hx with rfl | rfl <;> rcases hy with rfl | rfl
    · rfl
    · exact absurd rfl h
    · rfl
    · rfl
  · rfl

/-! ## The pixels at which the region entries are created -/

theorem rowData_length (g : Gray) (hw : g.WellFormed) (j : ℕ) (hj : j < g.Rect.Dy.toNat)
    (row : List ℕ) (h : rowData g (g.Rect.Min.Y + j) = some row) :
    row.length = g.Rect.Dx.toNat := by
  rw [rowData_eq g hw j hj] at h
  simp only [Option.some.injEq] at h
  rw [← h]
  simp

theorem rowData_getElem? (g : Gray) (hw : g.WellFormed) (j x : ℕ) (hj : j < g.Rect.Dy.toNat)
    (hx : x < g.Rect.Dx.toNat) :
    ∃ row, rowData g (g.Rect.Min.Y + j) = some row ∧
      row[x]? = some (g.sample (x, g.Rect.Min.Y + j)) := by
  refine ⟨_, rowData_eq g hw j hj, ?_⟩
  rw [List.getElem?_map, List.getElem?_range' _ _ hx]
  simp

/-- Before the first sample of a row the scan is in the state the rows above left. -/
theorem stateBefore_zero (g : Gray) (hw : g.WellFormed) (j : ℕ) (hj : j < g.Rect.Dy.toNat) :
    stateBefore (F := ℝ) g j 0 =
      scanRows g j g.Rect.Min.Y ⟨List.replicate g.Rect.Dx.toNat (-1), []⟩ := by
  unfold stateBefore
  rw [rowData_eq g hw j hj]
  cases scanRows (F := ℝ) g j g.Rect.Min.Y ⟨List.replicate g.Rect.Dx.toNat (-1), []⟩ with
  | none => rfl
  | some st => simp [scanRow]

/-- After the last sample of a row the scan is in the state that `j + 1` rows leave. -/
theorem stateBefore_row_end (g : Gray) (hw : g.WellFormed) (j : ℕ) (hj : j < g.Rect.Dy.toNat) :
    stateBefore (F := ℝ) g j g.Rect.Dx.toNat =
      scanRows g (j + 1) g.Rect.Min.Y ⟨List.replicate g.Rect.Dx.toNat (-1), []⟩ := by
  rw [scanRows_add (F := ℝ) g j 1]
  unfold stateBefore
  cases scanRows (F := ℝ) g j g.Rect.Min.Y ⟨List.replicate g.Rect.Dx.toNat (-1), []⟩ with
  | none => rfl
  | some st =>
    simp only [Option.some_bind, scanRows]
    cases hrow : rowData g (g.Rect.Min.Y + j) with
    | none => rfl
    | some row =>
      have hlen := rowData_length g hw j hj row hrow
      simp only [Option.some_bind]
      rw [← hlen, List.take_length]
      cases scanRow (g.Rect.Min.Y + ↑j) 0 row st <;> rfl

/-- On a well-formed grid every `stateBefore` exists and satisfies the scan invariant, with
seeds that are the pixels at which the entries of the region list were created. -/
theorem stateBefore_created (g : Gray) (hw : g.WellFormed) :
    ∀ (j x : ℕ), j < g.Rect.Dy.toNat → x ≤ g.Rect.Dx.toNat →
      ∃ st cls seed, stateBefore (F := ℝ) g j x = some st ∧
        Inv g.sample g.Rect.Dx.toNat g.Rect.Min.Y (g.Rect.Min.Y + j) x st cls seed ∧
        ∀ i, i < st.out.length → IsCreatedAt g i (seed i) := by
  have hrow : ∀ (j : ℕ), j < g.Rect.Dy.toNat →
      (∃ st cls seed, stateBefore (F := ℝ) g j 0 = some st ∧
        Inv g.sample g.Rect.Dx.toNat g.Rect.Min.Y (g.Rect.Min.Y + j) 0 st cls seed ∧
        ∀ i, i < st.out.length → IsCreatedAt g i (seed i)) →
      ∀ x, x ≤ g.Rect.Dx.toNat →
        ∃ st cls seed, stateBefore (F := ℝ) g j x = some st ∧
          Inv g.sample g.Rect.Dx.toNat g.Rect.Min.Y (g.Rect.Min.Y + j) x st cls seed ∧
          ∀ i, i < st.out.length → IsCreatedAt g i (seed i) := by
    intro j hj h0 x
    induction x with
    | zero => intro _; exact h0
    | succ x ih =>
      intro hx
      obtain ⟨st, cls, seed, hst, hinv, hcr⟩ := ih (by omega)
      obtain ⟨row, hrd, hv⟩ := rowData_getElem? g hw j x hj (by omega)
      obtain ⟨st1, cls1, seed1, hstep, hinv1, hcase⟩ :=
        pixelStep_inv_created hinv (by omega) (by omega)
      refine ⟨st1, cls1, seed1, ?_, hinv1, ?_⟩
      · rw [stateBefore_succ g j x row _ hrd hv, hst]
        exact hstep
      · intro i hi
        rcases hcase with ⟨hlen, hseed⟩ | ⟨hlen, hseed, hne, hup, hleft⟩
        · rw [hseed]
          exact hcr i (by omega)
        · rw [hseed]
          by_cases hil : i = st.out.length
          · subst hil
            rw [Function.update_same]
            refine ⟨j, st, row, _, hj, rfl, hst, hrd, hv, hne, ?_, hleft, rfl⟩
            rw [index?_natCast]
            exact hup
          · rw [Function.update_noteq hil]
            exact hcr i (by omega)
  intro j
  induction j with
  | zero =>
    intro x hj hx
    refine hrow 0 hj ?_ x hx
    have hinit := Inv.init g.sample g.Rect.Dx.toNat g.Rect.Min.Y
      (List.replicate g.Rect.Dx.toNat (0 : ℤ)) (by simp)
    have hmap : (List.replicate g.Rect.Dx.toNat (0 : ℤ)).map (fun _ => (-1 : ℤ)) =
        List.replicate g.Rect.Dx.toNat (-1) := by simp
    rw [hmap] at hinit
    refine ⟨_, _, _, ?_, by simpa using hinit, ?_⟩
    · rw [stateBefore_zero g hw 0 hj]
      rfl
    · intro i hi
      simp at hi
  | succ j ih =>
    intro x hj hx
    refine hrow (j + 1) hj ?_ x hx
    obtain ⟨st, cls, seed, hst, hinv, hcr⟩ := ih g.Rect.Dx.toNat (by omega) le_rfl
    refine ⟨st, cls, seed, ?_, ?_, hcr⟩
    · rw [stateBefore_zero g hw (j + 1) hj, ← stateBefore_row_end g hw j (by omega)]
      exact hst
    · have h1 := hinv.next_row_inv
      have e : g.Rect.Min.Y + (j : ℤ) + 1 = g.Rect.Min.Y + ((j + 1 : ℕ) : ℤ) := by
        push_cast; ring
      rw [e] at h1
      exact h1

/-- On a well-formed grid the scan returns a state that satisfies the invariant, with seeds
that are the pixels at which the entries of the region list were created. -/
theorem scanRows_created (g : Gray) (hw : g.WellFormed) :
    ∃ st cls seed,
      scanRows (F := ℝ) g g.Rect.Dy.toNat g.Rect.Min.Y
        ⟨List.replicate g.Rect.Dx.toNat (-1), []⟩ = some st ∧
      Inv g.sample g.Rect.Dx.toNat g.Rect.Min.Y (g.Rect.Min.Y + (g.Rect.Dy.toNat : ℕ)) 0
        st cls seed ∧
      ∀ i, i < st.out.length → IsCreatedAt g i (seed i) := by
  rcases Nat.eq_zero_or_pos g.Rect.Dy.toNat with h0 | hpos
  · have hinit := Inv.init g.sample g.Rect.Dx.toNat g.Rect.Min.Y
      (List.replicate g.Rect.Dx.toNat (0 : ℤ)) (by simp)
    have hmap : (List.replicate g.Rect.Dx.toNat (0 : ℤ)).map (fun _ => (-1 : ℤ)) =
        List.replicate g.Rect.Dx.toNat (-1) := by simp
    rw [hmap] at hinit
    rw [h0]
    refine ⟨_, _, _, rfl, by simpa using hinit, ?_⟩
    intro i hi
    simp at hi
  · obtain ⟨j, hj⟩ : ∃ j, g.Rect.Dy.toNat = j + 1 := ⟨g.Rect.Dy.toNat - 1, by omega⟩
    obtain ⟨st, cls, seed, hst, hinv, hcr⟩ :=
      stateBefore_created g hw j g.Rect.Dx.toNat (by omega) le_rfl
    refine ⟨st, cls, seed, ?_, ?_, hcr⟩
    · rw [hj, ← stateBefore_row_end g hw j (by omega)]
      exact hst
    · have h1 := hinv.next_row_inv
      have e : g.Rect.Min.Y + (j : ℤ) + 1 = g.Rect.Min.Y + ((j + 1 : ℕ) : ℤ) := by
        push_cast; ring
      rw [e, ← hj] at h1
      exact h1

/-- One step of the scan never shortens the region list, and lengthens it by one entry when the
sample is nonzero and the cells above and to the left both hold `-1`. -/
theorem stateBefore_length_succ (g : Gray) (hw : g.WellFormed) (j x : ℕ)
    (hj : j < g.Rect.Dy.toNat) (hx : x < g.Rect.Dx.toNat) (st st1 : ScanState ℝ)
    (hst : stateBefore (F := ℝ) g j x = some st)
    (hst1 : stateBefore (F := ℝ) g j (x + 1) = some st1) :
    st.out.length ≤ st1.out.length ∧
      (g.sample (x, g.Rect.Min.Y + j) ≠ 0 → index? st.indicies x = some (-1) →
        leftOf st.indicies x = some (-1) → st1.out.length = st.out.length + 1) := by
  obtain ⟨st0, cls, seed, hst0, hinv, _⟩ := stateBefore_created g hw j x hj (by omega)
  rw [hst] at hst0
  have e := Option.some.inj hst0
  subst e
  obtain ⟨row, hrd, hv⟩ := rowData_getElem? g hw j x hj hx
  rw [stateBefore_succ g j x row _ hrd hv, hst, Option.some_bind] at hst1
  obtain ⟨st2, cls1, seed1, hstep, _, hcase⟩ :=
    pixelStep_inv_created hinv hx (show g.Rect.Min.Y ≤ g.Rect.Min.Y + (j : ℤ) by omega)
  rw [hst1] at hstep
  have e2 := Option.some.inj hstep
  subst e2
  constructor
  · rcases hcase with ⟨h1, _⟩ | ⟨h1, _⟩ <;> omega
  · intro hne hup hleft
    rw [index?_natCast] at hup
    have hxl : x < st.indicies.length := by rw [hinv.len]; exact hx
    have h2 := pixelStep_new (g.Rect.Min.Y + j) x _ st hne hxl hup hleft
    rw [hst1] at h2
    have e3 := Option.some.inj h2
    rw [e3]
    simp

/-- Along a row the region list never gets shorter. -/
theorem stateBefore_length_row (g : Gray) (hw : g.WellFormed) (j : ℕ)
    (hj : j < g.Rect.Dy.toNat) (x : ℕ) :
    ∀ x1, x ≤ x1 → x1 ≤ g.Rect.Dx.toNat → ∀ (st st1 : ScanState ℝ),
      stateBefore (F := ℝ) g j x = some st → stateBefore (F := ℝ) g j x1 = some st1 →
      st.out.length ≤ st1.out.length := by
  intro x1 hle
  induction x1, hle using Nat.le_induction with
  | base =>
    intro _ st st1 h h1
    rw [h] at h1
    rw [Option.some.inj h1]
  | succ x1 hle ih =>
    intro hx1 st st1 h h1
    obtain ⟨sta, _, _, hsta, _, _⟩ := stateBefore_created g hw j x1 hj (by omega)
    have h2 := ih (by omega) st sta h hsta
    have h3 := (stateBefore_length_succ g hw j x1 hj (by omega) sta st1 hsta h1).1
    omega

/-- From row to row the region list never gets shorter. -/
theorem stateBefore_length_rows (g : Gray) (hw : g.WellFormed) (j : ℕ) :
    ∀ j1, j ≤ j1 → j1 < g.Rect.Dy.toNat → ∀ (st st1 : ScanState ℝ),
      stateBefore (F := ℝ) g j 0 = some st → stateBefore (F := ℝ) g j1 0 = some st1 →
      st.out.length ≤ st1.out.length := by
  intro j1 hle
  induction j1, hle using Nat.le_induction with
  | base =>
    intro _ st st1 h h1
    rw [h] at h1
    rw [Option.some.inj h1]
  | succ j1 hle ih =>
    intro hj1 st st1 h h1
    obtain ⟨sta, _, _, hsta, _, _⟩ := stateBefore_created g hw j1 0 (by omega) (by omega)
    have h2 := ih (by omega) st sta h hsta
    rw [stateBefore_zero g hw (j1 + 1) hj1, ← stateBefore_row_end g hw j1 (by omega)] at h1
    have h3 := stateBefore_length_row g hw j1 (by omega) 0 _ (by omega) le_rfl sta st1 hsta h1
    omega

/-- The region list at a later point of the scan is at least as long as at an earlier one. -/
theorem stateBefore_length_mono (g : Gray) (hw : g.WellFormed) (j x j1 x1 : ℕ)
    (hj1 : j1 < g.Rect.Dy.toNat) (hx : x ≤ g.Rect.Dx.toNat) (hx1 : x1 ≤ g.Rect.Dx.toNat)
    (hlt : j < j1 ∨ (j = j1 ∧ x ≤ x1)) (st st1 : ScanState ℝ)
    (hst : stateBefore (F := ℝ) g j x = some st)
    (hst1 : stateBefore (F := ℝ) g j1 x1 = some st1) :
    st.out.length ≤ st1.out.length := by
  rcases hlt with hjj | ⟨rfl, hxx⟩
  · obtain ⟨sta, _, _, hsta, _, _⟩ :=
      stateBefore_created g hw j g.Rect.Dx.toNat (by omega) le_rfl
    obtain ⟨stb, _, _, hstb, _, _⟩ := stateBefore_created g hw j1 0 hj1 (by omega)
    have h1 := stateBefore_length_row g hw j (by omega) x _ hx le_rfl st sta hst hsta
    have hsta2 : stateBefore (F := ℝ) g (j + 1) 0 = some sta := by
      rw [stateBefore_zero g hw (j + 1) (by omega), ← stateBefore_row_end g hw j (by omega)]
      exact hsta
    have h2 := stateBefore_length_rows g hw (j + 1) j1 (by omega) hj1 sta stb hsta2 hstb
    have h3 := stateBefore_length_row g hw j1 hj1 0 x1 (by omega) hx1 stb st1 hstb hst1
    omega
  · exact stateBefore_length_row g hw j hj1 x x1 hxx hx1 st st1 hst hst1

/-- An entry of the region list is created at one pixel only. -/
theorem isCreatedAt_unique {g : Gray} (hw : g.WellFormed) {i : ℕ} {p q : Pixel}
    (hp : IsCreatedAt g i p) (hq : IsCreatedAt g i q) : p = q := by
  have key : ∀ (p q : Pixel), IsCreatedAt g i p → IsCreatedAt g i q →
      ¬ (p.2 < q.2 ∨ (p.2 = q.2 ∧ p.1 < q.1)) := by
    rintro ⟨x, y⟩ ⟨x1, y1⟩ ⟨j, st, row, v, hj, hy, hst, hrd, hv, hne, hup, hleft, hlen⟩
      ⟨j1, st1, row1, v1, hj1, hy1, hst1, hrd1, hv1, _, _, _, hlen1⟩ hlt
    simp only at hy hy1 hst hst1 hv hv1 hup hleft hlt
    have hx : x < g.Rect.Dx.toNat := by
      rw [← rowData_length g hw j hj row hrd]
      exact lt_length_of_getElem? hv
    have hx1 : x1 < g.Rect.Dx.toNat := by
      rw [← rowData_length g hw j1 hj1 row1 hrd1]
      exact lt_length_of_getElem? hv1
    obtain ⟨row2, hrd2, hv2⟩ := rowData_getElem? g hw j x hj hx
    rw [hrd] at hrd2
    have e := Option.some.inj hrd2
    subst e
    rw [hv] at hv2
    have e2 := Option.some.inj hv2
    obtain ⟨sta, _, _, hsta, _, _⟩ := stateBefore_created g hw j (x + 1) hj (by omega)
    have h1 := (stateBefore_length_succ g hw j x hj hx st sta hst hsta).2
      (by rw [← e2]; exact hne) hup hleft
    have h2 := stateBefore_length_mono g hw j (x + 1) j1 x1 hj1 (by omega) (by omega)
      (by omega) sta st1 hsta hst1
    omega
  have h1 := key p q hp hq
  have h2 := key q p hq hp
  obtain ⟨x, y⟩ := p
  obtain ⟨x1, y1⟩ := q
  simp only at h1 h2
  have : x = x1 ∧ y = y1 := by omega
  rw [this.1, this.2]

/-- What `Detect` returns on a well-formed grid, entry by entry: the blobs are the finalized
live entries of the region list the scan leaves, in the order of their indices; each live entry
holds a component and was created at a pixel of it, and the creation pixels are in scan
order. -/
theorem Detect_created (g : Gray) (hw : g.WellFormed) (pool : ArrayCache)
    (out : List (Blob ℝ)) :
    ∃ (st : ScanState ℝ) (cls : ℕ → Finset Pixel) (seed : ℕ → Pixel) (pool1 : ArrayCache),
      scanRows (F := ℝ) g g.Rect.Dy.toNat g.Rect.Min.Y
        ⟨List.replicate g.Rect.Dx.toNat (-1), []⟩ = some st ∧
      Detect Real.sqrt pool g out =
        some ((liveIdx st.out.length cls).map (fun i => moments g.sample (cls i)), pool1) ∧
      Inv g.sample g.Rect.Dx.toNat g.Rect.Min.Y (g.Rect.Min.Y + (g.Rect.Dy.toNat : ℕ)) 0
        st cls seed ∧
      ∀ i, i < st.out.length → IsCreatedAt g i (seed i) := by
  have hdx : 0 ≤ g.Rect.Dx := by unfold Rectangle.Dx; have := hw.1; omega
  obtain ⟨st, cls, seed, hscan, hinv, hcr⟩ := scanRows_created g hw
  have hD := Detect_blobs Real.sqrt pool g out hdx
  rw [hscan, Option.some_bind, hinv.finalize_out] at hD
  obtain ⟨pool1, hD1⟩ := exists_of_map_fst hD
  exact ⟨st, cls, seed, pool1, hscan, hD1, hinv, hcr⟩

/-- On the grid `1 0 1 0 / 1 0 0 1 / 1 1 1 1` no list that starts with the blob of weight 7 is
in creation order: the entry of weight 1 has the smaller index. -/
theorem not_creationOrder_gridE (b0 b1 : Blob ℝ) (h0 : b0.Weight = 7) :
    ¬ CreationOrder gridE [b0, b1] := by
  rintro ⟨st, idxs, seeds, comps, hscan, hsorted, hmem, hblobs, _⟩
  have hst : st = ⟨[2, 2, 2, 2], [⟨3, 7, 5, 13, -1⟩, ⟨2, 0, 4, 0, 1⟩, ⟨9, 10, 23, 18, 7⟩]⟩ := by
    have e := scanRows_gridE
    have e2 : scanRows (F := ℝ) gridE gridE.Rect.Dy.toNat gridE.Rect.Min.Y
        ⟨List.replicate gridE.Rect.Dx.toNat (-1), []⟩ =
        scanRows (F := ℝ) gridE 3 0 ⟨[-1, -1, -1, -1], []⟩ := rfl
    rw [e2, e] at hscan
    exact (Option.some.inj hscan).symm
  subst hst
  obtain ⟨i0, is, hi0, hrest, rfl⟩ := List.forall₂_cons_right_iff.1 hblobs
  obtain ⟨i1, is2, hi1, hnil, rfl⟩ := List.forall₂_cons_right_iff.1 hrest
  have hlt : i0 < i1 := (List.pairwise_cons.1 hsorted).1 i1 (List.mem_cons_self _ _)
  obtain ⟨e0, he0, hb0⟩ := hi0
  obtain ⟨e1, he1, _⟩ := hi1
  have hi1lt : i1 < 3 := lt_length_of_getElem? he1
  have hm0 := (hmem i0).1 (List.mem_cons_self _ _)
  obtain ⟨e0b, he0b, hw0⟩ := hm0
  rw [he0] at he0b
  have := Option.some.inj he0b
  subst this
  have hcases : i0 = 0 ∨ i0 = 1 := by omega
  rcases hcases with rfl | rfl
  · simp at he0
    subst he0
    exact hw0 rfl
  · simp at he0
    subst he0
    rw [hb0] at h0
    simp [finBlob] at h0


/-! ## The claims -/

/-- C1: on every well-formed grid whose bounds start at the origin, `Detect` returns, and the
number of blobs equals the number of maximal 4-connected components of nonzero pixels. -/
theorem Detect_length_eq_numComponents (g : Gray) (hw : g.WellFormed)
    (_h0 : g.Rect.Min = ⟨0, 0⟩) (pool : ArrayCache) (out : List (Blob ℝ)) :
    ∃ blobs pool1, Detect Real.sqrt pool g out = some (blobs, pool1) ∧
      blobs.length = numComponents g := by
  obtain ⟨comps, _, pool1, hD, henum, _, _⟩ := Detect_components g hw pool out
  exact ⟨_, pool1, hD, by rw [List.length_map, henum.length_eq]⟩

theorem Detect_length_eq_numComponents_witness :
    gridU.WellFormed ∧ gridU.Rect.Min = ⟨0, 0⟩ ∧
      ∃ blobs pool1, Detect Real.sqrt [] gridU [] = some (blobs, pool1) ∧
        blobs.length = numComponents gridU :=
  ⟨by decide, rfl, Detect_length_eq_numComponents gridU (by decide) rfl [] []⟩

/-- C2: on every well-formed grid whose bounds start at the origin, the blobs returned by
`Detect` are paired one-to-one, position by position, with a duplicate-free enumeration of the
maximal 4-connected components, and each blob has `Weight = Σ v`, `X = (Σ v*x) / Weight`,
`Y = (Σ v*y) / Weight` over the pixels of its component. -/
theorem Detect_blob_moments (g : Gray) (hw : g.WellFormed) (_h0 : g.Rect.Min = ⟨0, 0⟩)
    (pool : ArrayCache) (out : List (Blob ℝ)) :
    ∃ blobs pool1 comps, Detect Real.sqrt pool g out = some (blobs, pool1) ∧
      Enumerates g comps ∧ List.Forall₂ (MomentSpec g.sample) comps blobs := by
  obtain ⟨comps, _, pool1, hD, henum, _, _⟩ := Detect_components g hw pool out
  refine ⟨_, pool1, comps, hD, henum, ?_⟩
  rw [List.forall₂_map_right_iff, List.forall₂_same]
  intro C _
  exact moments_momentSpec g.sample C

theorem Detect_blob_moments_witness :
    gridU.WellFormed ∧ gridU.Rect.Min = ⟨0, 0⟩ ∧
      ∃ blobs pool1 comps, Detect Real.sqrt [] gridU [] = some (blobs, pool1) ∧
        Enumerates gridU comps ∧ List.Forall₂ (MomentSpec gridU.sample) comps blobs :=
  ⟨by decide, rfl, Detect_blob_moments gridU (by decide) rfl [] []⟩

/-- C3: on every well-formed grid, for every blob returned by `Detect` and its component, the
value passed to the square root is non-negative, `Xdev` and `Ydev` are non-negative,
`Xdev^2 + X^2 = (Σ v*x^2) / Weight`, `Ydev^2 + Y^2 = (Σ v*y^2) / Weight`, and for a component
of unit-valued pixels `Xdev^2 + X^2 = (Σ x^2) / n`. -/
theorem Detect_blob_deviation (g : Gray) (hw : g.WellFormed) (pool : ArrayCache)
    (out : List (Blob ℝ)) :
    ∃ blobs pool1 comps, Detect Real.sqrt pool g out = some (blobs, pool1) ∧
      Enumerates g comps ∧
      List.Forall₂ (fun C b => MomentSpec g.sample C b ∧ DeviationSpec g.sample C b)
        comps blobs := by
  obtain ⟨comps, _, pool1, hD, henum, _, _⟩ := Detect_components g hw pool out
  refine ⟨_, pool1, comps, hD, henum, ?_⟩
  rw [List.forall₂_map_right_iff, List.forall₂_same]
  intro C hC
  exact ⟨moments_momentSpec g.sample C,
    moments_deviationSpec g.sample C ((henum.2 C).1 hC).comp_weight_pos⟩

theorem Detect_blob_deviation_witness :
    gridE.WellFormed ∧
      ∃ blobs pool1 comps, Detect Real.sqrt [] gridE [] = some (blobs, pool1) ∧
        Enumerates gridE comps ∧
        List.Forall₂ (fun C b => MomentSpec gridE.sample C b ∧ DeviationSpec gridE.sample C b)
          comps blobs :=
  ⟨by decide, Detect_blob_deviation gridE (by decide) [] []⟩

/-- C4: `Detect` is total on well-formed grids: for every initial channel content and every
initial `out` slice the run reaches no out-of-range index, no out-of-range slice expression
and no zero divisor, so it returns a value. -/
theorem Detect_total (g : Gray) (hw : g.WellFormed) (pool : ArrayCache) (out : List (Blob ℝ)) :
    ∃ r, Detect Real.sqrt pool g out = some r := by
  obtain ⟨comps, _, pool1, hD, _⟩ := Detect_components g hw pool out
  exact ⟨_, hD⟩

theorem Detect_total_witness :
    (⟨[], 0, ⟨⟨0, 0⟩, ⟨0, 3⟩⟩⟩ : Gray).WellFormed ∧
      ∃ r, Detect Real.sqrt [⟨[7], [8, 8]⟩] ⟨[], 0, ⟨⟨0, 0⟩, ⟨0, 3⟩⟩⟩ [⟨9, 9, 9, 9, 9⟩] = some r :=
  ⟨by decide, Detect_total _ (by decide) _ _⟩

/-- C5: `Detect(grid, buf)` returns what `Detect(grid, nil)` returns, whatever `buf` holds. -/
theorem Detect_reuse {F : Type} [Field F] [DecidableEq F] (sqrt : F → F) (pool : ArrayCache)
    (g : Gray) (buf : List (Blob F)) :
    Detect sqrt pool g buf = Detect sqrt pool g [] := by
  unfold Detect
  cases buf <;> simp


/-- C6 (counterexample): on the grid `1 0 1 0 / 1 0 0 1 / 1 1 1 1` the blob of the pixel
`(2, 0)` is returned before the blob of weight 7, whose component contains `(0, 0)`: the blobs
are not in the scan order of the first pixels of their components. -/
theorem Detect_first_pixel_order_counterexample :
    ∃ (b1 : Blob ℝ) (pool1 : ArrayCache),
      Detect Real.sqrt [] gridE [] = some ([⟨2, 0, 0, 0, 1⟩, b1], pool1) ∧ b1.Weight = 7 ∧
        ¬ FirstPixelOrder gridE [⟨2, 0, 0, 0, 1⟩, b1] := by
  obtain ⟨b1, pool1, hb1, hD⟩ := Detect_gridE
  exact ⟨b1, pool1, hD, hb1, not_firstPixelOrder_gridE _ b1 rfl⟩

/-- C6 (amended): on every well-formed grid the blobs returned by `Detect` are listed in the
scan order of the pixels at which their surviving region entries were created: the `k`-th blob
is the finalized form of the `k`-th entry of the region list whose weight is not `-1`; the
pixel at which the scan appended that entry belongs to the blob's component and has no
foreground pixel above or to its left; and these pixels are in row-major scan order. -/
theorem Detect_creation_order (g : Gray) (hw : g.WellFormed) (pool : ArrayCache)
    (out : List (Blob ℝ)) :
    ∃ blobs pool1, Detect Real.sqrt pool g out = some (blobs, pool1) ∧
      CreationOrder g blobs := by
  obtain ⟨st, cls, seed, pool1, hscan, hD, hinv, hcr⟩ := Detect_created g hw pool out
  have hc : Classes g.fg cls := hinv.classes.congr_cls (scanned_final_iff_fg g)
  have hsorted : (liveIdx st.out.length cls).Pairwise (fun i k => i < k) :=
    (List.pairwise_lt_range st.out.length).filter _
  refine ⟨_, pool1, hD, st, liveIdx st.out.length cls, (liveIdx st.out.length cls).map seed,
    (liveIdx st.out.length cls).map cls, hscan, hsorted, ?_, ?_, ?_, ?_,
    hc.enumerates hinv.oob, ?_, ?_⟩
  · intro i
    rw [mem_liveIdx]
    constructor
    · rintro ⟨_, hne⟩
      refine ⟨_, hinv.get hne, ?_⟩
      have := hinv.rawWeight_pos hne
      intro h1
      rw [h1] at this
      norm_num at this
    · rintro ⟨e, he, hwt⟩
      refine ⟨lt_length_of_getElem? he, ?_⟩
      by_contra hne
      exact hwt (hinv.dead i e he (Finset.not_nonempty_iff_eq_empty.1 hne))
  · rw [List.forall₂_map_right_iff, List.forall₂_same]
    intro i hi
    have hne := (mem_liveIdx.1 hi).2
    exact ⟨_, hinv.get hne, (finBlob_rawSums g.sample (cls i)).symm⟩
  · rw [List.forall₂_map_right_iff, List.forall₂_same]
    intro i hi
    exact hcr i (mem_liveIdx.1 hi).1
  · rw [List.pairwise_map]
    refine hsorted.imp_of_mem ?_
    intro i k _ hk hik
    exact hinv.seeds.lt i k hik (mem_liveIdx.1 hk).1
  · rw [List.forall₂_map_left_iff, List.forall₂_map_right_iff, List.forall₂_same]
    intro i hi
    obtain ⟨h1, h2⟩ := mem_liveIdx.1 hi
    refine ⟨hinv.seed_mem i h2, (scanned_final_iff_fg g _).1 (hinv.seeds.sc i h1), ?_, ?_⟩
    · exact fun hf => (hinv.seeds.corner i h1).1 ((fore_iff_fg g _).2 hf)
    · exact fun x hx hf => (hinv.seeds.corner i h1).2 x hx ((fore_iff_fg g _).2 hf)
  · rw [List.forall₂_map_left_iff, List.forall₂_map_right_iff, List.forall₂_same]
    intro i _
    exact moments_momentSpec g.sample (cls i)

theorem Detect_creation_order_witness :
    gridE.WellFormed ∧
      ∃ blobs pool1, Detect Real.sqrt [] gridE [] = some (blobs, pool1) ∧
        CreationOrder gridE blobs :=
  ⟨by decide, Detect_creation_order gridE (by decide) [] []⟩

/-- C7 (counterexample): on the grid `1 0 1 / 1 1 1` the scan merges at index 2 of row 1 with
`upBlob = 1` and `leftBlob = 0`, so the surviving region `up` is the later-created one. -/
theorem merge_up_earlier_counterexample : IsMerge gridU 1 2 1 0 ∧ ¬ ((1 : ℤ) < 0) :=
  ⟨isMerge_gridU, by decide⟩

/-- C7 (amended): for every merge performed by `Detect` on a well-formed grid, `upBlob` and
`leftBlob` index two live entries of the region list, the surviving entry is `upBlob` (it
receives the sums of both and of the pixel) and `leftBlob` is tombstoned. -/
theorem merge_survivor_is_up (g : Gray) (hw : g.WellFormed) (j x : ℕ) (upBlob leftBlob : ℤ)
    (hm : IsMerge g j x upBlob leftBlob) : MergeOutcome g j x upBlob leftBlob := by
  obtain ⟨st, row, v, hj, hst, hrow, hvx, hv, hup, hleft, hu1, hl1, hne⟩ := hm
  rw [rowData_eq g hw j hj] at hrow
  have hrow2 := Option.some.inj hrow
  subst hrow2
  have hx : x < g.Rect.Dx.toNat := by
    have := lt_length_of_getElem? hvx
    simpa using this
  have hvs : v = g.sample (x, g.Rect.Min.Y + j) := by
    rw [List.getElem?_map, List.getElem?_range' _ _ hx] at hvx
    simp only [Option.map_some', Option.some.injEq] at hvx
    rw [← hvx]
    simp
  obtain ⟨st2, cls, seed, hst2, hinv⟩ := stateBefore_inv g hw j x hj (le_of_lt hx)
  rw [hst] at hst2
  have e := Option.some.inj hst2
  subst e
  rw [index?_natCast] at hup
  rcases hinv.up_cases hx with ⟨h1, _⟩ | ⟨iu, hiu, _, hUm⟩
  · rw [hup] at h1
    exact absurd (Option.some.inj h1) hu1
  rcases hinv.left_cases hx with ⟨h1, _⟩ | ⟨il, x2, hxe, hil, _, hLm⟩
  · rw [hleft] at h1
    exact absurd (Option.some.inj h1) hl1
  rw [hup] at hiu
  rw [hleft] at hil
  have eu := Option.some.inj hiu
  have el := Option.some.inj hil
  subst eu
  subst el
  have hne2 : iu ≠ il := fun h => hne (by rw [h])
  have hneu : (cls iu).Nonempty := ⟨_, hUm⟩
  have hnel : (cls il).Nonempty := ⟨_, hLm⟩
  have hiul := hinv.lt_length hneu
  have hill := hinv.lt_length hnel
  have hxl : x < st.indicies.length := by rw [hinv.len]; exact hx
  have hwu := hinv.rawWeight_pos hneu
  have hwl := hinv.rawWeight_pos hnel
  have hvpos : (0 : ℝ) < (v : ℝ) := by exact_mod_cast Nat.pos_of_ne_zero hv
  refine ⟨st, _, rawSums g.sample (cls iu), rawSums g.sample (cls il), v, hst, hvs, hv,
    pixelStep_merge _ x v st iu il _ _ hv hxl hup hleft hne2 (hinv.get hneu) (hinv.get hnel),
    ?_, ?_, ?_, ?_, ?_, ?_, ?_, ?_⟩
  · rw [index?_natCast]; exact hinv.get hneu
  · rw [index?_natCast]; exact hinv.get hnel
  · intro h; rw [h] at hwu; norm_num at hwu
  · intro h; rw [h] at hwl; norm_num at hwl
  · rw [index?_natCast]
    simp only
    rw [List.getElem?_set_self (by simpa using hiul)]
  · intro h
    have : (0 : ℝ) < (rawSums g.sample (cls iu)).Weight + (rawSums g.sample (cls il)).Weight +
        (v : ℝ) := by positivity
    rw [h] at this
    norm_num at this
  · rw [index?_natCast]
    simp only
    rw [List.getElem?_set_ne hne2, List.getElem?_set_self (by simpa using hill)]
    rfl
  · rw [index?_natCast]
    simp only
    rw [List.getElem?_set_self (by simpa using hxl)]

theorem merge_survivor_is_up_witness :
    gridU.WellFormed ∧ IsMerge gridU 1 2 1 0 ∧ MergeOutcome gridU 1 2 1 0 :=
  ⟨by decide, isMerge_gridU, merge_survivor_is_up gridU (by decide) 1 2 1 0 isMerge_gridU⟩

/-- C9: diagonal adjacency does not connect. For nonzero `a`, `b` the grid `0 a / b 0` yields
the blobs `{1,0,0,0,a}`, `{0,1,0,0,b}` and the grid `a 0 / 0 b` yields `{0,0,0,0,a}`,
`{1,1,0,0,b}`, in this order. -/
theorem Detect_diagonal (a b : ℕ) (ha : a ≠ 0) (hb : b ≠ 0) (pool : ArrayCache)
    (out : List (Blob ℝ)) :
    (∃ pool1, Detect Real.sqrt pool (grid2x2 0 a b 0) out =
        some ([⟨1, 0, 0, 0, (a : ℝ)⟩, ⟨0, 1, 0, 0, (b : ℝ)⟩], pool1)) ∧
      ∃ pool1, Detect Real.sqrt pool (grid2x2 a 0 0 b) out =
        some ([⟨0, 0, 0, 0, (a : ℝ)⟩, ⟨1, 1, 0, 0, (b : ℝ)⟩], pool1) := by
  constructor
  · apply exists_of_map_fst
    rw [Detect_blobs Real.sqrt pool (grid2x2 0 a b 0) out (show (0 : ℤ) ≤ 2 - 0 by decide)]
    show (scanRows (F := ℝ) (grid2x2 0 a b 0) 2 0 ⟨[-1, -1], []⟩).bind _ = _
    rw [scanRows_diag_up a b ha hb, Option.some_bind]
    exact finalize_two_pixels 1 0 0 1 a b ha hb
  · apply exists_of_map_fst
    rw [Detect_blobs Real.sqrt pool (grid2x2 a 0 0 b) out (show (0 : ℤ) ≤ 2 - 0 by decide)]
    show (scanRows (F := ℝ) (grid2x2 a 0 0 b) 2 0 ⟨[-1, -1], []⟩).bind _ = _
    rw [scanRows_diag_down a b ha hb, Option.some_bind]
    exact finalize_two_pixels 0 0 1 1 a b ha hb

theorem Detect_diagonal_witness :
    (1 : ℕ) ≠ 0 ∧ (1 : ℕ) ≠ 0 ∧
      ((∃ pool1, Detect Real.sqrt [] (grid2x2 0 1 1 0) [] =
          some ([⟨1, 0, 0, 0, ((1 : ℕ) : ℝ)⟩, ⟨0, 1, 0, 0, ((1 : ℕ) : ℝ)⟩], pool1)) ∧
        ∃ pool1, Detect Real.sqrt [] (grid2x2 1 0 0 1) [] =
          some ([⟨0, 0, 0, 0, ((1 : ℕ) : ℝ)⟩, ⟨1, 1, 0, 0, ((1 : ℕ) : ℝ)⟩], pool1)) :=
  ⟨by decide, by decide, Detect_diagonal 1 1 (by decide) (by decide) [] []⟩

/-- C10: on every well-formed grid `Detect` returns, and the result is empty if and only if
the grid has no nonzero sample inside its bounds; in particular it is empty for an all-zero
pixel array and for a grid of zero width or zero height. -/
theorem Detect_empty_iff (g : Gray) (hw : g.WellFormed) (pool : ArrayCache)
    (out : List (Blob ℝ)) :
    ∃ blobs pool1, Detect Real.sqrt pool g out = some (blobs, pool1) ∧
      (blobs = [] ↔ ∀ p, g.sample p = 0) ∧
      ((∀ v ∈ g.Pix, v = 0) → blobs = []) ∧
      (g.Rect.Dx = 0 ∨ g.Rect.Dy = 0 → blobs = []) := by
  obtain ⟨comps, _, pool1, hD, henum, _, _⟩ := Detect_components g hw pool out
  have hiff : comps.map (moments g.sample) = [] ↔ ∀ p, g.sample p = 0 := by
    rw [List.map_eq_nil_iff]
    constructor
    · intro hnil p
      by_contra hne
      obtain ⟨C, hC, _⟩ := exists_component g hw p hne
      have := (henum.2 C).2 hC
      rw [hnil] at this
      exact List.not_mem_nil C this
    · intro hall
      cases hc : comps with
      | nil => rfl
      | cons C cs =>
        have hC : IsComponent g C := (henum.2 C).1 (by rw [hc]; exact List.mem_cons_self C cs)
        obtain ⟨a, ha⟩ := hC.1
        exact absurd (hall a) ((hC.2 a ha a).1 ha).1
  refine ⟨_, pool1, hD, hiff, ?_, ?_⟩
  · intro hpix
    exact hiff.2 (sample_eq_zero_of_pix g hpix)
  · intro hdim
    apply hiff.2
    intro p
    unfold Gray.sample
    rw [if_neg]
    intro hc
    unfold Rectangle.Dx Rectangle.Dy at hdim
    unfold Rectangle.Dx at hc
    omega

theorem Detect_empty_iff_witness :
    (grid2x2 0 0 0 0).WellFormed ∧
      ∃ blobs pool1, Detect Real.sqrt [] (grid2x2 0 0 0 0) [] = some (blobs, pool1) ∧
        (blobs = [] ↔ ∀ p, (grid2x2 0 0 0 0).sample p = 0) ∧
        ((∀ v ∈ (grid2x2 0 0 0 0).Pix, v = 0) → blobs = []) ∧
        ((grid2x2 0 0 0 0).Rect.Dx = 0 ∨ (grid2x2 0 0 0 0).Rect.Dy = 0 → blobs = []) :=
  ⟨by decide, Detect_empty_iff (grid2x2 0 0 0 0) (by decide) [] []⟩


/-- C11: for nonzero `a`, `b` the one-row grid `a b` yields exactly one blob, with
`Weight = a + b`, `X = b/(a+b)`, `Y = 0`, `Ydev = 0` and
`Xdev = sqrt(b/(a+b) - (b/(a+b))^2)`; for `1 2` this is `X = 2/3`,
`Xdev = sqrt(1/3 - 1/9)`, `Weight = 3`. -/
theorem Detect_weighted_row (a b : ℕ) (ha : a ≠ 0) (hb : b ≠ 0) (pool : ArrayCache)
    (out : List (Blob ℝ)) :
    (∃ pool1, Detect Real.sqrt pool (grid1x2 a b) out =
        some ([⟨(b : ℝ) / ((a : ℝ) + (b : ℝ)), 0,
          Real.sqrt ((b : ℝ) / ((a : ℝ) + (b : ℝ)) - ((b : ℝ) / ((a : ℝ) + (b : ℝ))) ^ 2), 0,
          (a : ℝ) + (b : ℝ)⟩], pool1)) ∧
      ∃ pool1, Detect Real.sqrt pool (grid1x2 1 2) out =
        some ([⟨2 / 3, 0, Real.sqrt (1 / 3 - 1 / 9), 0, 3⟩], pool1) := by
  refine ⟨Detect_row2 a b ha hb pool out, ?_⟩
  obtain ⟨pool1, h⟩ := Detect_row2 1 2 (by decide) (by decide) pool out
  refine ⟨pool1, ?_⟩
  rw [h]
  have e1 : ((2 : ℕ) : ℝ) / (((1 : ℕ) : ℝ) + ((2 : ℕ) : ℝ)) = 2 / 3 := by norm_num
  have e2 : ((1 : ℕ) : ℝ) + ((2 : ℕ) : ℝ) = 3 := by norm_num
  have e3 : (2 / 3 : ℝ) - (2 / 3) ^ 2 = 1 / 3 - 1 / 9 := by norm_num
  rw [e1, e2, e3]

theorem Detect_weighted_row_witness :
    (1 : ℕ) ≠ 0 ∧ (2 : ℕ) ≠ 0 ∧
      ((∃ pool1, Detect Real.sqrt [] (grid1x2 1 2) [] =
          some ([⟨((2 : ℕ) : ℝ) / (((1 : ℕ) : ℝ) + ((2 : ℕ) : ℝ)), 0,
            Real.sqrt (((2 : ℕ) : ℝ) / (((1 : ℕ) : ℝ) + ((2 : ℕ) : ℝ)) -
              (((2 : ℕ) : ℝ) / (((1 : ℕ) : ℝ) + ((2 : ℕ) : ℝ))) ^ 2), 0,
            ((1 : ℕ) : ℝ) + ((2 : ℕ) : ℝ)⟩], pool1)) ∧
        ∃ pool1, Detect Real.sqrt [] (grid1x2 1 2) [] =
          some ([⟨2 / 3, 0, Real.sqrt (1 / 3 - 1 / 9), 0, 3⟩], pool1)) :=
  ⟨by decide, by decide, Detect_weighted_row 1 2 (by decide) (by decide) [] []⟩

/-- C12 (counterexample): the 2x2 grid whose four samples are 2 yields a blob of weight 8,
not 4. -/
theorem Detect_full2x2_weight_counterexample :
    ∃ pool1, Detect Real.sqrt [] (grid2x2 2 2 2 2) [] =
        some ([⟨1 / 2, 1 / 2, 1 / 2, 1 / 2, 8⟩], pool1) ∧ (8 : ℝ) ≠ 4 := by
  obtain ⟨pool1, h⟩ := Detect_full2x2 2 (by decide) [] []
  refine ⟨pool1, ?_, by norm_num⟩
  rw [h]
  have e : (4 : ℝ) * ((2 : ℕ) : ℝ) = 8 := by norm_num
  rw [e]

/-- C12 (amended): for every nonzero `c` the 2x2 grid whose four samples are `c` yields
exactly one blob, with `X = Y = Xdev = Ydev = 1/2` and `Weight = 4 * c`. -/
theorem Detect_full2x2_weight (c : ℕ) (hc : c ≠ 0) (pool : ArrayCache) (out : List (Blob ℝ)) :
    ∃ pool1, Detect Real.sqrt pool (grid2x2 c c c c) out =
      some ([⟨1 / 2, 1 / 2, 1 / 2, 1 / 2, 4 * (c : ℝ)⟩], pool1) :=
  Detect_full2x2 c hc pool out

theorem Detect_full2x2_weight_witness :
    (1 : ℕ) ≠ 0 ∧ ∃ pool1, Detect Real.sqrt [] (grid2x2 1 1 1 1) [] =
      some ([⟨1 / 2, 1 / 2, 1 / 2, 1 / 2, 4 * ((1 : ℕ) : ℝ)⟩], pool1) :=
  ⟨by decide, Detect_full2x2_weight 1 (by decide) [] []⟩

/-- C13: the blobs returned by `Detect` do not depend on the channel content: any two channel
contents (any number of pooled slices, of any capacity and with any stale cells) give the same
blob sequence, and a second call on the channel left by a first call, with any `out`, returns
the same sequence again. -/
theorem Detect_pool_independent {F : Type} [Field F] [DecidableEq F] (sqrt : F → F)
    (pool1 pool2 : ArrayCache) (g : Gray) (out out2 : List (Blob F)) :
    (Detect sqrt pool1 g out).map Prod.fst = (Detect sqrt pool2 g out).map Prod.fst ∧
      (Detect sqrt pool1 g out).bind (fun r => (Detect sqrt r.2 g out2).map Prod.fst) =
        (Detect sqrt pool1 g out).map Prod.fst := by
  refine ⟨Detect_map_fst_indep sqrt pool1 pool2 g out out, ?_⟩
  cases h : Detect sqrt pool1 g out with
  | none => rfl
  | some r =>
    simp only [Option.some_bind]
    rw [← h]
    exact Detect_map_fst_indep sqrt r.2 pool1 g out2 out

/-- C14 (counterexample): the channel holds a slice of capacity 0 followed by one of capacity
3; `getIntArray(2)` receives the first, finds it too small and returns a fresh array `[0, 0]`,
although a pooled slice of capacity 3 is present. -/
theorem getIntArray_pooled_counterexample :
    (∃ b ∈ poolSmallBig, (2 : ℤ) ≤ (b.cap : ℤ)) ∧
      getIntArray poolSmallBig 2 = some (⟨[0, 0], []⟩, [⟨[7, 7, 7], []⟩]) ∧
      ¬ ReturnsPooled poolSmallBig 2 := by
  refine ⟨⟨⟨[7, 7, 7], []⟩, by decide, by decide⟩, getIntArray_poolSmallBig, ?_⟩
  rintro ⟨b, hb, rest, h⟩
  rw [getIntArray_poolSmallBig] at h
  have h1 := congrArg (fun r => r.1.cells) (Option.some.inj h)
  simp only [IntSlice.view] at h1
  simp only [poolSmallBig, List.mem_cons, List.mem_singleton, List.not_mem_nil, or_false] at hb
  rcases hb with rfl | rfl
  · exact absurd h1 (by decide)
  · exact absurd h1 (by decide)

/-- C14 (amended): for every size >= 0, if the slice at the head of the channel has capacity
>= size, `getIntArray(size)` returns that slice viewed to length `size` and leaves the rest of
the channel; if the head is too small it is dropped and a fresh zeroed array of length `size`
is returned; on an empty channel a fresh array is returned. -/
theorem getIntArray_head (b : IntSlice) (rest : ArrayCache) (size : ℤ) (h0 : 0 ≤ size) :
    (size ≤ (b.cap : ℤ) → getIntArray (b :: rest) size = some (b.view size, rest)) ∧
      ((b.cap : ℤ) < size →
        getIntArray (b :: rest) size = some (⟨List.replicate size.toNat 0, []⟩, rest)) ∧
      getIntArray [] size = some (⟨List.replicate size.toNat 0, []⟩, []) := by
  refine ⟨?_, ?_, ?_⟩
  · intro h
    simp only [getIntArray, ge_iff_le, h, if_true, h0, IntSlice.view]
  · intro h
    have h2 : ¬ size ≤ (b.cap : ℤ) := by omega
    simp only [getIntArray, ge_iff_le, h2, if_false, makeInts, h0, if_true, Option.map_some']
  · simp only [getIntArray, makeInts, h0, if_true, Option.map_some']

theorem getIntArray_head_witness :
    (0 : ℤ) ≤ 2 ∧
      (((2 : ℤ) ≤ ((⟨[7], [8, 8]⟩ : IntSlice).cap : ℤ) →
          getIntArray [⟨[7], [8, 8]⟩] 2 = some ((⟨[7], [8, 8]⟩ : IntSlice).view 2, [])) ∧
        ((((⟨[7], [8, 8]⟩ : IntSlice).cap : ℤ) < 2 →
          getIntArray [⟨[7], [8, 8]⟩] 2 = some (⟨List.replicate (2 : ℤ).toNat 0, []⟩, [])) ∧
        getIntArray [] 2 = some (⟨List.replicate (2 : ℤ).toNat 0, []⟩, []))) :=
  ⟨by decide, getIntArray_head ⟨[7], [8, 8]⟩ [] 2 (by decide)⟩

/-- C15: for every channel content and every size >= 0, `getIntArray(size)` returns a slice
whose length is exactly `size`. -/
theorem getIntArray_length (pool : ArrayCache) (size : ℤ) (h : 0 ≤ size) :
    ∃ buf rest, getIntArray pool size = some (buf, rest) ∧ (buf.cells.length : ℤ) = size := by
  obtain ⟨got, hgot, hlen⟩ := getIntArray_some pool size h
  refine ⟨got.1, got.2, hgot, ?_⟩
  rw [hlen]
  omega

theorem getIntArray_length_witness :
    (0 : ℤ) ≤ 2 ∧ ∃ buf rest, getIntArray [⟨[7], [8, 8]⟩, ⟨[], []⟩] 2 = some (buf, rest) ∧
      (buf.cells.length : ℤ) = 2 :=
  ⟨by decide, getIntArray_length _ 2 (by decide)⟩

/-- C16: row-state invariant. On a well-formed grid, at every point of the scan (before the
sample at index `x` of row `j`, for every `x` up to the width, that is after each processed
pixel), every cell of `indicies` is `-1` or an index `i` with `0 <= i < len(out)` whose entry
is live (`Weight != -1`). -/
theorem rowState_cells_live (g : Gray) (hw : g.WellFormed) (j x : ℕ)
    (hj : j < g.Rect.Dy.toNat) (hx : x ≤ g.Rect.Dx.toNat) :
    ∃ st : ScanState ℝ, stateBefore g j x = some st ∧
      ∀ (c : ℕ) (z : ℤ), st.indicies[c]? = some z →
        z = -1 ∨ (0 ≤ z ∧ z < (st.out.length : ℤ) ∧
          ∃ b, index? st.out z = some b ∧ b.Weight ≠ -1) := by
  obtain ⟨st, cls, seed, hst, hinv⟩ := stateBefore_inv g hw j x hj hx
  refine ⟨st, hst, ?_⟩
  intro c z hz
  rcases hinv.cell_cases c z hz with h1 | ⟨i, rfl, hne⟩
  · exact Or.inl h1
  · right
    have hil := hinv.lt_length hne
    refine ⟨by omega, by exact_mod_cast hil, rawSums g.sample (cls i), ?_, ?_⟩
    · rw [index?_natCast]; exact hinv.get hne
    · have := hinv.rawWeight_pos hne
      intro e; rw [e] at this; norm_num at this

theorem rowState_cells_live_witness :
    gridU.WellFormed ∧ 1 < gridU.Rect.Dy.toNat ∧ 2 ≤ gridU.Rect.Dx.toNat ∧
      ∃ st : ScanState ℝ, stateBefore gridU 1 2 = some st ∧
        ∀ (c : ℕ) (z : ℤ), st.indicies[c]? = some z →
          z = -1 ∨ (0 ≤ z ∧ z < (st.out.length : ℤ) ∧
            ∃ b, index? st.out z = some b ∧ b.Weight ≠ -1) :=
  ⟨by decide, by decide, by decide, rowState_cells_live gridU (by decide) 1 2 (by decide)
    (by decide)⟩

/-- C17: weight invariant. On a well-formed grid, at every point of the scan every entry of
the region list has `Weight = -1` or `Weight >= 1`; the finalizer applied to the list succeeds
(no zero divisor) and keeps exactly the entries with `Weight != -1`; in a step a tombstone
stays a tombstone, and a live entry becomes a tombstone only as the `leftBlob` of a merge. -/
theorem weight_invariant (g : Gray) (hw : g.WellFormed) (j x : ℕ)
    (hj : j < g.Rect.Dy.toNat) (hx : x ≤ g.Rect.Dx.toNat) :
    ∃ st : ScanState ℝ, stateBefore g j x = some st ∧
      (∀ b ∈ st.out, b.Weight = -1 ∨ 1 ≤ b.Weight) ∧
      (∃ res, finalize Real.sqrt st.out = some res ∧
        res.length = (st.out.filter (fun b => decide (b.Weight ≠ -1))).length) ∧
      ∀ st1 : ScanState ℝ, x < g.Rect.Dx.toNat → stateBefore g j (x + 1) = some st1 →
        ∀ (i : ℕ) (b b1 : Blob ℝ), st.out[i]? = some b → st1.out[i]? = some b1 →
          (b.Weight = -1 → b1.Weight = -1) ∧
            (b.Weight ≠ -1 → b1.Weight = -1 → ∃ up, IsMerge g j x up (i : ℤ)) := by
  obtain ⟨st, cls, seed, hst, hinv⟩ := stateBefore_inv g hw j x hj hx
  have hwt : ∀ b ∈ st.out, b.Weight = -1 ∨ 1 ≤ b.Weight := by
    intro b hb
    obtain ⟨i, hi⟩ := List.mem_iff_getElem?.1 hb
    rcases hinv.weight_cases i b hi with ⟨_, h1⟩ | ⟨_, h1⟩
    · exact Or.inl h1
    · exact Or.inr h1
  refine ⟨st, hst, hwt, ?_, ?_⟩
  · refine ⟨finalizeSpec Real.sqrt st.out, ?_, by simp [finalizeSpec]⟩
    apply finalize_eq
    intro b hb
    rcases hwt b hb with h1 | h1
    · rw [h1]; norm_num
    · intro e; rw [e] at h1; norm_num at h1
  · intro st1 hx1 hst1 i b b1 hb hb1
    have hrow := rowData_eq g hw j hj
    have hvx : ((List.range' 0 g.Rect.Dx.toNat).map
        (fun c => g.sample (c, g.Rect.Min.Y + j)))[x]? = some (g.sample (x, g.Rect.Min.Y + j)) := by
      rw [List.getElem?_map, List.getElem?_range' _ _ hx1]
      simp
    rw [stateBefore_succ g j x _ _ hrow hvx, hst, Option.some_bind] at hst1
    obtain ⟨h1, h2⟩ := hinv.step_tombstone hx1 st1 hst1 i b b1 hb hb1
    refine ⟨h1, ?_⟩
    intro hlive hdead
    obtain ⟨hv, up, hup, hleft, hu1, hu2⟩ := h2 hlive hdead
    exact ⟨up, st, _, _, hj, hst, hrow, hvx, hv, by rw [index?_natCast]; exact hup, hleft, hu1,
      by omega, hu2⟩

theorem weight_invariant_witness :
    gridU.WellFormed ∧ 1 < gridU.Rect.Dy.toNat ∧ 2 ≤ gridU.Rect.Dx.toNat ∧
      ∃ st : ScanState ℝ, stateBefore gridU 1 2 = some st ∧
        (∀ b ∈ st.out, b.Weight = -1 ∨ 1 ≤ b.Weight) ∧
        (∃ res, finalize Real.sqrt st.out = some res ∧
          res.length = (st.out.filter (fun b => decide (b.Weight ≠ -1))).length) ∧
        ∀ st1 : ScanState ℝ, 2 < gridU.Rect.Dx.toNat → stateBefore gridU 1 (2 + 1) = some st1 →
          ∀ (i : ℕ) (b b1 : Blob ℝ), st.out[i]? = some b → st1.out[i]? = some b1 →
            (b.Weight = -1 → b1.Weight = -1) ∧
              (b.Weight ≠ -1 → b1.Weight = -1 → ∃ up, IsMerge gridU 1 2 up (i : ℤ)) :=
  ⟨by decide, by decide, by decide, weight_invariant gridU (by decide) 1 2 (by decide)
    (by decide)⟩

/-- C18: the in-place finalize loop equals the filter-then-map of the accumulator list, for
every list (both are undefined exactly when an entry has weight zero), and the length of the
result is the original length minus the number of tombstoned entries. -/
theorem finalize_refines_filterMap {F : Type} [Field F] [DecidableEq F] (sqrt : F → F)
    (out : List (Blob F)) :
    finalize sqrt out = finalizeFilterMap sqrt out ∧
      (finalize sqrt out).map List.length =
        (finalize sqrt out).map
          (fun _ => out.length - out.countP (fun b => decide (b.Weight = -1))) := by
  have hne : ¬ ((0 : F) = -1) := by
    intro e
    have : (1 : F) = 0 := by
      have := congrArg (fun t => t + 1) e
      simpa using this.symm
    exact one_ne_zero this
  by_cases h0 : ∀ b ∈ out, b.Weight ≠ 0
  · have hfin := finalize_eq sqrt out h0
    constructor
    · rw [hfin]
      unfold finalizeFilterMap finalizeSpec
      rw [sequenceOpt_map_some (finBlob sqrt)]
      intro b hb
      have hb2 : b ∈ out := List.mem_of_mem_filter hb
      simp only [finBlob?, h0 b hb2, if_false]
    · rw [hfin]
      simp only [Option.map_some', Option.some.injEq, finalizeSpec, List.length_map]
      have h1 := List.length_eq_countP_add_countP (p := fun b : Blob F => decide (b.Weight = -1)) out
      have h2 : List.countP (fun b : Blob F => decide ¬ (decide (b.Weight = -1) = true)) out =
          (out.filter (fun b => decide (b.Weight ≠ -1))).length := by
        rw [List.countP_eq_length_filter]
        congr 2
        funext b
        simp
      omega
  · have hex : ∃ b ∈ out, b.Weight = 0 := by
      by_contra hc
      exact h0 (fun b hb hz => hc ⟨b, hb, hz⟩)
    have hfin := finalize_zero_weight sqrt out hex
    constructor
    · rw [hfin]
      unfold finalizeFilterMap
      rw [sequenceOpt_map_none]
      obtain ⟨b, hb, hz⟩ := hex
      refine ⟨b, ?_, by simp only [finBlob?, hz, if_true]⟩
      rw [List.mem_filter]
      refine ⟨hb, ?_⟩
      simp only [ne_eq, hz, hne, not_false_eq_true, decide_True]
    · rw [hfin]
      rfl

/-- C19: weight conservation. On every well-formed grid the `Weight` fields of the blobs
returned by `Detect` add up to the sum of all samples of the grid. -/
theorem Detect_weight_conservation (g : Gray) (hw : g.WellFormed) (pool : ArrayCache)
    (out : List (Blob ℝ)) :
    ∃ blobs pool1, Detect Real.sqrt pool g out = some (blobs, pool1) ∧
      (blobs.map Blob.Weight).sum = (gridSum g : ℝ) := by
  obtain ⟨n, cls, seed, pool1, hD, hc, hoob, _, _, _⟩ := Detect_spec g hw pool out
  refine ⟨_, pool1, hD, ?_⟩
  rw [List.map_map, ← hc.sum_weights hoob]
  rfl

theorem Detect_weight_conservation_witness :
    gridE.WellFormed ∧ ∃ blobs pool1, Detect Real.sqrt [] gridE [] = some (blobs, pool1) ∧
      (blobs.map Blob.Weight).sum = (gridSum gridE : ℝ) :=
  ⟨by decide, Detect_weight_conservation gridE (by decide) [] []⟩

/-- C20: for a well-formed grid with any bounds whose only nonzero sample `v` is at the
absolute image position `(px, py)`, `Detect` returns one blob with `X = px - Min.X` (relative
to the left edge of the bounds) and `Y = py` (the absolute image row). -/
theorem Detect_offset_bounds (g : Gray) (hw : g.WellFormed) (px py : ℤ) (v : ℕ) (hv : v ≠ 0)
    (hs : g.GrayAt px py = v) (hz : ∀ x y, (x, y) ≠ (px, py) → g.GrayAt x y = 0)
    (pool : ArrayCache) (out : List (Blob ℝ)) :
    ∃ b pool1, Detect Real.sqrt pool g out = some ([b], pool1) ∧
      b.X = ((px - g.Rect.Min.X : ℤ) : ℝ) ∧ b.Y = (py : ℝ) := by
  have hin : g.Rect.Min.X ≤ px ∧ px < g.Rect.Max.X ∧ g.Rect.Min.Y ≤ py ∧ py < g.Rect.Max.Y := by
    by_contra hc
    apply hv
    rw [← hs]
    unfold Gray.GrayAt
    rw [if_neg hc]
  have hcx : g.Rect.Min.X + (((px - g.Rect.Min.X).toNat : ℕ) : ℤ) = px := by omega
  have hsp : g.sample ((px - g.Rect.Min.X).toNat, py) = v := by
    rw [g.sample_eq_GrayAt]
    simp only
    rw [hcx, hs]
  have hzero : ∀ q : Pixel, q ≠ ((px - g.Rect.Min.X).toNat, py) → g.sample q = 0 := by
    intro q hq
    rw [g.sample_eq_GrayAt]
    apply hz
    intro e
    apply hq
    have e1 := congrArg Prod.fst e
    have e2 := congrArg Prod.snd e
    simp only at e1 e2
    ext
    · simp only; omega
    · exact e2
  obtain ⟨pool1, hD⟩ := Detect_one_pixel g hw ((px - g.Rect.Min.X).toNat, py)
    (by rw [hsp]; exact hv) hzero pool out
  refine ⟨_, pool1, hD, ?_, rfl⟩
  show (((px - g.Rect.Min.X).toNat : ℕ) : ℝ) = ((px - g.Rect.Min.X : ℤ) : ℝ)
  rw [← Int.cast_natCast, Int.toNat_of_nonneg (by omega)]

theorem Detect_offset_bounds_witness :
    gridOff.WellFormed ∧ (9 : ℕ) ≠ 0 ∧ gridOff.GrayAt 3 6 = 9 ∧
      (∀ x y, (x, y) ≠ ((3 : ℤ), (6 : ℤ)) → gridOff.GrayAt x y = 0) ∧
      ∃ b pool1, Detect Real.sqrt [] gridOff [] = some ([b], pool1) ∧
        b.X = (((3 : ℤ) - gridOff.Rect.Min.X : ℤ) : ℝ) ∧ b.Y = ((6 : ℤ) : ℝ) :=
  ⟨by decide, by decide, by decide, gridOff_GrayAt,
    Detect_offset_bounds gridOff (by decide) 3 6 9 (by decide) (by decide) gridOff_GrayAt [] []⟩

end Blobdetect
